import Mathlib

/-!
# SimpleNoteApp: the note collection and its CSV store

A shallow embedding of `src/main.cpp`.

* The C++ `std::string` is a sequence of characters, `string` below.
* The C++ `int` is modelled by `Int`.  The subtractions and `std::abs` of
  `utilities::closest` are computed in 32 bits with two's complement
  wrap-around (`wrap`), which is what they give when the arguments lie further
  apart than `INT_MAX`.  The counter of `sanitize_codes` and the value of
  `yieldCode` are exact: they pass `INT_MAX` only in a list of 2147483647 nodes
  or more, which no run of the program holds.  `std::stoi` keeps its range
  check, so the sentinel `_MAX_INTEGER` is the real `INT_MAX`.
* A call that an exception ends, as `utilities::format` with a negative
  padding, returns `none`.
* The failure to open a file is not modelled: `writeCSV` is the text it writes
  and `readCSV` works on the text of the file.
* Standard input is the sequence of its unread characters, and what a function
  writes to `std::cout` is the list of the texts it prints, in order.  A
  function that reads returns the input left unread; it returns `none` when the
  input ends first, where the C++ loop goes round for ever.
* A `LinkedList` is the head-to-tail sequence of its nodes together with the
  `length` field, which the code maintains separately.  `head` is the first
  element of the sequence, `last` the final one, `next_ref` is the successor
  and `prior_ref` the predecessor in the sequence.  Every note is owned by
  exactly one node (`create_note` allocates a fresh one for each `push_node`),
  so a node carries its note by value.
-/

namespace SimpleNoteApp

/-- The C++ `std::string`. -/
abbrev string := List Char

namespace utilities

/-- The C++ `std::numeric_limits<int>::max()`. -/
def _MAX_INTEGER : Int := 2147483647

/-- The `int` an arithmetic operation leaves when its exact result is `i`: the
value of `i` modulo 2^32 in the range of `int`.  It is `i` itself when `i` is
in range.  Out of range the C++ standard leaves the behaviour undefined; the
value taken here is the two's complement result, which is what the compiled
subtraction and negation give. -/
def wrap (i : Int) : Int := (i + 2147483648) % 4294967296 - 2147483648

/-- The C++ `std::abs` on `int`; the negation of `INT_MIN` wraps around to
`INT_MIN`. -/
def abs (x : Int) : Int := if x < 0 then wrap (-x) else x

/-- The C++ `utilities::closest`: `min` when the distance of `target` to it,
computed in `int`, is at most the distance to `max`, and `max` otherwise. -/
def closest (target min max : Int) : Int :=
  if abs (wrap (target - min)) ≤ abs (wrap (target - max)) then min else max

/-- The C++ `std::to_string(int)`: decimal digits, with a leading minus sign for a
negative value. -/
def to_string (i : Int) : string :=
  if i < 0 then '-' :: Nat.toDigits 10 i.natAbs else Nat.toDigits 10 i.natAbs

/-- The C++ `std::isspace` in the "C" locale. -/
def isspace (c : Char) : Bool :=
  c == ' ' || c == '\t' || c == '\n' || c == '\x0b' || c == '\x0c' || c == '\r'

/-- The C++ `std::isdigit`. -/
def isdigit (c : Char) : Bool := '0' ≤ c && c ≤ '9'

/-- The outcome of `std::stoi`: a value, or one of its two exceptions. -/
inductive stoi_result where
  | value (v : Int)
  | invalid_argument
  | out_of_range
  deriving DecidableEq

/-- The digits of a decimal numeral, most significant first, as a number. -/
def digits_value (ds : string) : Nat :=
  ds.foldl (fun acc c => acc * 10 + (c.toNat - '0'.toNat)) 0

/-- The C++ `std::stoi(str)` (base 10): skip leading white space, accept one optional
sign, read the longest run of digits and ignore what follows.  No digit at all
is `invalid_argument`; a value that does not fit an `int` is `out_of_range`. -/
def stoi (str : string) : stoi_result :=
  let s := str.dropWhile isspace
  let neg := s.head? == some '-'
  let s := if s.head? == some '-' || s.head? == some '+' then s.tail else s
  let ds := s.takeWhile isdigit
  if ds.isEmpty then stoi_result.invalid_argument
  else
    let v : Int := if neg then -(digits_value ds : Int) else (digits_value ds : Int)
    if v < -2147483648 ∨ 2147483647 < v then stoi_result.out_of_range
    else stoi_result.value v

/-- The C++ `utilities::safe_stoi`: the parsed value, or `_MAX_INTEGER` when `std::stoi`
throws (the message it prints is `safe_stoi_output`). -/
def safe_stoi (str : string) : Int :=
  match stoi str with
  | stoi_result.value v => v
  | stoi_result.invalid_argument => _MAX_INTEGER
  | stoi_result.out_of_range => _MAX_INTEGER

end utilities

/-- The C++ `struct Note`. -/
structure Note where
  code : Int
  title : string
  description : string
  deriving DecidableEq

/-- The C++ `struct LinkedList`: the nodes from `head` to `last`, and the
`length` field. -/
structure LinkedList where
  nodes : List Note
  length : Nat
  deriving DecidableEq

/-- The C++ `create_list`: the empty list (`head = last = nullptr`, `length = 0`). -/
def create_list : LinkedList := { nodes := [], length := 0 }

/-- The C++ `create_note`. -/
def create_note (code : Int) (name description : string) : Note :=
  { code := code, title := name, description := description }

namespace LinkedList

/-- The `head` pointer: the first node, if any. -/
def head (l : LinkedList) : Option Note := l.nodes.head?

/-- The `last` pointer: the final node, if any. -/
def last (l : LinkedList) : Option Note := l.nodes.getLast?

/-- The loop of `search`, started at a node and following `next_ref`. -/
def search_loop (code : Int) : List Note → Option Note
  | [] => none
  | current :: next_ref =>
    if current.code ≠ code then search_loop code next_ref else some current

/-- The C++ `LinkedList::search`: the first note from the head whose code is `code`. -/
def search (l : LinkedList) (code : Int) : Option Note :=
  search_loop code l.nodes

/-- The loop of `sanitize_codes`: write `value`, `value + 1`, ... into the
codes, following `next_ref`. -/
def sanitize_loop : List Note → Int → List Note
  | [], _ => []
  | current :: next_ref, value =>
    { current with code := value } :: sanitize_loop next_ref (value + 1)

/-- The C++ `LinkedList::sanitize_codes`. -/
def sanitize_codes (l : LinkedList) : LinkedList :=
  { l with nodes := sanitize_loop l.nodes 1 }

/-- The C++ `LinkedList::push_node`: link the new node after `last` (or make it the
only node), increment `length`, renumber. -/
def push_node (l : LinkedList) (new_note : Note) : LinkedList :=
  let linked : List Note :=
    if l.head.isSome && l.last.isSome then l.nodes ++ [new_note] else [new_note]
  sanitize_codes { nodes := linked, length := l.length + 1 }

/-- The scan of `delete_note` from `head` along `next_ref`: the position
(counted from the head, starting at `i`) of the first node with the code. -/
def scan_next (code : Int) : List Note → Nat → Option Nat
  | [], _ => none
  | current :: next_ref, i =>
    if current.code ≠ code then scan_next code next_ref (i + 1) else some i

/-- The scan of `delete_note` from `last` along `prior_ref`.  The argument is
the current node followed by its predecessors, nearest first; the result is the
position of the found node counted from the head. -/
def scan_prior (code : Int) : List Note → Option Nat
  | [] => none
  | current :: prior_ref =>
    if current.code ≠ code then scan_prior code prior_ref else some prior_ref.length

/-- The node `delete_note` stops at: scan from the head when `from_head`, from
the tail otherwise. -/
def locate (l : LinkedList) (code : Int) (from_head : Bool) : Option Nat :=
  if from_head then scan_next code l.nodes 0 else scan_prior code l.nodes.reverse

/-- The decrement `length--` on a `size_t`, which wraps around at zero. -/
def decrement (length : Nat) : Nat :=
  if length = 0 then 18446744073709551615 else length - 1

/-- The nodes the loop of `delete_note` passes through.  The argument is the
starting node followed by the nodes the loop moves on to (`next_ref` or
`prior_ref`); the result is these nodes up to and including the first one with
the code, or all of them when there is none. -/
def scan_visit (code : Int) : List Note → List Note
  | [] => []
  | current :: onward =>
    if current.code ≠ code then current :: scan_visit code onward else [current]

/-- The C++ `LinkedList::delete_note`, together with the nodes `current` passes
through in its loop, in the order of the visits.  The loop starts at `head` and
follows `next_ref` when `closest == min`; otherwise it starts at `last` and
follows `prior_ref`. -/
def delete_note_visit (l : LinkedList) (code : Int) : LinkedList × List Note :=
  match l.head, l.last with
  | some head, some last =>
    let min := head.code
    let max := last.code
    let closest := utilities.closest code min max
    let from_head := closest == min
    let visited := scan_visit code (if from_head then l.nodes else l.nodes.reverse)
    match locate l code from_head with
    | some i =>
      (sanitize_codes { nodes := l.nodes.eraseIdx i, length := decrement l.length }, visited)
    | none => (sanitize_codes l, visited)
  | _, _ => (l, [])

/-- The C++ `LinkedList::delete_note`: the list `delete_note_visit` leaves. -/
def delete_note (l : LinkedList) (code : Int) : LinkedList := (delete_note_visit l code).1

/-- The loop of `fetchCodes`. -/
def fetchCodes_loop : List Note → List string
  | [] => []
  | current :: next_ref => utilities.to_string current.code :: fetchCodes_loop next_ref

/-- The C++ `LinkedList::fetchCodes`. -/
def fetchCodes (l : LinkedList) : List string := fetchCodes_loop l.nodes

/-- The C++ `LinkedList::yieldCode`. -/
def yieldCode (l : LinkedList) : Int := (l.length : Int) + 1

end LinkedList

/-- The C++ `std::getline(stream, str, delim)` on the unread characters of a stream.
With nothing left to read the extraction fails (`none`).  Otherwise `str` is
what stands before the first `delim` (or before the end of the stream), and the
stream moves past that delimiter. -/
def getline (stream : string) (delim : Char) : Option (string × string) :=
  match stream with
  | [] => none
  | _ :: _ =>
    some (stream.takeWhile (fun c => c != delim),
          (stream.dropWhile (fun c => c != delim)).tail)

namespace store_manipulation

/-- The loop of `writeCSV`: one line `code,title,description` per note. -/
def writeCSV_loop : List Note → string
  | [] => []
  | current :: next_ref =>
    utilities.to_string current.code ++ [','] ++ current.title ++ [','] ++
      current.description ++ ['\n'] ++ writeCSV_loop next_ref

/-- The C++ `store_manipulation::writeCSV`, for a file that opens: the text written. -/
def writeCSV (list : LinkedList) : string := writeCSV_loop list.nodes

/-- The body of the loop of `readCSV` for one line of the file. -/
def readCSV_line (list : LinkedList) (line : string) : LinkedList :=
  match getline line ',' with
  | none => list
  | some (codeStr, ss) =>
    match getline ss ',' with
    | none => list
    | some (title, ss) =>
      match getline ss '\n' with
      | none => list
      | some (description, _) =>
        let code := utilities.safe_stoi codeStr
        if code = utilities._MAX_INTEGER then list
        else list.push_node (create_note code title description)

/-- The loop `while (std::getline(file, line))` of `readCSV`, run for at most
`fuel` iterations. -/
def readCSV_loop : Nat → LinkedList → string → LinkedList
  | 0, list, _ => list
  | fuel + 1, list, file =>
    match getline file '\n' with
    | none => list
    | some (line, file) => readCSV_loop fuel (readCSV_line list line) file

/-- The C++ `store_manipulation::readCSV`, for a file that opens, given its text.  Every
iteration consumes at least one character, so `file.length` iterations exhaust
the file (`readCSV_loop_fuel`). -/
def readCSV (list : LinkedList) (file : string) : LinkedList :=
  readCSV_loop file.length list file

end store_manipulation

/-- The collections the program can hold: the empty list, and what `push_node`
and `delete_note` make of a reachable one. -/
inductive Reachable : LinkedList → Prop where
  | create : Reachable create_list
  | push (l : LinkedList) (new_note : Note) : Reachable l → Reachable (l.push_node new_note)
  | delete (l : LinkedList) (code : Int) : Reachable l → Reachable (l.delete_note code)

/-- The codes of a collection, from head to tail. -/
def codes (l : LinkedList) : List Int := l.nodes.map Note.code

/-- The (title, description) pairs of a collection, from head to tail. -/
def contents (l : LinkedList) : List (string × string) :=
  l.nodes.map (fun n => (n.title, n.description))

/-- The list `1, 2, ..., n`. -/
def one_to (n : Nat) : List Int := (List.range n).map (fun (i : Nat) => (i : Int) + 1)

/-- The state invariant: the `length` field counts the nodes and the codes are
`1, ..., length` from head to tail. -/
def Dense (l : LinkedList) : Prop :=
  l.length = l.nodes.length ∧ codes l = one_to l.nodes.length

/-- The line `writeCSV` writes for a note, without its final newline. -/
def note_line (n : Note) : string :=
  utilities.to_string n.code ++ [','] ++ n.title ++ [','] ++ n.description

/-- The text of a file that consists of the given lines, each ended by a
newline. -/
def file_of_lines : List string → string
  | [] => []
  | line :: rest => line ++ ['\n'] ++ file_of_lines rest

/-- The note the loop body of `readCSV` appends for a line, if it appends one:
the three extractions succeed and `safe_stoi` does not return the sentinel. -/
def line_note (line : string) : Option Note :=
  match getline line ',' with
  | none => none
  | some (codeStr, ss) =>
    match getline ss ',' with
    | none => none
    | some (title, ss) =>
      match getline ss '\n' with
      | none => none
      | some (description, _) =>
        if utilities.safe_stoi codeStr = utilities._MAX_INTEGER then none
        else some (create_note (utilities.safe_stoi codeStr) title description)

/-- A malformed line in the words of the specification: fewer than three
comma-separated fields, or a code field that `std::stoi` rejects. -/
def malformed (line : string) : Bool :=
  decide (line.count ',' < 2) ||
    (match utilities.stoi (line.takeWhile (fun c => c != ',')) with
     | utilities.stoi_result.value _ => false
     | _ => true)

/-- The three lines of the specification's example. -/
def grocery_lines : List string :=
  ["1,Groceries,Buy milk".toList, "bad,line".toList, "2,Meeting,Standup at 9".toList]

/-- One note whose description is empty. -/
def blank_description : LinkedList :=
  create_list.push_node ⟨1, "a".toList, [] ⟩

/-- The collection built by `n` appends of a note with title `a` and
description `b`. -/
def uniform_notes (n : Nat) : LinkedList :=
  (List.replicate n ⟨0, ['a'], ['b']⟩).foldl LinkedList.push_node create_list

/-- Five notes, appended with arbitrary incoming codes (the five-note case of
the specification). -/
def five_notes : LinkedList :=
  ((((create_list.push_node ⟨7, "alpha".toList, "first".toList⟩).push_node
    ⟨-3, "beta".toList, "second".toList⟩).push_node
    ⟨7, "gamma".toList, "third".toList⟩).push_node
    ⟨0, "delta".toList, "fourth".toList⟩).push_node
    ⟨2147483647, "epsilon".toList, "fifth".toList⟩

/-- A run that mixes appends with deletes of present and absent codes. -/
def mixed_run : LinkedList :=
  (((five_notes.delete_note 2).delete_note 9).delete_note (-2147483648)).push_node
    ⟨1, "zeta".toList, "sixth".toList⟩

/-- Two notes with the same title and description. -/
def twin_notes : LinkedList :=
  (create_list.push_node ⟨1, "a".toList, "b".toList⟩).push_node ⟨2, "a".toList, "b".toList⟩

/-- The conversion of an `int` to `size_t` (64 bits), which the comparison
`as_string.length() < padding` of `utilities::format` applies to `padding`:
the value modulo 2^64. -/
def utilities.to_size_t (i : Int) : Nat := (i % 18446744073709551616).toNat

/-- The greatest length a `std::string` can have, `max_size()`.  No
implementation on a 64-bit platform allows more than `PTRDIFF_MAX`
characters, which is the value taken here.  The exact value does not matter
for `utilities::format`: as a `size_t` an `int` padding is either at most
2147483647 or at least 2^64 - 2^31. -/
def utilities.max_size : Nat := 9223372036854775807

/-- The loop of `utilities::format`, run for at most `fuel` iterations: put a
`0` in front while the text is shorter than `padding`.  The result of
`'0' + as_string` is one character longer than `as_string`; when that is more
than `max_size()` the operator throws `std::length_error` (if the allocation
has not failed with `std::bad_alloc` before), nothing catches it, and the call
does not return, which is `none`. -/
def utilities.format_loop : Nat → string → Nat → Option string
  | 0, _, _ => none
  | fuel + 1, as_string, padding =>
    if as_string.length < padding then
      if as_string.length < utilities.max_size then
        utilities.format_loop fuel ('0' :: as_string) padding
      else none
    else some as_string

/-- The C++ `utilities::format`: the text it returns, or `none` when the call
does not return.  Every iteration makes the text longer by one character, so
the loop is over after at most `padding` iterations and one more test
(`format_loop_fuel`). -/
def utilities.format (integer padding : Int) : Option string :=
  utilities.format_loop (utilities.to_size_t padding + 1) (utilities.to_string integer)
    (utilities.to_size_t padding)

/-- The output of `display_all`, block by block: the heading, one block for
each note with the value of `counter` and the note's fields, and the closing
rule. -/
inductive Block where
  | heading
  | note (counter : Int) (code : Int) (title description : string)
  | closing
  deriving DecidableEq

/-- The characters `display_all` writes to `std::cout` for a block.  The call
`format(code, 5)` returns for every code (`format_five_returns`), so the empty
alternative of `getD` is never taken. -/
def Block.text : Block → string
  | Block.heading => "\n\x1b[1;34m[Display]:\x1b[0m\n\n".toList
  | Block.note counter code title description =>
    "-------------- \x1b[1;34m[Note  ".toList ++ utilities.to_string counter ++
      "]\x1b[0m --------------\n".toList ++
      "\x1b[1;33m[Code]:\x1b[0m ".toList ++ (utilities.format code 5).getD [] ++
      ".\n".toList ++
      "\x1b[1;33m[Name]:\x1b[0m ".toList ++ title ++ "\n".toList ++
      "\x1b[1;33m[Description]:\x1b[0m ".toList ++ description ++ "\n".toList
  | Block.closing => "---------------------------------------\n".toList

/-- The loop of `display_all` (label `display`): print the block of
`CurrentNode`, increment `counter`, and go on with `next_ref` if there is
one. -/
def display_loop : Int → Note → List Note → List Block
  | counter, CurrentNode, [] =>
    [Block.note counter CurrentNode.code CurrentNode.title CurrentNode.description]
  | counter, CurrentNode, next :: next_ref =>
    Block.note counter CurrentNode.code CurrentNode.title CurrentNode.description ::
      display_loop (counter + 1) next next_ref

/-- The C++ `display_all`: nothing for a list with `length == 0` or without
`head`; otherwise the heading, the blocks of the loop, and the closing rule. -/
def display_all (list : LinkedList) : List Block :=
  if list.length = 0 || list.head.isNone then []
  else
    match list.nodes with
    | [] => []
    | CurrentNode :: next_ref => [Block.heading] ++ display_loop 1 CurrentNode next_ref ++
        [Block.closing]

/-- The text `display_all` writes to `std::cout`. -/
def display_text (list : LinkedList) : string :=
  ((display_all list).map Block.text).flatten

/-- Texts that the file format can hold: no comma and no newline in a title,
no newline in a description, and no empty description. -/
def CleanTexts (l : LinkedList) : Prop :=
  ∀ n ∈ l.nodes, ',' ∉ n.title ∧ '\n' ∉ n.title ∧ '\n' ∉ n.description ∧ n.description ≠ []

/-- Two notes the file format holds although one title is empty and the
descriptions contain commas. -/
def comma_notes : LinkedList :=
  (create_list.push_node ⟨0, [], "b,c".toList⟩).push_node ⟨9, "x y".toList, ",,".toList⟩

/-- One note whose description contains a comma. -/
def comma_description : LinkedList :=
  create_list.push_node ⟨1, "a".toList, "b,c".toList⟩

/-- One note whose title contains a comma. -/
def comma_title : LinkedList :=
  create_list.push_node ⟨1, "a,b".toList, "c".toList⟩

/-- A file with well-formed and malformed lines, an empty line, and no newline
after the last line. -/
def messy_file : string :=
  "1,Groceries,Buy milk\nbad,line\n\n5,,x\n7,a,\n2147483647,a,b\n 12x,Meeting,At 9, room 2".toList

/-- The text of a line before its first comma (the whole line when it has
none). -/
def before_comma (s : string) : string := s.takeWhile (fun c => c != ',')

/-- The text of a line after its first comma (empty when it has none). -/
def after_comma (s : string) : string := (s.dropWhile (fun c => c != ',')).tail

/-- The criterion of C15 for a line to be loaded: at least two commas, some
text after the second comma, and a code field on which `std::stoi` succeeds
with a value other than 2147483647. -/
def loads (line : string) : Bool :=
  decide (2 ≤ line.count ',') && !(after_comma (after_comma line)).isEmpty &&
    (match utilities.stoi (before_comma line) with
     | utilities.stoi_result.value v => decide (v ≠ 2147483647)
     | _ => false)

/-- The C++ `::tolower` in the "C" locale: the letters `A` to `Z` become `a` to
`z`, every other character stays. -/
def utilities.tolower (c : Char) : Char :=
  if 'A' ≤ c ∧ c ≤ 'Z' then Char.ofNat (c.toNat + 32) else c

/-- The C++ `utilities::lower`: `::tolower` on every character. -/
def utilities.lower (original : string) : string := original.map utilities.tolower

/-- The C++ `global_vars::INSTRUCTION_PROMPT`. -/
def global_vars.INSTRUCTION_PROMPT : string :=
  "\x1b[1;33m[Choice]:\x1b[0m What would you like to do? ".toList

/-- The C++ `global_vars::OPTIONS`. -/
def global_vars.OPTIONS : List string := ["c".toList, "w".toList, "r".toList, "e".toList]

/-- The message of `fetch_input` when the extraction from `std::cin` fails. -/
def fetch_input_failed : string :=
  "\x1b[1;31m[ERROR]\x1b[0m \x1b[31mInvalid input! Please insert a valid option.\x1b[0m".toList

/-- The message of `fetch_input` for an input that is not among the expected
options. -/
def fetch_input_invalid : string :=
  "\x1b[1;31m[ERROR]\x1b[0m \x1b[31mInvalid input! Please insert a valid option.\n\x1b[0m".toList

/-- The loop of `fetch_input` (label `validate`), run for at most `fuel`
iterations on the unread characters `stdin` of standard input, with the texts
written to `std::cout` so far in `out`.  An iteration prints the prompt, skips
white space (`std::cin >> std::ws`) and extracts a line.  At the end of input
the extraction fails, the failure message is printed and the loop starts
again with nothing left to read.  Otherwise the line is lower-cased; it is
returned, together with the rest of the input and the output, unless it is
empty or is not among the expected options, when there are any. -/
def fetch_input_loop (prompt : string) (expected : List string) :
    Nat → string → List string → Option (string × string × List string)
  | 0, _, _ => none
  | fuel + 1, stdin, out =>
    match getline (stdin.dropWhile utilities.isspace) '\n' with
    | none => fetch_input_loop prompt expected fuel [] (out ++ [prompt, fetch_input_failed])
    | some (line, stdin) =>
      let return_value := utilities.lower line
      if return_value.isEmpty then fetch_input_loop prompt expected fuel stdin (out ++ [prompt])
      else if !expected.isEmpty && !expected.contains return_value then
        fetch_input_loop prompt expected fuel stdin (out ++ [prompt, fetch_input_invalid])
      else some (return_value, stdin, out ++ [prompt])

/-- The C++ `fetch_input` on the unread characters of standard input: the
returned text, the input left unread and the texts written to `std::cout`, or
`none` when the input ends before a line is accepted, in which case the loop
never ends.  Every iteration that reads a line consumes at least one
character, so `stdin.length + 1` iterations decide the outcome
(`fetch_input_loop_fuel`). -/
def fetch_input (prompt : string) (expected : List string) (stdin : string) :
    Option (string × string × List string) :=
  fetch_input_loop prompt expected (stdin.length + 1) stdin []

/-- The result of a call with `out` written before it. -/
def after_output (out : List string) (r : Option (string × string × List string)) :
    Option (string × string × List string) :=
  r.map (fun x => (x.1, x.2.1, out ++ x.2.2))

/-- The C++ `std::isupper` in the "C" locale. -/
def utilities.isupper (c : Char) : Bool := 'A' ≤ c && c ≤ 'Z'

/-- The message `utilities::safe_stoi` prints when `std::stoi` throws. -/
def utilities.safe_stoi_output (str : string) : List string :=
  match utilities.stoi str with
  | utilities.stoi_result.value _ => []
  | utilities.stoi_result.invalid_argument =>
    ["\x1b[1;31m[ERROR]:\x1b[31m Invalid input! Not a valid number.\x1b[0m\n".toList]
  | utilities.stoi_result.out_of_range =>
    ["\x1b[1;31m[ERROR]:\x1b[31m Invalid input! Number out of range.\x1b[0m\n".toList]

/-- The prompt of `prompt_create_note` for the name. -/
def NAME_PROMPT : string :=
  "\x1b[1;33m[Name]:\x1b[0m What is the name of the note? ".toList

/-- The prompt of `prompt_create_note` for the description. -/
def DESCRIPTION_PROMPT : string :=
  "\x1b[1;33m[Description]:\x1b[0m What is the description of the note? ".toList

/-- The prompt of `prompt_delete_note`. -/
def CODE_PROMPT : string :=
  "\x1b[1;33m[Code]:\x1b[0m What is the code of the note you\x27d like to delete?\x1b[0m ".toList

/-- The closing rule of the prompts. -/
def CLOSING_RULE : string := "---------------------------------------\n".toList

/-- The report of `prompt_delete_note` after a deletion. -/
def DELETED : string := "\x1b[1;33m[Deletion]:\x1b[0m Successfully deleted the note.\n".toList

/-- The report of `prompt_delete_note` when `search` finds no note. -/
def NOT_FOUND : string := "\x1b[1;33m[Deletion]:\x1b[0m Note not found.\n".toList

/-- The C++ `prompt_create_note`: read the name and the description with
`fetch_input` (any non-empty text is accepted), create the note with the code
`yieldCode()` and append it.  The result is the new list, the input left
unread and the texts written to `std::cout`; `none` when the input ends before
both texts are read. -/
def prompt_create_note (list : LinkedList) (stdin : string) :
    Option (LinkedList × string × List string) :=
  match fetch_input NAME_PROMPT [] stdin with
  | none => none
  | some (name, stdin, out1) =>
    match fetch_input DESCRIPTION_PROMPT [] stdin with
    | none => none
    | some (description, stdin, out2) =>
      let current_code := list.yieldCode
      let new_note := create_note current_code name description
      some (list.push_node new_note, stdin,
        ["\n".toList, "---------- \x1b[1;34m[Note Insertion]\x1b[0m -----------\n".toList] ++
          out1 ++ out2 ++
          ["\x1b[1;33m[Inserted]:\x1b[0m \x1b[1;42m".toList ++ name ++
              "\x1b[0m at position ".toList ++ utilities.to_string current_code ++ ".\n".toList,
            CLOSING_RULE])

/-- The loop of `prompt_delete_note` (label `prompt`), run for at most `fuel`
iterations: read a code among `list_options`, parse it, start again when
`safe_stoi` returns the sentinel, and otherwise delete the note `search` finds
or report that there is none. -/
def prompt_delete_loop (list : LinkedList) (list_options : List string) :
    Nat → string → List string → Option (LinkedList × string × List string)
  | 0, _, _ => none
  | fuel + 1, stdin, out =>
    match fetch_input CODE_PROMPT list_options stdin with
    | none => none
    | some (code, stdin, out1) =>
      let as_int := utilities.safe_stoi code
      let out := out ++ out1 ++ utilities.safe_stoi_output code
      if as_int = utilities._MAX_INTEGER then prompt_delete_loop list list_options fuel stdin out
      else if (list.search as_int).isSome then
        some (list.delete_note as_int, stdin, out ++ [DELETED, CLOSING_RULE])
      else some (list, stdin, out ++ [NOT_FOUND, CLOSING_RULE])

/-- The C++ `prompt_delete_note`.  Every call of `fetch_input` that returns
consumes at least one character, so `stdin.length + 1` iterations decide the
outcome; `none` stands for an input that ends before a code is accepted. -/
def prompt_delete_note (list : LinkedList) (stdin : string) :
    Option (LinkedList × string × List string) :=
  prompt_delete_loop list list.fetchCodes (stdin.length + 1) stdin
    ["\n".toList, "----------- \x1b[1;34m[Note Deletion]\x1b[0m -----------\n".toList]

open LinkedList utilities store_manipulation

/-! ## Renumbering -/

theorem sanitize_loop_length (xs : List Note) (v : Int) :
    (sanitize_loop xs v).length = xs.length := by
  induction xs generalizing v with
  | nil => rfl
  | cons n rest ih => simp [sanitize_loop, ih]

theorem sanitize_loop_contents (xs : List Note) (v : Int) :
    (sanitize_loop xs v).map (fun n => (n.title, n.description)) =
      xs.map (fun n => (n.title, n.description)) := by
  induction xs generalizing v with
  | nil => rfl
  | cons n rest ih => simp [sanitize_loop, ih]

theorem sanitize_loop_codes (xs : List Note) (v : Int) :
    (sanitize_loop xs v).map Note.code =
      (List.range xs.length).map (fun (i : Nat) => (i : Int) + v) := by
  induction xs generalizing v with
  | nil => rfl
  | cons n rest ih =>
    simp only [sanitize_loop, List.map_cons, List.length_cons, List.range_succ_eq_map,
      List.map_map, ih]
    simp only [Nat.cast_zero, zero_add, List.cons.injEq, true_and]
    apply List.map_congr_left
    intro i _
    simp only [Function.comp_apply, Nat.cast_succ]
    ring

/-- Renumbering a sequence that already carries the codes `v, v + 1, ...`
changes nothing. -/
theorem sanitize_loop_fixed (xs : List Note) (v : Int)
    (h : xs.map Note.code = (List.range xs.length).map (fun (i : Nat) => (i : Int) + v)) :
    sanitize_loop xs v = xs := by
  induction xs generalizing v with
  | nil => rfl
  | cons n rest ih =>
    simp only [List.map_cons, List.length_cons, List.range_succ_eq_map, List.map_map,
      Nat.cast_zero, zero_add, List.cons.injEq] at h
    obtain ⟨h1, h2⟩ := h
    have h3 : sanitize_loop rest (v + 1) = rest := by
      apply ih
      rw [h2]
      apply List.map_congr_left
      intro i _
      simp only [Function.comp_apply, Nat.cast_succ]
      ring
    simp only [sanitize_loop, h3, List.cons.injEq, and_true]
    rw [← h1]

theorem one_to_nodup (n : Nat) : (one_to n).Nodup := by
  unfold one_to
  apply List.Nodup.map _ (List.nodup_range n)
  intro a b h
  simpa using h

theorem sanitize_codes_codes (l : LinkedList) :
    codes (sanitize_codes l) = one_to l.nodes.length := by
  simp [codes, sanitize_codes, sanitize_loop_codes, one_to]

theorem sanitize_codes_dense (l : LinkedList) (h : Dense l) : sanitize_codes l = l := by
  obtain ⟨_, h2⟩ := h
  cases l with
  | mk nodes length =>
    simp only [sanitize_codes, LinkedList.mk.injEq, and_true]
    apply sanitize_loop_fixed
    simpa [codes, one_to] using h2

/-- What `push_node` links: the old nodes followed by the new one. -/
theorem push_node_eq (l : LinkedList) (n : Note) :
    l.push_node n = sanitize_codes { nodes := l.nodes ++ [n], length := l.length + 1 } := by
  unfold push_node
  cases hn : l.nodes with
  | nil => simp [head, last, hn]
  | cons a rest =>
    simp [head, last, hn]

/-! ## The two scans of `delete_note` -/

theorem scan_next_absent (code : Int) (xs : List Note) (i : Nat)
    (h : ∀ n ∈ xs, n.code ≠ code) : scan_next code xs i = none := by
  induction xs generalizing i with
  | nil => rfl
  | cons n rest ih =>
    have h1 : n.code ≠ code := h n (List.mem_cons_self _ _)
    simp only [scan_next, h1, ne_eq, not_false_eq_true, if_true]
    exact ih _ (fun m hm => h m (List.mem_cons_of_mem _ hm))

theorem scan_prior_absent (code : Int) (xs : List Note)
    (h : ∀ n ∈ xs, n.code ≠ code) : scan_prior code xs = none := by
  induction xs with
  | nil => rfl
  | cons n rest ih =>
    have h1 : n.code ≠ code := h n (List.mem_cons_self _ _)
    simp only [scan_prior, h1, ne_eq, not_false_eq_true, if_true]
    exact ih (fun m hm => h m (List.mem_cons_of_mem _ hm))

/-- The codes `v, v + 1, ...` split at the head. -/
theorem codes_cons_split (n : Note) (rest : List Note) (v : Int)
    (h : (n :: rest).map Note.code =
      (List.range (n :: rest).length).map (fun (i : Nat) => (i : Int) + v)) :
    n.code = v ∧
      rest.map Note.code = (List.range rest.length).map (fun (i : Nat) => (i : Int) + (v + 1)) := by
  simp only [List.map_cons, List.length_cons, List.range_succ_eq_map, List.map_map,
    Nat.cast_zero, zero_add, List.cons.injEq] at h
  refine ⟨h.1, ?_⟩
  rw [h.2]
  apply List.map_congr_left
  intro i _
  simp only [Function.comp_apply, Nat.cast_succ]
  ring

/-- The codes `v, v + 1, ...` split at the tail. -/
theorem codes_snoc_split (front : List Note) (n : Note) (v : Int)
    (h : (front ++ [n]).map Note.code =
      (List.range (front ++ [n]).length).map (fun (i : Nat) => (i : Int) + v)) :
    n.code = (front.length : Int) + v ∧
      front.map Note.code = (List.range front.length).map (fun (i : Nat) => (i : Int) + v) := by
  simp only [List.map_append, List.map_cons, List.map_nil, List.length_append,
    List.length_cons, List.length_nil, zero_add, List.range_succ] at h
  have h2 := List.append_inj h (by simp)
  simp only [List.cons.injEq, and_true] at h2
  exact ⟨h2.2, h2.1⟩

theorem scan_next_dense (xs : List Note) (v : Int) (i k : Nat)
    (h : xs.map Note.code = (List.range xs.length).map (fun (j : Nat) => (j : Int) + v))
    (hk : k < xs.length) : scan_next ((k : Int) + v) xs i = some (i + k) := by
  induction xs generalizing v i k with
  | nil => simp at hk
  | cons n rest ih =>
    obtain ⟨h1, h2⟩ := codes_cons_split n rest v h
    cases k with
    | zero => simp [scan_next, h1]
    | succ k =>
      have hne : n.code ≠ ((k + 1 : Nat) : Int) + v := by rw [h1]; push_cast; omega
      simp only [scan_next, hne, ne_eq, not_false_eq_true, if_true]
      have := ih (v + 1) (i + 1) k h2 (by simpa using hk)
      have e1 : ((k + 1 : Nat) : Int) + v = (k : Int) + (v + 1) := by push_cast; ring
      have e2 : i + (k + 1) = i + 1 + k := by omega
      rw [e1, e2]
      exact this

theorem scan_prior_dense (xs : List Note) (v : Int) (k : Nat)
    (h : xs.map Note.code = (List.range xs.length).map (fun (j : Nat) => (j : Int) + v))
    (hk : k < xs.length) : scan_prior ((k : Int) + v) xs.reverse = some k := by
  induction xs using List.reverseRecOn generalizing k with
  | nil => simp at hk
  | append_singleton front n ih =>
    obtain ⟨h1, h2⟩ := codes_snoc_split front n v h
    simp only [List.reverse_append, List.reverse_cons, List.reverse_nil, List.nil_append,
      List.singleton_append, scan_prior, List.length_reverse]
    by_cases hkf : k = front.length
    · simp [h1, hkf]
    · have hne : n.code ≠ (k : Int) + v := by rw [h1]; omega
      simp only [hne, ne_eq, not_false_eq_true, if_true]
      apply ih k h2
      simp at hk
      omega

theorem mem_one_to (n : Nat) (c : Int) : c ∈ one_to n ↔ 1 ≤ c ∧ c ≤ n := by
  simp only [one_to, List.mem_map, List.mem_range]
  constructor
  · rintro ⟨i, hi, rfl⟩
    omega
  · rintro ⟨h1, h2⟩
    exact ⟨(c - 1).toNat, by omega, by omega⟩

theorem locate_dense (l : LinkedList) (h : Dense l) (k : Nat) (hk : k < l.nodes.length)
    (from_head : Bool) : locate l ((k : Int) + 1) from_head = some k := by
  have hc : l.nodes.map Note.code =
      (List.range l.nodes.length).map (fun (j : Nat) => (j : Int) + 1) := h.2
  cases from_head with
  | true => simpa [locate] using scan_next_dense l.nodes 1 0 k hc hk
  | false => simpa [locate] using scan_prior_dense l.nodes 1 k hc hk

theorem locate_absent (l : LinkedList) (h : Dense l) (code : Int)
    (hc : code < 1 ∨ (l.length : Int) < code) (from_head : Bool) :
    locate l code from_head = none := by
  have hne : ∀ n ∈ l.nodes, n.code ≠ code := by
    intro n hn hcode
    have : n.code ∈ one_to l.nodes.length := by
      rw [← h.2]
      exact List.mem_map_of_mem _ hn
    rw [mem_one_to, hcode, ← h.1] at this
    omega
  cases from_head with
  | true => simpa [locate] using scan_next_absent code l.nodes 0 hne
  | false =>
    simp only [locate, Bool.false_eq_true, if_false]
    apply scan_prior_absent
    intro n hn
    exact hne n (List.mem_reverse.mp hn)

/-! ## `delete_note` and `push_node` on a dense list -/

theorem head_isSome_of_pos (l : LinkedList) (h : 0 < l.nodes.length) :
    ∃ first final, l.head = some first ∧ l.last = some final := by
  cases hn : l.nodes with
  | nil => simp [hn] at h
  | cons a rest =>
    refine ⟨a, (a :: rest).getLast (by simp), ?_, ?_⟩
    · simp [head, hn]
    · simp only [last, hn]
      exact List.getLast?_eq_getLast _ _

theorem decrement_pos (n : Nat) (h : 0 < n) : decrement n = n - 1 := by
  unfold decrement
  rw [if_neg (by omega)]

theorem delete_note_present (l : LinkedList) (h : Dense l) (k : Nat)
    (hk : k < l.nodes.length) :
    l.delete_note ((k : Int) + 1) =
      sanitize_codes { nodes := l.nodes.eraseIdx k, length := l.length - 1 } := by
  obtain ⟨first, final, h1, h2⟩ := head_isSome_of_pos l (by omega)
  have h3 : decrement l.length = l.length - 1 := decrement_pos _ (by rw [h.1]; omega)
  simp only [delete_note, delete_note_visit, h1, h2, locate_dense l h k hk, h3]

theorem delete_note_absent (l : LinkedList) (h : Dense l) (code : Int)
    (hc : code < 1 ∨ (l.length : Int) < code) : l.delete_note code = l := by
  unfold delete_note delete_note_visit
  split
  · simp only [locate_absent l h code hc]
    exact sanitize_codes_dense l h
  · rfl

theorem sanitize_codes_is_dense (l : LinkedList) (h : l.length = l.nodes.length) :
    Dense (sanitize_codes l) := by
  refine ⟨?_, ?_⟩
  · simpa [sanitize_codes, sanitize_loop_length] using h
  · rw [sanitize_codes_codes]
    simp [sanitize_codes, sanitize_loop_length]

theorem push_node_dense (l : LinkedList) (n : Note) (h : Dense l) : Dense (l.push_node n) := by
  rw [push_node_eq]
  apply sanitize_codes_is_dense
  simp [h.1]

theorem delete_note_dense (l : LinkedList) (code : Int) (h : Dense l) :
    Dense (l.delete_note code) := by
  by_cases hc : code < 1 ∨ (l.length : Int) < code
  · rw [delete_note_absent l h code hc]
    exact h
  · have hk : (code - 1).toNat < l.nodes.length := by rw [← h.1]; omega
    have e : code = (((code - 1).toNat : Nat) : Int) + 1 := by omega
    rw [e, delete_note_present l h _ hk]
    apply sanitize_codes_is_dense
    simp only [List.length_eraseIdx, hk, if_true]
    rw [h.1]

theorem reachable_dense (l : LinkedList) (h : Reachable l) : Dense l := by
  induction h with
  | create => exact ⟨rfl, rfl⟩
  | push l n _ ih => exact push_node_dense l n ih
  | delete l code _ ih => exact delete_note_dense l code ih

theorem five_notes_reachable : Reachable five_notes :=
  Reachable.push _ _ (Reachable.push _ _ (Reachable.push _ _ (Reachable.push _ _
    (Reachable.push _ _ Reachable.create))))

theorem mixed_run_reachable : Reachable mixed_run :=
  Reachable.push _ _ (Reachable.delete _ _ (Reachable.delete _ _ (Reachable.delete _ _
    five_notes_reachable)))

theorem twin_notes_reachable : Reachable twin_notes :=
  Reachable.push _ _ (Reachable.push _ _ Reachable.create)

theorem sanitize_loop_append (xs : List Note) (n : Note) (v : Int) :
    sanitize_loop (xs ++ [n]) v =
      sanitize_loop xs v ++ [{ n with code := v + (xs.length : Int) }] := by
  induction xs generalizing v with
  | nil => simp [sanitize_loop]
  | cons m rest ih =>
    have e : v + 1 + (rest.length : Int) = v + ((rest.length + 1 : Nat) : Int) := by
      push_cast
      ring
    show sanitize_loop (m :: (rest ++ [n])) v = _
    rw [sanitize_loop, ih, sanitize_loop, e]
    rfl

theorem contents_eraseIdx (xs : List Note) (k : Nat) :
    (xs.eraseIdx k).map (fun n => (n.title, n.description)) =
      (xs.map (fun n => (n.title, n.description))).eraseIdx k := by
  induction xs generalizing k with
  | nil => rfl
  | cons m rest ih =>
    cases k with
    | zero => rfl
    | succ k => simp [List.eraseIdx, ih]

/-- What `push_node` makes of a dense list. -/
theorem push_node_spec (l : LinkedList) (hd : Dense l) (new_note : Note) :
    l.push_node new_note =
      { nodes := l.nodes ++ [{ code := (l.length : Int) + 1, title := new_note.title,
                               description := new_note.description }],
        length := l.length + 1 } := by
  rw [push_node_eq]
  simp only [sanitize_codes, sanitize_loop_append, LinkedList.mk.injEq, and_true]
  have hfix : sanitize_loop l.nodes 1 = l.nodes := by
    have := sanitize_codes_dense l hd
    simpa [sanitize_codes] using congrArg LinkedList.nodes this
  rw [hfix, hd.1]
  simp only [List.append_cancel_left_eq, List.cons.injEq, Note.mk.injEq, and_true]
  ring

theorem search_loop_absent (code : Int) (xs : List Note)
    (h : ∀ n ∈ xs, n.code ≠ code) : search_loop code xs = none := by
  induction xs with
  | nil => rfl
  | cons n rest ih =>
    have h1 : n.code ≠ code := h n (List.mem_cons_self _ _)
    simp only [search_loop, h1, ne_eq, not_false_eq_true, if_true]
    exact ih (fun m hm => h m (List.mem_cons_of_mem _ hm))

theorem search_loop_dense (xs : List Note) (v : Int) (k : Nat)
    (h : xs.map Note.code = (List.range xs.length).map (fun (j : Nat) => (j : Int) + v))
    (hk : k < xs.length) : search_loop ((k : Int) + v) xs = xs[k]? := by
  induction xs generalizing v k with
  | nil => simp at hk
  | cons n rest ih =>
    obtain ⟨h1, h2⟩ := codes_cons_split n rest v h
    cases k with
    | zero => simp [search_loop, h1]
    | succ k =>
      have hne : n.code ≠ ((k + 1 : Nat) : Int) + v := by rw [h1]; push_cast; omega
      have e1 : ((k + 1 : Nat) : Int) + v = (k : Int) + (v + 1) := by push_cast; ring
      simp only [search_loop, hne, ne_eq, not_false_eq_true, if_true, List.getElem?_cons_succ]
      rw [e1]
      exact ih (v + 1) k h2 (by simpa using hk)

theorem search_dense (l : LinkedList) (h : Dense l) (k : Nat) (hk : k < l.nodes.length) :
    l.search ((k : Int) + 1) = l.nodes[k]? :=
  search_loop_dense l.nodes 1 k h.2 hk

theorem search_absent (l : LinkedList) (h : Dense l) (code : Int)
    (hc : code < 1 ∨ (l.length : Int) < code) : l.search code = none := by
  apply search_loop_absent
  intro n hn hcode
  have : n.code ∈ one_to l.nodes.length := by
    rw [← h.2]
    exact List.mem_map_of_mem _ hn
  rw [mem_one_to, hcode, ← h.1] at this
  omega

/-- On a dense list the node at position `j` carries the code `j + 1`. -/
theorem dense_code_at (l : LinkedList) (h : Dense l) (j : Nat) (m : Note)
    (hj : l.nodes[j]? = some m) : m.code = (j : Int) + 1 := by
  have h1 : (codes l)[j]? = some m.code := by simp [codes, hj]
  rw [h.2] at h1
  simp only [one_to, List.getElem?_map, List.getElem?_range'] at h1
  have hlt : j < l.nodes.length := by
    have := List.getElem?_eq_some_iff.mp hj
    exact this.1
  rw [List.getElem?_range hlt] at h1
  simpa using h1.symm

theorem sanitize_loop_getElem? (xs : List Note) (v : Int) (i : Nat) :
    (sanitize_loop xs v)[i]? = xs[i]?.map (fun m => { m with code := v + (i : Int) }) := by
  induction xs generalizing v i with
  | nil => simp [sanitize_loop]
  | cons n rest ih =>
    cases i with
    | zero => simp [sanitize_loop]
    | succ i =>
      simp only [sanitize_loop, List.getElem?_cons_succ, ih]
      have e : v + 1 + (i : Int) = v + ((i + 1 : Nat) : Int) := by push_cast; ring
      rw [e]

theorem fetchCodes_loop_eq (xs : List Note) :
    fetchCodes_loop xs = (xs.map Note.code).map to_string := by
  induction xs with
  | nil => rfl
  | cons n rest ih => simp [fetchCodes_loop, ih]

theorem to_string_succ (i : Nat) : to_string ((i : Int) + 1) = (Nat.repr (i + 1)).toList := by
  have h1 : ¬ ((i : Int) + 1 < 0) := by omega
  have h2 : ((i : Int) + 1).natAbs = i + 1 := by omega
  simp only [to_string, h1, if_false, h2]
  rfl

/-! ## Decimal numerals -/

theorem digitChar_spec : ∀ m, m < 10 →
    isdigit (Nat.digitChar m) = true ∧ (Nat.digitChar m).toNat - '0'.toNat = m := by
  decide

theorem digits_value_append (ps : string) (d : Char) :
    digits_value (ps ++ [d]) = digits_value ps * 10 + (d.toNat - '0'.toNat) := by
  simp [digits_value, List.foldl_append]

theorem toDigitsCore_spec (fuel n : Nat) (ds : string) (h : n < fuel) :
    ∃ ps : string, Nat.toDigitsCore 10 fuel n ds = ps ++ ds ∧ ps ≠ [] ∧
      (∀ c ∈ ps, isdigit c = true) ∧ digits_value ps = n := by
  induction fuel generalizing n ds with
  | zero => omega
  | succ fuel ih =>
    obtain ⟨hd1, hd2⟩ := digitChar_spec (n % 10) (Nat.mod_lt _ (by decide))
    by_cases h0 : n / 10 = 0
    · refine ⟨[Nat.digitChar (n % 10)], ?_, by simp, ?_, ?_⟩
      · simp [Nat.toDigitsCore, h0]
      · intro c hc
        simp only [List.mem_singleton] at hc
        rw [hc]
        exact hd1
      · have : digits_value [Nat.digitChar (n % 10)] =
            digits_value [] * 10 + ((Nat.digitChar (n % 10)).toNat - '0'.toNat) :=
          digits_value_append [] _
        rw [this, hd2]
        simp only [digits_value, List.foldl_nil]
        omega
    · obtain ⟨ps, hp1, _, hp3, hp4⟩ := ih (n / 10) (Nat.digitChar (n % 10) :: ds) (by omega)
      refine ⟨ps ++ [Nat.digitChar (n % 10)], ?_, by simp, ?_, ?_⟩
      · simp only [Nat.toDigitsCore, h0, if_false, hp1, List.append_assoc, List.singleton_append]
      · intro c hc
        rcases List.mem_append.mp hc with hc | hc
        · exact hp3 c hc
        · simp only [List.mem_singleton] at hc
          rw [hc]
          exact hd1
      · rw [digits_value_append, hp4, hd2]
        omega

/-- The decimal text of a natural number is a non-empty run of digits whose
value is that number. -/
theorem toDigits_spec (n : Nat) :
    Nat.toDigits 10 n ≠ [] ∧ (∀ c ∈ Nat.toDigits 10 n, isdigit c = true) ∧
      digits_value (Nat.toDigits 10 n) = n := by
  obtain ⟨ps, h1, h2, h3, h4⟩ := toDigitsCore_spec (n + 1) n [] (by omega)
  rw [List.append_nil] at h1
  unfold Nat.toDigits
  rw [h1]
  exact ⟨h2, h3, h4⟩

theorem isdigit_facts (c : Char) (h : isdigit c = true) :
    c ≠ ',' ∧ c ≠ '\n' ∧ c ≠ '-' ∧ c ≠ '+' ∧ isspace c = false := by
  simp only [isdigit, Bool.and_eq_true, decide_eq_true_eq] at h
  obtain ⟨h1, h2⟩ := h
  have h1' : 48 ≤ c.toNat := h1
  have h2' : c.toNat ≤ 57 := h2
  refine ⟨?_, ?_, ?_, ?_, ?_⟩
  · rintro rfl; revert h1'; decide
  · rintro rfl; revert h1'; decide
  · rintro rfl; revert h1'; decide
  · rintro rfl; revert h1'; decide
  · simp only [isspace, Bool.or_eq_false_iff, beq_eq_false_iff_ne, ne_eq]
    refine ⟨⟨⟨⟨⟨?_, ?_⟩, ?_⟩, ?_⟩, ?_⟩, ?_⟩ <;> (rintro rfl; revert h1'; decide)

/-! ## Reading lines -/

theorem takeWhile_until (p : Char → Bool) (xs : string) (y : Char) (ys : string)
    (h1 : ∀ x ∈ xs, p x = true) (h2 : p y = false) :
    (xs ++ y :: ys).takeWhile p = xs ∧ (xs ++ y :: ys).dropWhile p = y :: ys := by
  induction xs with
  | nil => simp [List.takeWhile, List.dropWhile, h2]
  | cons x rest ih =>
    have hx : p x = true := h1 x (List.mem_cons_self _ _)
    have ih2 := ih (fun z hz => h1 z (List.mem_cons_of_mem _ hz))
    simp [List.takeWhile, List.dropWhile, hx, ih2]

theorem takeWhile_all (p : Char → Bool) (xs : string) (h1 : ∀ x ∈ xs, p x = true) :
    xs.takeWhile p = xs ∧ xs.dropWhile p = [] := by
  induction xs with
  | nil => simp
  | cons x rest ih =>
    have hx : p x = true := h1 x (List.mem_cons_self _ _)
    have ih2 := ih (fun z hz => h1 z (List.mem_cons_of_mem _ hz))
    simp [List.takeWhile, List.dropWhile, hx, ih2]

/-- Extraction up to a delimiter that is present: the text before it, and the
stream moved past it. -/
theorem getline_delim (xs : string) (delim : Char) (ys : string) (h : delim ∉ xs) :
    getline (xs ++ delim :: ys) delim = some (xs, ys) := by
  have hp : ∀ x ∈ xs, (fun c => c != delim) x = true := by
    intro x hx
    simp only [bne_iff_ne, ne_eq]
    rintro rfl
    exact h hx
  obtain ⟨h1, h2⟩ := takeWhile_until (fun c => c != delim) xs delim ys hp (by simp)
  cases hxs : xs ++ delim :: ys with
  | nil => simp at hxs
  | cons a as =>
    rw [hxs] at h1 h2
    simp only [getline, h1, h2, List.tail_cons]

/-- Extraction of the rest of a non-empty stream without delimiter. -/
theorem getline_rest (xs : string) (delim : Char) (h : delim ∉ xs) (hne : xs ≠ []) :
    getline xs delim = some (xs, []) := by
  have hp : ∀ x ∈ xs, (fun c => c != delim) x = true := by
    intro x hx
    simp only [bne_iff_ne, ne_eq]
    rintro rfl
    exact h hx
  obtain ⟨h1, h2⟩ := takeWhile_all (fun c => c != delim) xs hp
  cases xs with
  | nil => exact absurd rfl hne
  | cons a as => simp only [getline, h1, h2, List.tail_nil]

theorem getline_shorter (stream : string) (delim : Char) (str rest : string)
    (h : getline stream delim = some (str, rest)) : rest.length < stream.length := by
  cases stream with
  | nil => simp [getline] at h
  | cons a as =>
    simp only [getline, Option.some.injEq, Prod.mk.injEq] at h
    rw [← h.2]
    have h1 : ((a :: as).dropWhile (fun c => c != delim)).length ≤ (a :: as).length :=
      (List.dropWhile_sublist _).length_le
    cases hd : (a :: as).dropWhile (fun c => c != delim) with
    | nil => simp
    | cons b bs =>
      rw [hd] at h1
      simp only [List.tail_cons, List.length_cons] at h1 ⊢
      omega

/-- Enough fuel: once the fuel covers the length of the file, the loop of
`readCSV` no longer depends on it. -/
theorem readCSV_loop_fuel (fuel1 fuel2 : Nat) (list : LinkedList) (file : string)
    (h1 : file.length ≤ fuel1) (h2 : file.length ≤ fuel2) :
    readCSV_loop fuel1 list file = readCSV_loop fuel2 list file := by
  induction fuel1 generalizing fuel2 list file with
  | zero =>
    have hf : file = [] := List.eq_nil_of_length_eq_zero (by omega)
    subst hf
    cases fuel2 with
    | zero => rfl
    | succ f => simp [readCSV_loop, getline]
  | succ f1 ih =>
    cases fuel2 with
    | zero =>
      have hf : file = [] := List.eq_nil_of_length_eq_zero (by omega)
      subst hf
      simp [readCSV_loop, getline]
    | succ f2 =>
      simp only [readCSV_loop]
      cases hg : getline file '\n' with
      | none => rfl
      | some res =>
        obtain ⟨line, rest⟩ := res
        have := getline_shorter file '\n' line rest hg
        exact ih f2 _ rest (by omega) (by omega)

theorem readCSV_loop_lines (lines : List string) (hl : ∀ line ∈ lines, '\n' ∉ line)
    (fuel : Nat) (list : LinkedList) (hf : (file_of_lines lines).length ≤ fuel) :
    readCSV_loop fuel list (file_of_lines lines) = lines.foldl readCSV_line list := by
  induction lines generalizing fuel list with
  | nil =>
    cases fuel with
    | zero => rfl
    | succ f => simp [readCSV_loop, file_of_lines, getline]
  | cons line rest ih =>
    have hline : '\n' ∉ line := hl line (List.mem_cons_self _ _)
    have hg : getline (file_of_lines (line :: rest)) '\n' = some (line, file_of_lines rest) := by
      simp only [file_of_lines, List.append_assoc, List.singleton_append]
      exact getline_delim line '\n' _ hline
    cases fuel with
    | zero => simp [file_of_lines] at hf
    | succ f =>
      simp only [readCSV_loop, hg, List.foldl_cons]
      apply ih (fun z hz => hl z (List.mem_cons_of_mem _ hz))
      simp only [file_of_lines, List.append_assoc, List.singleton_append, List.length_append,
        List.length_cons] at hf
      omega

/-- Reading a file given by its lines runs the loop body over the lines in
order. -/
theorem readCSV_lines (lines : List string) (hl : ∀ line ∈ lines, '\n' ∉ line)
    (list : LinkedList) :
    readCSV list (file_of_lines lines) = lines.foldl readCSV_line list :=
  readCSV_loop_lines lines hl _ list (le_refl _)

theorem readCSV_line_eq (list : LinkedList) (line : string) :
    readCSV_line list line =
      match line_note line with
      | none => list
      | some n => list.push_node n := by
  unfold readCSV_line line_note
  cases getline line ',' with
  | none => rfl
  | some r1 =>
    obtain ⟨codeStr, ss⟩ := r1
    simp only
    cases getline ss ',' with
    | none => rfl
    | some r2 =>
      obtain ⟨title, ss2⟩ := r2
      simp only
      cases getline ss2 '\n' with
      | none => rfl
      | some r3 =>
        obtain ⟨description, _⟩ := r3
        simp only
        split <;> rfl

theorem foldl_push_node (ns : List Note) (l : LinkedList) (hd : Dense l) :
    ns.foldl push_node l =
      { nodes := l.nodes ++ sanitize_loop ns ((l.length : Int) + 1),
        length := l.length + ns.length } := by
  induction ns generalizing l with
  | nil => simp [sanitize_loop]
  | cons n rest ih =>
    rw [List.foldl_cons, ih _ (push_node_dense l n hd), push_node_spec l hd n]
    simp only [sanitize_loop, List.append_assoc, List.singleton_append, List.length_cons,
      Nat.cast_add, Nat.cast_one, LinkedList.mk.injEq, true_and]
    omega

theorem foldl_readCSV_line (lines : List string) (list : LinkedList) :
    lines.foldl readCSV_line list = (lines.filterMap line_note).foldl push_node list := by
  induction lines generalizing list with
  | nil => rfl
  | cons line rest ih =>
    rw [List.foldl_cons, ih, readCSV_line_eq]
    cases h : line_note line with
    | none => simp [List.filterMap_cons, h]
    | some n => simp [List.filterMap_cons, h]

/-- Loading a file given by its lines into a dense list appends the notes of
the accepted lines, in file order, numbered on from `length + 1`. -/
theorem readCSV_dense (lines : List string) (hl : ∀ line ∈ lines, '\n' ∉ line)
    (list : LinkedList) (hd : Dense list) :
    readCSV list (file_of_lines lines) =
      { nodes := list.nodes ++ sanitize_loop (lines.filterMap line_note) ((list.length : Int) + 1),
        length := list.length + (lines.filterMap line_note).length } := by
  rw [readCSV_lines lines hl, foldl_readCSV_line, foldl_push_node _ _ hd]

theorem count_dropWhile (xs : string) (d : Char) :
    xs.count d = (xs.dropWhile (fun c => c != d)).count d := by
  induction xs with
  | nil => rfl
  | cons x rest ih =>
    by_cases hx : x = d
    · subst hx
      simp [List.dropWhile]
    · have : (x != d) = true := by simpa using hx
      simp only [List.dropWhile, this]
      rw [List.count_cons_of_ne (Ne.symm hx) , ih]

theorem dropWhile_of_count_zero (xs : string) (d : Char) (h : xs.count d = 0) :
    xs.dropWhile (fun c => c != d) = [] := by
  have hmem : d ∉ xs := List.count_eq_zero.mp h
  refine (takeWhile_all _ xs ?_).2
  intro x hx
  simp only [bne_iff_ne, ne_eq]
  rintro rfl
  exact hmem hx

/-- A line with fewer than two commas yields no note. -/
theorem line_note_few_fields (line : string) (h : line.count ',' < 2) :
    line_note line = none := by
  unfold line_note
  cases line with
  | nil => rfl
  | cons a as =>
    simp only [getline]
    have hc := count_dropWhile (a :: as) ','
    cases hd : (a :: as).dropWhile (fun c => c != ',') with
    | nil => simp [getline]
    | cons b bs =>
      have hb : b = ',' := by
        have := List.head_dropWhile_not (fun c => c != ',') (a :: as) (by rw [hd]; simp)
        simpa [hd] using this
      subst hb
      rw [hd] at hc
      simp only [List.count_cons_self] at hc
      have hbs : bs.count ',' = 0 := by omega
      simp only [List.tail_cons]
      cases bs with
      | nil => simp [getline]
      | cons e es =>
        simp only [getline, dropWhile_of_count_zero (e :: es) ',' hbs, List.tail_nil]

/-- A line whose code field `std::stoi` rejects yields no note. -/
theorem line_note_bad_code (line : string)
    (h : ∀ v, stoi (line.takeWhile (fun c => c != ',')) ≠ stoi_result.value v) :
    line_note line = none := by
  have hs : safe_stoi (line.takeWhile (fun c => c != ',')) = _MAX_INTEGER := by
    unfold safe_stoi
    cases hst : stoi (line.takeWhile (fun c => c != ',')) with
    | value v => exact absurd hst (h v)
    | invalid_argument => rfl
    | out_of_range => rfl
  unfold line_note
  cases line with
  | nil => rfl
  | cons a as =>
    simp only [getline]
    split
    · rfl
    · split
      · rfl
      · simp only [hs, if_true]

theorem line_note_malformed (line : string) (h : malformed line = true) :
    line_note line = none := by
  simp only [malformed, Bool.or_eq_true, decide_eq_true_eq] at h
  rcases h with h | h
  · exact line_note_few_fields line h
  · apply line_note_bad_code
    intro v hv
    rw [hv] at h
    simp at h

theorem filterMap_line_note_filter (lines : List string) :
    (lines.filter (fun line => !malformed line)).filterMap line_note =
      lines.filterMap line_note := by
  induction lines with
  | nil => rfl
  | cons line rest ih =>
    by_cases hm : malformed line = true
    · simp [List.filter_cons, hm, List.filterMap_cons, line_note_malformed line hm, ih]
    · simp only [Bool.not_eq_true] at hm
      simp [List.filter_cons, hm, List.filterMap_cons, ih]

/-! ## Writing and reading back -/

theorem to_string_nat (k : Nat) : to_string (k : Int) = Nat.toDigits 10 k := by
  have h1 : ¬ ((k : Int) < 0) := by omega
  simp only [to_string, h1, if_false, Int.natAbs_ofNat]

/-- The C++ `std::stoi` reads the decimal text of a natural number that fits an `int`
back as that number. -/
theorem stoi_toDigits (k : Nat) (hk : k ≤ 2147483647) :
    stoi (Nat.toDigits 10 k) = stoi_result.value (k : Int) := by
  obtain ⟨hne, hdig, hval⟩ := toDigits_spec k
  cases hds : Nat.toDigits 10 k with
  | nil => exact absurd hds hne
  | cons a as =>
    rw [hds] at hdig hval
    obtain ⟨_, _, hminus, hplus, hsp⟩ := isdigit_facts a (hdig a (List.mem_cons_self _ _))
    have h1 : (a :: as).dropWhile isspace = a :: as := by simp [List.dropWhile, hsp]
    have h2 : (a :: as).takeWhile isdigit = a :: as := (takeWhile_all isdigit _ hdig).1
    have h3 : ((some a : Option Char) == some '-') = false := by simpa using hminus
    have h4 : ((some a : Option Char) == some '+') = false := by simpa using hplus
    simp only [stoi, h1, List.head?_cons, h3, h4, Bool.or_self, Bool.false_eq_true, if_false,
      h2, List.isEmpty_cons, hval]
    rw [if_neg (by omega)]

theorem safe_stoi_to_string (k : Nat) (hk : k ≤ 2147483647) :
    safe_stoi (to_string (k : Int)) = (k : Int) := by
  rw [to_string_nat]
  simp only [safe_stoi, stoi_toDigits k hk]

theorem to_string_nat_clean (k : Nat) :
    ',' ∉ to_string (k : Int) ∧ '\n' ∉ to_string (k : Int) := by
  rw [to_string_nat]
  obtain ⟨_, hdig, _⟩ := toDigits_spec k
  constructor
  · intro h
    exact (isdigit_facts _ (hdig _ h)).1 rfl
  · intro h
    exact (isdigit_facts _ (hdig _ h)).2.1 rfl

/-- The line written for a note is read back as that note, provided its code
is a natural number below the sentinel, its title has no comma, and its
description is non-empty and has no newline. -/
theorem line_note_note_line (n : Note) (k : Nat) (hcode : n.code = (k : Int))
    (hk : k < 2147483647) (ht : ',' ∉ n.title) (hd1 : n.description ≠ [])
    (hd2 : '\n' ∉ n.description) : line_note (note_line n) = some n := by
  have e : note_line n = to_string (k : Int) ++ ',' :: (n.title ++ ',' :: n.description) := by
    simp [note_line, hcode]
  have g1 := getline_delim (to_string (k : Int)) ',' (n.title ++ ',' :: n.description)
    (to_string_nat_clean k).1
  have g2 := getline_delim n.title ',' n.description ht
  have g3 := getline_rest n.description '\n' hd2 hd1
  have hs := safe_stoi_to_string k (by omega)
  have hne : (k : Int) ≠ _MAX_INTEGER := by
    unfold _MAX_INTEGER
    omega
  simp only [line_note, e, g1, g2, g3, hs, hne, if_false, create_note, Option.some.injEq]
  rw [← hcode]

theorem note_line_clean (n : Note) (k : Nat) (hcode : n.code = (k : Int))
    (ht : '\n' ∉ n.title) (hd : '\n' ∉ n.description) : '\n' ∉ note_line n := by
  have h1 := (to_string_nat_clean k).2
  simp only [note_line, hcode, List.mem_append, List.mem_singleton, not_or]
  exact ⟨⟨⟨⟨h1, by decide⟩, ht⟩, by decide⟩, hd⟩

theorem writeCSV_loop_eq (ns : List Note) :
    writeCSV_loop ns = file_of_lines (ns.map note_line) := by
  induction ns with
  | nil => rfl
  | cons n rest ih => simp [writeCSV_loop, file_of_lines, note_line, ih]

/-- A node of a dense list carries a natural number between 1 and `length`. -/
theorem dense_code_mem (l : LinkedList) (hd : Dense l) (n : Note) (hn : n ∈ l.nodes) :
    ∃ k : Nat, n.code = (k : Int) ∧ 1 ≤ k ∧ k ≤ l.length := by
  have : n.code ∈ one_to l.nodes.length := by
    rw [← hd.2]
    exact List.mem_map_of_mem _ hn
  rw [mem_one_to, ← hd.1] at this
  exact ⟨n.code.toNat, by omega, by omega, by omega⟩

/-- The exact round trip: a dense list with fewer than 2147483647 notes, whose
titles have no comma and no newline and whose descriptions are non-empty and
have no newline, is read back from the text `writeCSV` writes. -/
theorem writeCSV_readCSV (l : LinkedList) (hd : Dense l) (hlen : l.length < 2147483647)
    (ht : ∀ n ∈ l.nodes, ',' ∉ n.title ∧ '\n' ∉ n.title)
    (hdesc : ∀ n ∈ l.nodes, n.description ≠ [] ∧ '\n' ∉ n.description) :
    readCSV create_list (writeCSV l) = l := by
  have hclean : ∀ line ∈ l.nodes.map note_line, '\n' ∉ line := by
    intro line hline
    obtain ⟨n, hn, rfl⟩ := List.mem_map.mp hline
    obtain ⟨k, hk, _, _⟩ := dense_code_mem l hd n hn
    exact note_line_clean n k hk (ht n hn).2 (hdesc n hn).2
  have hback : (l.nodes.map note_line).filterMap line_note = l.nodes := by
    rw [List.filterMap_map]
    have : ∀ n ∈ l.nodes, (line_note ∘ note_line) n = some n := by
      intro n hn
      obtain ⟨k, hk, _, hk2⟩ := dense_code_mem l hd n hn
      exact line_note_note_line n k hk (by omega) (ht n hn).1 (hdesc n hn).1 (hdesc n hn).2
    rw [List.filterMap_congr this]
    exact List.filterMap_some _
  have hfix : sanitize_loop l.nodes 1 = l.nodes := by
    have := sanitize_codes_dense l hd
    simpa [sanitize_codes] using congrArg LinkedList.nodes this
  unfold writeCSV
  rw [writeCSV_loop_eq, readCSV_dense _ hclean create_list ⟨rfl, rfl⟩, hback]
  cases l with
  | mk nodes length =>
    simp only [create_list, List.nil_append, Nat.cast_zero, zero_add, LinkedList.mk.injEq] at hfix ⊢
    exact ⟨hfix, hd.1.symm⟩

theorem blank_description_reachable : Reachable blank_description :=
  Reachable.push _ _ Reachable.create

/-! ## The sentinel of `safe_stoi` bounds the round trip -/

theorem reachable_foldl (ns : List Note) (l : LinkedList) (h : Reachable l) :
    Reachable (ns.foldl push_node l) := by
  induction ns generalizing l with
  | nil => exact h
  | cons n rest ih => exact ih _ (Reachable.push l n h)

theorem mem_sanitize_loop (xs : List Note) (v : Int) (n : Note) (h : n ∈ sanitize_loop xs v) :
    ∃ m ∈ xs, n.title = m.title ∧ n.description = m.description := by
  induction xs generalizing v with
  | nil => simp [sanitize_loop] at h
  | cons x rest ih =>
    simp only [sanitize_loop, List.mem_cons] at h
    rcases h with h | h
    · exact ⟨x, List.mem_cons_self _ _, by rw [h], by rw [h]⟩
    · obtain ⟨m, hm, h1, h2⟩ := ih _ h
      exact ⟨m, List.mem_cons_of_mem _ hm, h1, h2⟩

/-- A line whose code field is the decimal text of `INT_MAX` yields no note:
`safe_stoi` returns the value that also serves as its error sentinel. -/
theorem line_note_sentinel (n : Note) (h : n.code = 2147483647) :
    line_note (note_line n) = none := by
  have e : note_line n =
      to_string ((2147483647 : Nat) : Int) ++ ',' :: (n.title ++ ',' :: n.description) := by
    simp [note_line, h]
  have g1 := getline_delim (to_string ((2147483647 : Nat) : Int)) ','
    (n.title ++ ',' :: n.description) (to_string_nat_clean 2147483647).1
  have hs : safe_stoi (to_string ((2147483647 : Nat) : Int)) = _MAX_INTEGER :=
    safe_stoi_to_string 2147483647 (le_refl _)
  rw [e]
  unfold line_note
  rw [g1]
  simp only
  split
  · rfl
  · split
    · rfl
    · simp only [hs, if_true]

theorem uniform_notes_eq (n : Nat) :
    uniform_notes n =
      { nodes := sanitize_loop (List.replicate n ⟨0, ['a'], ['b']⟩) 1, length := n } := by
  have hd : Dense create_list := ⟨rfl, rfl⟩
  unfold uniform_notes
  rw [foldl_push_node _ create_list hd]
  simp [create_list]

theorem uniform_notes_reachable (n : Nat) : Reachable (uniform_notes n) :=
  reachable_foldl _ _ Reachable.create

theorem uniform_notes_texts (n : Nat) (m : Note) (hm : m ∈ (uniform_notes n).nodes) :
    m.title = ['a'] ∧ m.description = ['b'] := by
  rw [uniform_notes_eq] at hm
  obtain ⟨x, hx, h1, h2⟩ := mem_sanitize_loop _ _ _ hm
  have := List.eq_of_mem_replicate hx
  rw [this] at h1 h2
  exact ⟨h1, h2⟩

/-- The bound on the number of notes in the round trip cannot be dropped: with
2147483647 notes the last one is lost, for its code is written as
`2147483647`, which `readCSV` takes for the error sentinel. -/
theorem round_trip_sentinel (k : Nat) (hk : k + 1 = 2147483647) :
    Reachable (uniform_notes (k + 1)) ∧ (uniform_notes (k + 1)).length = 2147483647 ∧
      (readCSV create_list (writeCSV (uniform_notes (k + 1)))).length = 2147483646 := by
  have hd := reachable_dense _ (uniform_notes_reachable (k + 1))
  have hclean : ∀ line ∈ (uniform_notes (k + 1)).nodes.map note_line, '\n' ∉ line := by
    intro line hline
    obtain ⟨n, hn, rfl⟩ := List.mem_map.mp hline
    obtain ⟨j, hj, _, _⟩ := dense_code_mem _ hd n hn
    obtain ⟨h1, h2⟩ := uniform_notes_texts _ n hn
    exact note_line_clean n j hj (by rw [h1]; decide) (by rw [h2]; decide)
  refine ⟨uniform_notes_reachable _, ?_, ?_⟩
  · rw [uniform_notes_eq, hk]
  · unfold writeCSV
    rw [writeCSV_loop_eq, readCSV_dense _ hclean create_list ⟨rfl, rfl⟩]
    simp only [create_list, Nat.zero_add, List.filterMap_map]
    have hnodes : (uniform_notes (k + 1)).nodes =
        (uniform_notes k).nodes ++ [⟨(k : Int) + 1, ['a'], ['b']⟩] := by
      rw [uniform_notes_eq, uniform_notes_eq, List.replicate_succ', sanitize_loop_append]
      simp [sanitize_loop_length, add_comm]
    have hfront : (uniform_notes k).nodes.filterMap (line_note ∘ note_line) =
        (uniform_notes k).nodes := by
      have hdk := reachable_dense _ (uniform_notes_reachable k)
      have hlen : (uniform_notes k).length = k := by rw [uniform_notes_eq]
      have : ∀ n ∈ (uniform_notes k).nodes, (line_note ∘ note_line) n = some n := by
        intro n hn
        obtain ⟨j, hj, _, hj2⟩ := dense_code_mem _ hdk n hn
        obtain ⟨h1, h2⟩ := uniform_notes_texts _ n hn
        exact line_note_note_line n j hj (by omega) (by rw [h1]; decide) (by rw [h2]; simp)
          (by rw [h2]; decide)
      rw [List.filterMap_congr this]
      exact List.filterMap_some _
    have hlast : (line_note ∘ note_line) (⟨(k : Int) + 1, ['a'], ['b']⟩ : Note) = none :=
      line_note_sentinel _ (by simp only; omega)
    rw [hnodes, List.filterMap_append, hfront]
    simp only [List.filterMap_cons, hlast, List.filterMap_nil, List.append_nil]
    rw [uniform_notes_eq]
    simp only [sanitize_loop_length, List.length_replicate]
    omega

/-- The same at the explicit size: after 2147483647 appends the collection is
reachable, and what is read back from its saved text has one note less. -/
theorem round_trip_sentinel_at :
    Reachable (uniform_notes (2147483646 + 1)) ∧
      (uniform_notes (2147483646 + 1)).length = 2147483647 ∧
      (readCSV create_list (writeCSV (uniform_notes (2147483646 + 1)))).length = 2147483646 :=
  round_trip_sentinel 2147483646 (by norm_num)

/-! ## The nearer end -/

theorem wrap_eq (i : Int) (h1 : -2147483648 ≤ i) (h2 : i ≤ 2147483647) : wrap i = i := by
  unfold wrap
  omega

theorem abs_nonneg_eq (i : Int) (h1 : 0 ≤ i) : utilities.abs i = i := by
  unfold utilities.abs
  rw [if_neg (by omega)]

theorem abs_nonpos_eq (i : Int) (h1 : -2147483647 ≤ i) (h2 : i ≤ 0) : utilities.abs i = -i := by
  unfold utilities.abs
  by_cases h : i < 0
  · rw [if_pos h, wrap_eq _ (by omega) (by omega)]
  · rw [if_neg h]
    omega

theorem closest_eq_min_iff (lo t hi : Int) (h1 : lo ≤ t) (h2 : t ≤ hi)
    (h3 : hi - lo ≤ 2147483647) : closest t lo hi = lo ↔ t - lo ≤ hi - t := by
  unfold closest
  rw [wrap_eq (t - lo) (by omega) (by omega), wrap_eq (t - hi) (by omega) (by omega),
    abs_nonneg_eq _ (by omega), abs_nonpos_eq _ (by omega) (by omega)]
  constructor
  · intro h
    by_contra hc
    rw [if_neg (by omega)] at h
    omega
  · intro h
    rw [if_pos (by omega)]

/-- On a dense non-empty list `head` carries the code 1 and `last` the code
`length`. -/
theorem dense_head_last (l : LinkedList) (hd : Dense l) (hpos : 0 < l.nodes.length) :
    ∃ first final, l.head = some first ∧ l.last = some final ∧ first.code = 1 ∧
      final.code = (l.length : Int) := by
  obtain ⟨first, final, h1, h2⟩ := head_isSome_of_pos l hpos
  refine ⟨first, final, h1, h2, ?_, ?_⟩
  · have h0 : l.nodes[0]? = some first := by
      simp only [head] at h1
      rw [← h1]
      cases l.nodes <;> simp
    have := dense_code_at l hd 0 first h0
    simpa using this
  · have hl : l.nodes[l.nodes.length - 1]? = some final := by
      simp only [last] at h2
      rw [← h2, List.getLast?_eq_getElem?]
    have := dense_code_at l hd _ final hl
    rw [this, hd.1]
    omega

/-! ## Zero padding -/

theorem format_loop_spec (fuel : Nat) (s : string) (padding : Nat)
    (hp : padding ≤ max_size) (h : padding - s.length < fuel) :
    format_loop fuel s padding = some (List.replicate (padding - s.length) '0' ++ s) := by
  induction fuel generalizing s with
  | zero => omega
  | succ fuel ih =>
    by_cases hlt : s.length < padding
    · have e : padding - s.length = (padding - (s.length + 1)) + 1 := by omega
      have hm : s.length < max_size := by omega
      simp only [format_loop, hlt, hm, if_true]
      rw [ih ('0' :: s) (by simp only [List.length_cons]; omega), e, List.replicate_succ']
      simp
    · have : padding - s.length = 0 := by omega
      simp [format_loop, hlt, this]

/-- Enough fuel: once the fuel covers the missing characters and the last test,
the loop of `format` no longer depends on it. -/
theorem format_loop_fuel (fuel1 fuel2 : Nat) (s : string) (padding : Nat)
    (hp : padding ≤ max_size) (h1 : padding - s.length < fuel1)
    (h2 : padding - s.length < fuel2) :
    format_loop fuel1 s padding = format_loop fuel2 s padding := by
  rw [format_loop_spec fuel1 s padding hp h1, format_loop_spec fuel2 s padding hp h2]

/-- A width above `max_size()` that the text has not reached cannot be
reached: the loop throws, whatever the number of iterations allowed. -/
theorem format_loop_throws (fuel : Nat) (s : string) (padding : Nat)
    (hp : max_size < padding) (h : s.length < padding) :
    format_loop fuel s padding = none := by
  induction fuel generalizing s with
  | zero => rfl
  | succ fuel ih =>
    simp only [format_loop, h, if_true]
    by_cases hm : s.length < max_size
    · rw [if_pos hm]
      exact ih ('0' :: s) (by simp only [List.length_cons]; omega)
    · rw [if_neg hm]

/-- The result of `format` for a width up to `max_size()`: zeros in front of
the decimal text up to the width. -/
theorem format_eq (integer padding : Int) (hp : to_size_t padding ≤ max_size) :
    format integer padding =
      some (List.replicate (to_size_t padding - (to_string integer).length) '0' ++
        to_string integer) := by
  unfold format
  exact format_loop_spec _ _ _ hp (by omega)

theorem to_size_t_nonneg (p : Nat) (hp : p < 18446744073709551616) :
    to_size_t (p : Int) = p := by
  unfold to_size_t
  omega

theorem to_size_t_neg (p : Int) (h1 : -2147483648 ≤ p) (h2 : p < 0) :
    to_size_t p = (18446744073709551616 + p).toNat := by
  unfold to_size_t
  omega

theorem digits_value_zeros (z : Nat) (ds : string) :
    digits_value (List.replicate z '0' ++ ds) = digits_value ds := by
  have h0 : ∀ z : Nat, List.foldl (fun acc c => acc * 10 + (c.toNat - '0'.toNat)) 0
      (List.replicate z '0') = 0 := by
    intro z
    induction z with
    | zero => rfl
    | succ z ih => rw [List.replicate_succ', List.foldl_append, ih]; rfl
  simp only [digits_value, List.foldl_append, h0]

theorem digits_value_lt (ds : string) (hall : ∀ c ∈ ds, isdigit c = true) :
    digits_value ds < 10 ^ ds.length := by
  induction ds using List.reverseRecOn with
  | nil => simp [digits_value]
  | append_singleton front d ih =>
    have hd : isdigit d = true := hall d (by simp)
    have hf := ih (fun c hc => hall c (by simp [hc]))
    simp only [isdigit, Bool.and_eq_true, decide_eq_true_eq] at hd
    have h1 : 48 ≤ d.toNat := hd.1
    have h2 : d.toNat ≤ 57 := hd.2
    have h3 : '0'.toNat = 48 := by decide
    rw [digits_value_append, List.length_append, List.length_singleton, pow_succ, h3]
    omega

/-- `std::stoi` on a non-empty run of digits: its value, when it fits an
`int`. -/
theorem stoi_digits (ds : string) (hne : ds ≠ []) (hall : ∀ c ∈ ds, isdigit c = true)
    (hr : digits_value ds ≤ 2147483647) :
    stoi ds = stoi_result.value (digits_value ds : Int) := by
  cases ds with
  | nil => exact absurd rfl hne
  | cons a as =>
    obtain ⟨_, _, hminus, hplus, hsp⟩ := isdigit_facts a (hall a (List.mem_cons_self _ _))
    have h1 : (a :: as).dropWhile isspace = a :: as := by simp [List.dropWhile, hsp]
    have h2 : (a :: as).takeWhile isdigit = a :: as := (takeWhile_all isdigit _ hall).1
    have h3 : ((some a : Option Char) == some '-') = false := by simpa using hminus
    have h4 : ((some a : Option Char) == some '+') = false := by simpa using hplus
    simp only [stoi, h1, List.head?_cons, h3, h4, Bool.or_self, Bool.false_eq_true, if_false,
      h2, List.isEmpty_cons]
    rw [if_neg (by omega)]

theorem to_string_length_le (n e : Nat) (he : 0 < e) (h : n < 10 ^ e) :
    (to_string (n : Int)).length ≤ e := by
  rw [to_string_nat]
  exact Nat.toDigitsCore_length 10 (by decide) (n + 1) n e h he

theorem lt_pow_to_string_length (n : Nat) : n < 10 ^ (to_string (n : Int)).length := by
  rw [to_string_nat]
  obtain ⟨_, hall, hval⟩ := toDigits_spec n
  have := digits_value_lt _ hall
  rwa [hval] at this

/-- On a natural number and a non-negative width `format` returns, and puts
exactly the missing zeros in front of the decimal text. -/
theorem format_nat (n p : Nat) (hp : p ≤ 2147483647) :
    format (n : Int) (p : Int) =
      some (List.replicate (p - (to_string (n : Int)).length) '0' ++ to_string (n : Int)) := by
  have e := to_size_t_nonneg p (by omega)
  rw [format_eq _ _ (by rw [e]; unfold max_size; omega), e]

/-- With the width 5 `format` returns for every code. -/
theorem format_five_returns (code : Int) :
    format code 5 =
      some (List.replicate (5 - (to_string code).length) '0' ++ to_string code) :=
  format_eq code 5 (by decide)

/-- With a negative width `format` does not return: as a `size_t` the width is
above `max_size()`, and the decimal text of an `int` is shorter. -/
theorem format_negative (n : Nat) (hn : n ≤ 2147483647) (p : Int)
    (h1 : -2147483648 ≤ p) (h2 : p < 0) : format (n : Int) p = none := by
  unfold format
  have e := to_size_t_neg p h1 h2
  have hlen := to_string_length_le n 10 (by decide) (by omega)
  apply format_loop_throws
  · unfold max_size
    omega
  · omega

/-- A code of at most five digits is shown with exactly five digits that read
back as the code. -/
theorem format_five_small (n : Nat) (h2 : n ≤ 99999) :
    ∃ s, format (n : Int) 5 = some s ∧ s.length = 5 ∧ (∀ c ∈ s, isdigit c = true) ∧
      stoi s = stoi_result.value (n : Int) := by
  have hf : format (n : Int) 5 =
      some (List.replicate (5 - (to_string (n : Int)).length) '0' ++ to_string (n : Int)) :=
    format_nat n 5 (by decide)
  have hlen := to_string_length_le n 5 (by decide) (by omega)
  obtain ⟨hne, hall, hval⟩ := toDigits_spec n
  rw [← to_string_nat] at hne hall hval
  refine ⟨_, hf, ?_, ?_, ?_⟩
  · rw [List.length_append, List.length_replicate]
    omega
  · intro c hc
    rcases List.mem_append.mp hc with hc | hc
    · rw [(List.mem_replicate.mp hc).2]
      decide
    · exact hall c hc
  · have hall2 : ∀ c ∈ List.replicate (5 - (to_string (n : Int)).length) '0' ++
        to_string (n : Int), isdigit c = true := by
      intro c hc
      rcases List.mem_append.mp hc with hc | hc
      · rw [(List.mem_replicate.mp hc).2]
        decide
      · exact hall c hc
    have hv : digits_value (List.replicate (5 - (to_string (n : Int)).length) '0' ++
        to_string (n : Int)) = n := by
      rw [digits_value_zeros, hval]
    have := stoi_digits _ (by simp [hne]) hall2 (by rw [hv]; omega)
    rw [hv] at this
    exact this

/-- A code of six digits or more is shown unpadded and in full. -/
theorem format_five_large (n : Nat) (h : 100000 ≤ n) :
    format (n : Int) 5 = some (to_string (n : Int)) := by
  have hf : format (n : Int) 5 =
      some (List.replicate (5 - (to_string (n : Int)).length) '0' ++ to_string (n : Int)) :=
    format_nat n 5 (by decide)
  have hlt := lt_pow_to_string_length n
  have hlen : 5 < (to_string (n : Int)).length := by
    by_contra hc
    have : 10 ^ (to_string (n : Int)).length ≤ 10 ^ 5 :=
      Nat.pow_le_pow_right (by decide) (by omega)
    omega
  have : 5 - (to_string (n : Int)).length = 0 := by omega
  rw [hf, this]
  rfl

theorem display_loop_eq (counter : Int) (first : Note) (rest : List Note) :
    display_loop counter first rest =
      List.zipWith (fun (i : Int) (n : Note) => Block.note i n.code n.title n.description)
        ((List.range (rest.length + 1)).map (fun (i : Nat) => (i : Int) + counter))
        (first :: rest) := by
  induction rest generalizing counter first with
  | nil => simp [display_loop, List.range_succ_eq_map]
  | cons next rest ih =>
    rw [display_loop, ih, List.length_cons, List.range_succ_eq_map (rest.length + 1)]
    simp only [List.map_cons, List.map_map, Nat.cast_zero, zero_add, List.zipWith_cons_cons,
      List.cons.injEq, true_and]
    congr 1
    apply List.map_congr_left
    intro i _
    simp only [Function.comp_apply, Nat.cast_succ]
    ring

/-- What `display_all` prints for a dense non-empty list: the heading, the
blocks of the notes numbered from 1, and the closing rule. -/
theorem display_all_dense (l : LinkedList) (hd : Dense l) (hpos : 1 ≤ l.length) :
    display_all l =
      [Block.heading] ++
        List.zipWith (fun (i : Int) (n : Note) => Block.note i n.code n.title n.description)
          (one_to l.length) l.nodes ++ [Block.closing] := by
  have hlen := hd.1
  cases hn : l.nodes with
  | nil => rw [hn] at hlen; simp at hlen; omega
  | cons first rest =>
    have h1 : ¬ (l.length = 0) := by omega
    have h2 : l.head.isNone = false := by simp [head, hn]
    have h3 : l.length = rest.length + 1 := by rw [hlen, hn]; rfl
    have h4 : ¬ (rest.length + 1 = 0) := by omega
    simp only [display_all, h2, hn, display_loop_eq, h3, one_to, h4, decide_False, Bool.or_self,
      Bool.false_eq_true, if_false]

/-! ## What a load can produce -/

theorem mem_takeWhile (p : Char → Bool) (xs : string) (c : Char) (h : c ∈ xs.takeWhile p) :
    c ∈ xs ∧ p c = true :=
  ⟨(List.takeWhile_sublist p).subset h, List.mem_takeWhile_imp h⟩

theorem mem_dropWhile_tail (p : Char → Bool) (xs : string) (c : Char)
    (h : c ∈ (xs.dropWhile p).tail) : c ∈ xs :=
  (List.dropWhile_sublist p).subset (List.mem_of_mem_tail h)

/-- What `getline` extracts has no delimiter in it, and both the extracted text
and the rest of the stream are made of characters of the stream. -/
theorem getline_parts (stream : string) (delim : Char) (str rest : string)
    (h : getline stream delim = some (str, rest)) :
    stream ≠ [] ∧ str = stream.takeWhile (fun c => c != delim) ∧
      rest = (stream.dropWhile (fun c => c != delim)).tail ∧ delim ∉ str ∧
      (∀ c ∈ str, c ∈ stream) ∧ (∀ c ∈ rest, c ∈ stream) := by
  cases stream with
  | nil => simp [getline] at h
  | cons a as =>
    simp only [getline, Option.some.injEq, Prod.mk.injEq] at h
    obtain ⟨h1, h2⟩ := h
    refine ⟨by simp, h1.symm, h2.symm, ?_, ?_, ?_⟩
    · intro hm
      rw [← h1] at hm
      have := (mem_takeWhile _ _ _ hm).2
      simp at this
    · intro c hc
      rw [← h1] at hc
      exact (mem_takeWhile _ _ _ hc).1
    · intro c hc
      rw [← h2] at hc
      exact mem_dropWhile_tail _ _ _ hc

/-- The note made of a line without newline has texts the format can hold. -/
theorem line_note_clean (line : string) (hl : '\n' ∉ line) (n : Note)
    (h : line_note line = some n) :
    ',' ∉ n.title ∧ '\n' ∉ n.title ∧ '\n' ∉ n.description ∧ n.description ≠ [] := by
  unfold line_note at h
  cases h1 : getline line ',' with
  | none => simp [h1] at h
  | some r1 =>
    obtain ⟨codeStr, ss⟩ := r1
    obtain ⟨_, _, _, _, _, hss⟩ := getline_parts _ _ _ _ h1
    simp only [h1] at h
    cases h2 : getline ss ',' with
    | none => simp [h2] at h
    | some r2 =>
      obtain ⟨title, ss2⟩ := r2
      obtain ⟨_, _, _, ht1, ht2, hss2⟩ := getline_parts _ _ _ _ h2
      simp only [h2] at h
      cases h3 : getline ss2 '\n' with
      | none => simp [h3] at h
      | some r3 =>
        obtain ⟨description, tl⟩ := r3
        obtain ⟨hne, hd0, _, hd1, hd2, _⟩ := getline_parts _ _ _ _ h3
        simp only [h3] at h
        split at h
        · simp at h
        · simp only [Option.some.injEq] at h
          subst h
          simp only [create_note]
          refine ⟨ht1, ?_, hd1, ?_⟩
          · intro hm
            exact hl (hss _ (ht2 _ hm))
          · have hall : ∀ x ∈ ss2, (fun c => c != '\n') x = true := by
              intro x hx
              simp only [bne_iff_ne, ne_eq]
              rintro rfl
              exact hl (hss _ (hss2 _ hx))
            rw [hd0, (takeWhile_all _ ss2 hall).1]
            exact hne

theorem push_node_clean (l : LinkedList) (n : Note) (h : CleanTexts l)
    (hn : ',' ∉ n.title ∧ '\n' ∉ n.title ∧ '\n' ∉ n.description ∧ n.description ≠ []) :
    CleanTexts (l.push_node n) := by
  intro m hm
  rw [push_node_eq] at hm
  obtain ⟨x, hx, h1, h2⟩ := mem_sanitize_loop _ _ _ hm
  rw [h1, h2]
  rcases List.mem_append.mp hx with hx | hx
  · exact h x hx
  · simp only [List.mem_singleton] at hx
    rw [hx]
    exact hn

/-- An invariant of the loop body of `readCSV`, on lines without newline, is
an invariant of `readCSV` on every text. -/
theorem readCSV_loop_invariant (P : LinkedList → Prop)
    (hstep : ∀ list line, '\n' ∉ line → P list → P (readCSV_line list line))
    (fuel : Nat) (list : LinkedList) (file : string) (h : P list) :
    P (readCSV_loop fuel list file) := by
  induction fuel generalizing list file with
  | zero => exact h
  | succ fuel ih =>
    simp only [readCSV_loop]
    cases hg : getline file '\n' with
    | none => exact h
    | some r =>
      obtain ⟨line, rest⟩ := r
      obtain ⟨_, _, _, hline, _, _⟩ := getline_parts _ _ _ _ hg
      exact ih _ _ (hstep list line hline h)

theorem readCSV_is_dense (list : LinkedList) (file : string) (h : Dense list) :
    Dense (readCSV list file) := by
  apply readCSV_loop_invariant Dense _ _ _ _ h
  intro l line _ hl
  rw [readCSV_line_eq]
  cases line_note line with
  | none => exact hl
  | some n => exact push_node_dense l n hl

theorem readCSV_is_reachable (list : LinkedList) (file : string) (h : Reachable list) :
    Reachable (readCSV list file) := by
  apply readCSV_loop_invariant Reachable _ _ _ _ h
  intro l line _ hl
  rw [readCSV_line_eq]
  cases line_note line with
  | none => exact hl
  | some n => exact Reachable.push l n hl

theorem readCSV_is_clean (list : LinkedList) (file : string) (h : CleanTexts list) :
    CleanTexts (readCSV list file) := by
  apply readCSV_loop_invariant CleanTexts _ _ _ _ h
  intro l line hline hl
  rw [readCSV_line_eq]
  cases hn : line_note line with
  | none => exact hl
  | some n => exact push_node_clean l n hl (line_note_clean line hline n hn)

theorem comma_notes_reachable : Reachable comma_notes :=
  Reachable.push _ _ (Reachable.push _ _ Reachable.create)

theorem comma_description_reachable : Reachable comma_description :=
  Reachable.push _ _ Reachable.create

theorem comma_title_reachable : Reachable comma_title :=
  Reachable.push _ _ Reachable.create

/-- A save-then-load that reproduces the (title, description) pairs implies
texts the format can hold. -/
theorem round_trip_clean (l : LinkedList)
    (h : contents (readCSV create_list (writeCSV l)) = contents l) (n : Note)
    (hn : n ∈ l.nodes) :
    ',' ∉ n.title ∧ '\n' ∉ n.title ∧ '\n' ∉ n.description ∧ n.description ≠ [] := by
  have hclean : CleanTexts (readCSV create_list (writeCSV l)) :=
    readCSV_is_clean _ _ (by intro m hm; simp [create_list] at hm)
  have hmem : (n.title, n.description) ∈ contents (readCSV create_list (writeCSV l)) := by
    rw [h]
    exact List.mem_map_of_mem _ hn
  obtain ⟨m, hm, hpair⟩ := List.mem_map.mp hmem
  simp only [Prod.mk.injEq] at hpair
  have := hclean m hm
  rw [hpair.1, hpair.2] at this
  exact this

/-! ## Which lines are loaded -/

theorem getline_comma (s : string) (h : s ≠ []) :
    getline s ',' = some (before_comma s, after_comma s) := by
  cases s with
  | nil => exact absurd rfl h
  | cons a as => rfl

theorem safe_stoi_ne_sentinel (s : string) :
    safe_stoi s ≠ _MAX_INTEGER ↔
      ∃ v, stoi s = stoi_result.value v ∧ v ≠ 2147483647 := by
  unfold safe_stoi
  cases stoi s with
  | value v => simp [_MAX_INTEGER]
  | invalid_argument => simp
  | out_of_range => simp

theorem count_after_comma (s : string) (h : after_comma s ≠ []) :
    s.count ',' = (after_comma s).count ',' + 1 := by
  unfold after_comma at h ⊢
  rw [count_dropWhile s ',']
  cases hd : s.dropWhile (fun c => c != ',') with
  | nil => rw [hd] at h; exact absurd rfl h
  | cons b bs =>
    have hb : b = ',' := by
      have := List.head_dropWhile_not (fun c => c != ',') s (by rw [hd]; simp)
      simpa [hd] using this
    subst hb
    simp

theorem after_comma_of_count (s : string) (h : 1 ≤ s.count ',') :
    s.count ',' = (after_comma s).count ',' + 1 ∧ s ≠ [] := by
  unfold after_comma
  rw [count_dropWhile s ','] at h ⊢
  cases hd : s.dropWhile (fun c => c != ',') with
  | nil => rw [hd] at h; simp at h
  | cons b bs =>
    have hb : b = ',' := by
      have := List.head_dropWhile_not (fun c => c != ',') s (by rw [hd]; simp)
      simpa [hd] using this
    subst hb
    refine ⟨by simp, ?_⟩
    intro hs
    rw [hs] at hd
    simp at hd

/-- The note made of a line, in terms of the text around its first two
commas. -/
theorem line_note_eq (line : string) :
    line_note line =
      if loads line = true then
        some (create_note (safe_stoi (before_comma line)) (before_comma (after_comma line))
          ((after_comma (after_comma line)).takeWhile (fun c => c != '\n')))
      else none := by
  by_cases h3 : after_comma (after_comma line) = []
  · -- the third extraction, or an earlier one, fails
    have hl : loads line = false := by simp [loads, h3]
    rw [hl]
    simp only [Bool.false_eq_true, if_false]
    unfold line_note
    cases line with
    | nil => rfl
    | cons a as =>
      rw [getline_comma _ (by simp)]
      simp only
      cases h1 : after_comma (a :: as) with
      | nil => rfl
      | cons b bs =>
        rw [getline_comma _ (by simp)]
        simp only
        rw [h1] at h3
        rw [h3]
        rfl
  · have h2 : after_comma line ≠ [] := by
      intro h
      rw [h] at h3
      exact h3 rfl
    have h1 : line ≠ [] := by
      intro h
      rw [h] at h2
      exact h2 rfl
    have hc : 2 ≤ line.count ',' := by
      rw [count_after_comma line h2, count_after_comma _ h3]
      omega
    have g3 : getline (after_comma (after_comma line)) '\n' =
        some ((after_comma (after_comma line)).takeWhile (fun c => c != '\n'),
          ((after_comma (after_comma line)).dropWhile (fun c => c != '\n')).tail) := by
      cases h : after_comma (after_comma line) with
      | nil => exact absurd h h3
      | cons a as => rfl
    unfold line_note
    rw [getline_comma _ h1]
    simp only
    rw [getline_comma _ h2]
    simp only
    rw [g3]
    simp only
    by_cases hs : safe_stoi (before_comma line) = _MAX_INTEGER
    · have hl : loads line = false := by
        have hno : ¬ ∃ v, stoi (before_comma line) = stoi_result.value v ∧ v ≠ 2147483647 :=
          fun hex => (safe_stoi_ne_sentinel _).mpr hex hs
        simp only [loads, Bool.and_eq_false_imp, Bool.and_eq_true, decide_eq_true_eq,
          Bool.not_eq_true']
        intro _
        cases hst : stoi (before_comma line) with
        | value v =>
          have : ¬ (v ≠ 2147483647) := fun hv => hno ⟨v, hst, hv⟩
          simp only [decide_eq_false_iff_not]
          exact this
        | invalid_argument => rfl
        | out_of_range => rfl
      simp [hs, hl]
    · have hl : loads line = true := by
        obtain ⟨v, hv, hne⟩ := (safe_stoi_ne_sentinel _).mp hs
        simp [loads, hc, h3, hv, hne]
      simp [hs, hl]

theorem takeWhile_digits (ds rest : string) (hall : ∀ c ∈ ds, isdigit c = true)
    (hrest : ∀ c, rest.head? = some c → isdigit c = false) :
    (ds ++ rest).takeWhile isdigit = ds := by
  cases rest with
  | nil => rw [List.append_nil]; exact (takeWhile_all isdigit ds hall).1
  | cons r rs => exact (takeWhile_until isdigit ds r rs hall (hrest r rfl)).1

theorem dropWhile_spaces (ws : string) (y : Char) (ys : string)
    (hws : ∀ c ∈ ws, isspace c = true) (hy : isspace y = false) :
    (ws ++ y :: ys).dropWhile isspace = y :: ys :=
  (takeWhile_until isspace ws y ys hws hy).2

/-- The texts `std::stoi` accepts: optional white space, an optional sign, at
least one digit, and then anything that does not start with a digit; the
value is that of the digits, negated after a minus sign, and it has to fit an
`int`. -/
theorem stoi_value_iff (s : string) (v : Int) :
    stoi s = stoi_result.value v ↔
      ∃ ws sign ds rest : string, s = ws ++ sign ++ ds ++ rest ∧
        (∀ c ∈ ws, isspace c = true) ∧ (sign = [] ∨ sign = ['+'] ∨ sign = ['-']) ∧
        ds ≠ [] ∧ (∀ c ∈ ds, isdigit c = true) ∧
        (∀ c, rest.head? = some c → isdigit c = false) ∧
        v = (if sign = ['-'] then -(digits_value ds : Int) else (digits_value ds : Int)) ∧
        -2147483648 ≤ v ∧ v ≤ 2147483647 := by
  constructor
  · intro h
    have hsplit : s = s.takeWhile isspace ++ s.dropWhile isspace :=
      (List.takeWhile_append_dropWhile isspace s).symm
    have hws : ∀ c ∈ s.takeWhile isspace, isspace c = true :=
      fun c hc => (mem_takeWhile _ _ _ hc).2
    have hrest : ∀ (t : string) (c : Char), (t.dropWhile isdigit).head? = some c →
        isdigit c = false := by
      intro t c hc
      cases hd : t.dropWhile isdigit with
      | nil => rw [hd] at hc; simp at hc
      | cons b bs =>
        rw [hd] at hc
        simp only [List.head?_cons, Option.some.injEq] at hc
        have := List.head_dropWhile_not isdigit t (by rw [hd]; simp)
        simp only [hd, List.head_cons] at this
        rw [← hc]
        simpa using this
    unfold stoi at h
    simp only at h
    -- the three shapes of the text after the white space
    by_cases hm : (s.dropWhile isspace).head? = some '-'
    · obtain ⟨tl, htl⟩ : ∃ tl, s.dropWhile isspace = '-' :: tl := by
        cases hd : s.dropWhile isspace with
        | nil => rw [hd] at hm; simp at hm
        | cons b bs =>
          rw [hd] at hm
          simp only [List.head?_cons, Option.some.injEq] at hm
          exact ⟨bs, by rw [hm]⟩
      rw [htl] at h
      simp only [List.head?_cons, beq_self_eq_true, Bool.true_or, if_true, List.tail_cons] at h
      split at h
      · simp at h
      · rename_i hne
        split at h
        · simp at h
        · rename_i hr
          simp only [stoi_result.value.injEq] at h
          refine ⟨s.takeWhile isspace, ['-'], tl.takeWhile isdigit, tl.dropWhile isdigit, ?_,
            hws, Or.inr (Or.inr rfl), ?_, fun c hc => (mem_takeWhile _ _ _ hc).2, hrest tl, ?_,
            ?_, ?_⟩
          · rw [List.append_assoc, List.append_assoc, List.takeWhile_append_dropWhile,
              List.singleton_append, ← htl]
            exact hsplit
          · intro he
            rw [he] at hne
            simp at hne
          · simp only [if_true]
            exact h.symm
          · omega
          · omega
    · by_cases hp : (s.dropWhile isspace).head? = some '+'
      · obtain ⟨tl, htl⟩ : ∃ tl, s.dropWhile isspace = '+' :: tl := by
          cases hd : s.dropWhile isspace with
          | nil => rw [hd] at hp; simp at hp
          | cons b bs =>
            rw [hd] at hp
            simp only [List.head?_cons, Option.some.injEq] at hp
            exact ⟨bs, by rw [hp]⟩
        rw [htl] at h
        have e1 : ((some '+' : Option Char) == some '-') = false := by decide
        simp only [List.head?_cons, e1, beq_self_eq_true, Bool.or_true, if_true, List.tail_cons,
          Bool.false_eq_true, if_false] at h
        split at h
        · simp at h
        · rename_i hne
          split at h
          · simp at h
          · rename_i hr
            simp only [stoi_result.value.injEq] at h
            refine ⟨s.takeWhile isspace, ['+'], tl.takeWhile isdigit, tl.dropWhile isdigit, ?_,
              hws, Or.inr (Or.inl rfl), ?_, fun c hc => (mem_takeWhile _ _ _ hc).2, hrest tl,
              ?_, ?_, ?_⟩
            · rw [List.append_assoc, List.append_assoc, List.takeWhile_append_dropWhile,
                List.singleton_append, ← htl]
              exact hsplit
            · intro he
              rw [he] at hne
              simp at hne
            · rw [if_neg (by decide)]
              exact h.symm
            · omega
            · omega
      · have e1 : ((s.dropWhile isspace).head? == some '-') = false := by simpa using hm
        have e2 : ((s.dropWhile isspace).head? == some '+') = false := by simpa using hp
        simp only [e1, e2, Bool.or_self, Bool.false_eq_true, if_false] at h
        split at h
        · simp at h
        · rename_i hne
          split at h
          · simp at h
          · rename_i hr
            simp only [stoi_result.value.injEq] at h
            refine ⟨s.takeWhile isspace, [], (s.dropWhile isspace).takeWhile isdigit,
              (s.dropWhile isspace).dropWhile isdigit, ?_, hws, Or.inl rfl, ?_,
              fun c hc => (mem_takeWhile _ _ _ hc).2, hrest _, ?_, ?_, ?_⟩
            · rw [List.append_nil, List.append_assoc, List.takeWhile_append_dropWhile]
              exact hsplit
            · intro he
              rw [he] at hne
              simp at hne
            · rw [if_neg (by decide)]
              exact h.symm
            · omega
            · omega
  · rintro ⟨ws, sign, ds, rest, rfl, hws, hsign, hne, hall, hrest, hv, hlo, hhi⟩
    obtain ⟨d, ds', rfl⟩ : ∃ d ds', ds = d :: ds' := by
      cases ds with
      | nil => exact absurd rfl hne
      | cons d ds' => exact ⟨d, ds', rfl⟩
    obtain ⟨_, _, hdm, hdp, hdsp⟩ := isdigit_facts d (hall d (List.mem_cons_self _ _))
    have htake := takeWhile_digits (d :: ds') rest hall hrest
    rcases hsign with rfl | rfl | rfl
    · have h1 : (ws ++ [] ++ d :: ds' ++ rest).dropWhile isspace = d :: ds' ++ rest := by
        simpa using dropWhile_spaces ws d (ds' ++ rest) hws hdsp
      have e1 : ((some d : Option Char) == some '-') = false := by simpa using hdm
      have e2 : ((some d : Option Char) == some '+') = false := by simpa using hdp
      rw [if_neg (by decide)] at hv
      unfold stoi
      simp only [h1, List.cons_append, List.head?_cons, e1, e2, Bool.or_self, Bool.false_eq_true,
        if_false]
      rw [← List.cons_append, htake]
      simp only [List.isEmpty_cons, Bool.false_eq_true, if_false]
      rw [if_neg (by omega), hv]
    · have h1 : (ws ++ ['+'] ++ d :: ds' ++ rest).dropWhile isspace =
          '+' :: (d :: ds' ++ rest) := by
        simpa using dropWhile_spaces ws '+' (d :: ds' ++ rest) hws (by decide)
      have e1 : ((some '+' : Option Char) == some '-') = false := by decide
      rw [if_neg (by decide)] at hv
      unfold stoi
      simp only [h1, List.head?_cons, e1, beq_self_eq_true, Bool.or_true, if_true, List.tail_cons,
        Bool.false_eq_true, if_false]
      rw [htake]
      simp only [List.isEmpty_cons, Bool.false_eq_true, if_false]
      rw [if_neg (by omega), hv]
    · have h1 : (ws ++ ['-'] ++ d :: ds' ++ rest).dropWhile isspace =
          '-' :: (d :: ds' ++ rest) := by
        simpa using dropWhile_spaces ws '-' (d :: ds' ++ rest) hws (by decide)
      simp only [if_true] at hv
      unfold stoi
      simp only [h1, List.head?_cons, beq_self_eq_true, Bool.true_or, if_true, List.tail_cons]
      rw [htake]
      simp only [List.isEmpty_cons, Bool.false_eq_true, if_false]
      rw [if_neg (by omega), hv]

theorem push_node_length (l : LinkedList) (n : Note) :
    (l.push_node n).nodes.length = l.nodes.length + 1 ∧
      (l.push_node n).length = l.length + 1 := by
  rw [push_node_eq]
  simp [sanitize_codes, sanitize_loop_length]

/-! ## Reading a line from standard input -/

theorem lower_length (s : string) : (lower s).length = s.length := by
  simp [lower]

theorem lower_isEmpty (s : string) (h : s ≠ []) : (lower s).isEmpty = false := by
  cases s with
  | nil => exact absurd rfl h
  | cons a as => rfl

/-- At the end of input the loop of `fetch_input` never returns. -/
theorem fetch_input_loop_eof (prompt : string) (expected : List string) (fuel : Nat)
    (out : List string) : fetch_input_loop prompt expected fuel [] out = none := by
  induction fuel generalizing out with
  | zero => rfl
  | succ fuel ih => simp [fetch_input_loop, getline, ih]

/-- The texts written before an iteration stay in front of what the loop
writes. -/
theorem fetch_input_loop_out (prompt : string) (expected : List string) (fuel : Nat)
    (stdin : string) (out : List string) :
    fetch_input_loop prompt expected fuel stdin out =
      after_output out (fetch_input_loop prompt expected fuel stdin []) := by
  induction fuel generalizing stdin out with
  | zero => rfl
  | succ fuel ih =>
    simp only [fetch_input_loop, List.nil_append]
    cases getline (stdin.dropWhile isspace) '\n' with
    | none => simp [fetch_input_loop_eof, after_output]
    | some r =>
      obtain ⟨line, rest⟩ := r
      simp only
      split
      · rw [ih rest (out ++ [prompt]), ih rest [prompt]]
        cases fetch_input_loop prompt expected fuel rest [] <;> simp [after_output]
      · split
        · rw [ih rest (out ++ [prompt, fetch_input_invalid]), ih rest [prompt, fetch_input_invalid]]
          cases fetch_input_loop prompt expected fuel rest [] <;> simp [after_output]
        · simp [after_output]

/-- A line extracted after skipping white space is non-empty, has no newline,
and leaves less input than there was. -/
theorem getline_after_ws (stdin line rest : string)
    (h : getline (stdin.dropWhile isspace) '\n' = some (line, rest)) :
    line ≠ [] ∧ '\n' ∉ line ∧ rest.length < stdin.length ∧
      (∀ c, line.head? = some c → isspace c = false) := by
  obtain ⟨hne, hline, _, hnl, _, _⟩ := getline_parts _ _ _ _ h
  have hshort := getline_shorter _ _ _ _ h
  have hle : (stdin.dropWhile isspace).length ≤ stdin.length :=
    (List.dropWhile_sublist _).length_le
  cases hd : stdin.dropWhile isspace with
  | nil => exact absurd hd hne
  | cons a as =>
    have ha : isspace a = false := by
      have := List.head_dropWhile_not isspace stdin (by rw [hd]; simp)
      simpa [hd] using this
    have hanl : (a != '\n') = true := by
      simp only [bne_iff_ne, ne_eq]
      rintro rfl
      revert ha
      decide
    rw [hd] at hline
    simp only [List.takeWhile, hanl] at hline
    refine ⟨by rw [hline]; simp, hnl, by omega, ?_⟩
    intro c hc
    rw [hline] at hc
    simp only [List.head?_cons, Option.some.injEq] at hc
    rw [← hc]
    exact ha

/-- Enough fuel: once the fuel exceeds the length of the input, the loop of
`fetch_input` no longer depends on it. -/
theorem fetch_input_loop_fuel (prompt : string) (expected : List string) (fuel1 fuel2 : Nat)
    (stdin : string) (out : List string) (h1 : stdin.length < fuel1)
    (h2 : stdin.length < fuel2) :
    fetch_input_loop prompt expected fuel1 stdin out =
      fetch_input_loop prompt expected fuel2 stdin out := by
  induction fuel1 generalizing fuel2 stdin out with
  | zero => omega
  | succ f1 ih =>
    cases fuel2 with
    | zero => omega
    | succ f2 =>
      simp only [fetch_input_loop]
      cases hg : getline (stdin.dropWhile isspace) '\n' with
      | none => simp [fetch_input_loop_eof]
      | some r =>
        obtain ⟨line, rest⟩ := r
        obtain ⟨_, _, hlt, _⟩ := getline_after_ws stdin line rest hg
        simp only
        split
        · exact ih f2 rest _ (by omega) (by omega)
        · split
          · exact ih f2 rest _ (by omega) (by omega)
          · rfl

/-- One iteration of `fetch_input`: at the end of input it never returns;
otherwise it extracts a line after skipping white space and returns it in
lower case, unless options are expected and it is none of them, in which case
it prints the prompt and the error message and goes on with the rest of the
input. -/
theorem fetch_input_step (prompt : string) (expected : List string) (stdin : string) :
    fetch_input prompt expected stdin =
      match getline (stdin.dropWhile isspace) '\n' with
      | none => none
      | some (line, rest) =>
        if expected.isEmpty || expected.contains (lower line) then
          some (lower line, rest, [prompt])
        else
          after_output [prompt, fetch_input_invalid] (fetch_input prompt expected rest) := by
  unfold fetch_input
  rw [fetch_input_loop]
  cases hg : getline (stdin.dropWhile isspace) '\n' with
  | none => simp [fetch_input_loop_eof]
  | some r =>
    obtain ⟨line, rest⟩ := r
    obtain ⟨hne, _, hlt, _⟩ := getline_after_ws stdin line rest hg
    have hrec : fetch_input_loop prompt expected stdin.length rest
        [prompt, fetch_input_invalid] =
        after_output [prompt, fetch_input_invalid]
          (fetch_input_loop prompt expected (rest.length + 1) rest []) := by
      rw [fetch_input_loop_out,
        fetch_input_loop_fuel prompt expected stdin.length (rest.length + 1) rest [] hlt
          (by omega)]
    simp only [lower_isEmpty line hne, Bool.false_eq_true, if_false, List.nil_append, hrec]
    generalize expected.isEmpty = b1
    generalize expected.contains (lower line) = b2
    cases b1 <;> cases b2 <;> simp

theorem ofNat_add_ne : ∀ k, k < 91 → 65 ≤ k → Char.ofNat (k + 32) ≠ Char.ofNat k := by
  decide

theorem tolower_eq_self (c : Char) : tolower c = c ↔ isupper c = false := by
  unfold tolower isupper
  by_cases h : 'A' ≤ c ∧ c ≤ 'Z'
  · have h1 : 65 ≤ c.toNat := h.1
    have h2 : c.toNat ≤ 90 := h.2
    have hne := ofNat_add_ne c.toNat (by omega) h1
    rw [Char.ofNat_toNat] at hne
    simp [h, hne]
  · simp only [h, if_false, true_iff]
    simp only [not_and] at h
    by_cases h1 : 'A' ≤ c
    · simp [h1, h h1]
    · simp [h1]

/-- Lower-casing leaves a text as it is exactly when it has no upper-case
letter. -/
theorem lower_eq_self (s : string) : lower s = s ↔ ∀ c ∈ s, isupper c = false := by
  induction s with
  | nil => simp [lower]
  | cons a as ih =>
    simp only [lower, List.map_cons, List.cons.injEq, List.mem_cons, forall_eq_or_imp] at ih ⊢
    rw [tolower_eq_self, ih]

/-- A text in lower case equals the typed text, white space in front included,
exactly when there is no such white space and no upper-case letter. -/
theorem lower_eq_typed (pre s : string) :
    lower s = pre ++ s ↔ pre = [] ∧ ∀ c ∈ s, isupper c = false := by
  constructor
  · intro h
    have hlen := congrArg List.length h
    rw [lower_length, List.length_append] at hlen
    have hpre : pre = [] := List.eq_nil_of_length_eq_zero (by omega)
    rw [hpre, List.nil_append] at h
    exact ⟨hpre, (lower_eq_self s).mp h⟩
  · rintro ⟨rfl, h⟩
    rw [List.nil_append]
    exact (lower_eq_self s).mpr h

/-- Skipping white space in front of a line that has another character. -/
theorem getline_ws_line (pre body rest : string) (hpre : ∀ c ∈ pre, isspace c = true)
    (hne : body ≠ []) (hhead : ∀ c, body.head? = some c → isspace c = false)
    (hnl : '\n' ∉ body) :
    getline ((pre ++ body ++ '\n' :: rest).dropWhile isspace) '\n' = some (body, rest) := by
  cases body with
  | nil => exact absurd rfl hne
  | cons b bs =>
    have hb : isspace b = false := hhead b rfl
    have : (pre ++ (b :: bs) ++ '\n' :: rest).dropWhile isspace = (b :: bs) ++ '\n' :: rest := by
      rw [List.append_assoc]
      exact (takeWhile_until isspace pre b (bs ++ '\n' :: rest) hpre hb).2
    rw [this]
    exact getline_delim (b :: bs) '\n' rest hnl

/-- The white space in front of a line and the rest of the line. -/
theorem split_leading_ws (line : string) :
    line = line.takeWhile isspace ++ line.dropWhile isspace ∧
      (∀ c ∈ line.takeWhile isspace, isspace c = true) ∧
      (∀ c, (line.dropWhile isspace).head? = some c → isspace c = false) := by
  refine ⟨(List.takeWhile_append_dropWhile isspace line).symm,
    fun c hc => (mem_takeWhile _ _ _ hc).2, ?_⟩
  intro c hc
  cases hd : line.dropWhile isspace with
  | nil => rw [hd] at hc; simp at hc
  | cons b bs =>
    rw [hd] at hc
    simp only [List.head?_cons, Option.some.injEq] at hc
    have := List.head_dropWhile_not isspace line (by rw [hd]; simp)
    simp only [hd, List.head_cons] at this
    rw [← hc]
    simpa using this

/-- A line of white space only is skipped without any output. -/
theorem fetch_input_blank (prompt : string) (expected : List string) (blank rest : string)
    (h : ∀ c ∈ blank, isspace c = true) :
    fetch_input prompt expected (blank ++ '\n' :: rest) = fetch_input prompt expected rest := by
  have e : (blank ++ '\n' :: rest).dropWhile isspace = rest.dropWhile isspace := by
    have h2 : ∀ c ∈ blank ++ ['\n'], isspace c = true := by
      intro c hc
      rcases List.mem_append.mp hc with hc | hc
      · exact h c hc
      · simp only [List.mem_singleton] at hc
        rw [hc]
        decide
    have : blank ++ '\n' :: rest = (blank ++ ['\n']) ++ rest := by simp
    rw [this, List.dropWhile_append_of_pos h2]
  rw [fetch_input_step, fetch_input_step prompt expected rest, e]

/-- Whatever `fetch_input` prints starts with the prompt. -/
theorem fetch_input_prompt_first (prompt : string) (expected : List string) (stdin : string)
    (r : string × string × List string) (h : fetch_input prompt expected stdin = some r) :
    r.2.2.head? = some prompt := by
  rw [fetch_input_step] at h
  cases hg : getline (stdin.dropWhile isspace) '\n' with
  | none => simp [hg] at h
  | some x =>
    obtain ⟨line, rest⟩ := x
    simp only [hg] at h
    split at h
    · simp only [Option.some.injEq] at h
      rw [← h]
      rfl
    · cases hr : fetch_input prompt expected rest with
      | none => simp [hr, after_output] at h
      | some y =>
        simp only [hr, after_output, Option.map_some', Option.some.injEq] at h
        rw [← h]
        rfl

/-- What `fetch_input` returns when options are expected is one of them. -/
theorem fetch_input_mem (prompt : string) (expected : List string) (hexp : expected ≠ [])
    (stdin : string) (r : string × string × List string)
    (h : fetch_input prompt expected stdin = some r) : r.1 ∈ expected := by
  obtain ⟨n, hn⟩ : ∃ n, stdin.length = n := ⟨_, rfl⟩
  induction n using Nat.strong_induction_on generalizing stdin r with
  | _ n ih =>
    rw [fetch_input_step] at h
    cases hg : getline (stdin.dropWhile isspace) '\n' with
    | none => simp [hg] at h
    | some x =>
      obtain ⟨line, rest⟩ := x
      obtain ⟨_, _, hlt, _⟩ := getline_after_ws stdin line rest hg
      simp only [hg] at h
      have he : expected.isEmpty = false := by
        cases expected with
        | nil => exact absurd rfl hexp
        | cons a as => rfl
      simp only [he, Bool.false_or] at h
      split at h
      · rename_i hc
        simp only [Option.some.injEq] at h
        rw [← h]
        simpa using hc
      · cases hr : fetch_input prompt expected rest with
        | none => simp [hr, after_output] at h
        | some y =>
          simp only [hr, after_output, Option.map_some', Option.some.injEq] at h
          rw [← h]
          exact ih rest.length (by omega) rest y hr rfl

/-! ## The prompts -/

/-- With no expected options `fetch_input` returns the first line that has a
character other than white space, from that character on, in lower case. -/
theorem fetch_input_free (prompt : string) (stdin : string) :
    fetch_input prompt [] stdin =
      (getline (stdin.dropWhile isspace) '\n').map (fun x => (lower x.1, x.2, [prompt])) := by
  rw [fetch_input_step]
  cases getline (stdin.dropWhile isspace) '\n' with
  | none => rfl
  | some x => rfl

/-- A code that `fetchCodes` lists, on a dense list with fewer than 2147483647
notes, parses without message to a value that is not the sentinel and that
`search` finds. -/
theorem listed_code_found (l : LinkedList) (hd : Dense l) (hlen : l.length < 2147483647)
    (s : string) (hs : s ∈ l.fetchCodes) :
    safe_stoi s ≠ _MAX_INTEGER ∧ safe_stoi_output s = [] ∧
      ∃ n, l.search (safe_stoi s) = some n ∧ n.code = safe_stoi s := by
  rw [fetchCodes, fetchCodes_loop_eq] at hs
  obtain ⟨c, hc, rfl⟩ := List.mem_map.mp hs
  obtain ⟨n, hn, rfl⟩ := List.mem_map.mp hc
  obtain ⟨k, hk, hk1, hk2⟩ := dense_code_mem l hd n hn
  have hlt : k - 1 < l.nodes.length := by rw [← hd.1]; omega
  have hval : safe_stoi (to_string n.code) = (k : Int) := by
    rw [hk]
    exact safe_stoi_to_string k (by omega)
  have hout : safe_stoi_output (to_string n.code) = [] := by
    rw [hk, to_string_nat]
    simp only [safe_stoi_output, stoi_toDigits k (by omega)]
  have e : (k : Int) = ((k - 1 : Nat) : Int) + 1 := by omega
  refine ⟨?_, hout, ?_⟩
  · rw [hval]
    unfold _MAX_INTEGER
    omega
  · rw [hval]
    have hs := search_dense l hd (k - 1) hlt
    rw [← e] at hs
    refine ⟨l.nodes[k - 1], ?_, ?_⟩
    · rw [hs]
      exact List.getElem?_eq_getElem hlt
    · have := dense_code_at l hd (k - 1) _ (List.getElem?_eq_getElem hlt)
      omega

theorem fetchCodes_ne_nil (l : LinkedList) (hd : Dense l) (hpos : 1 ≤ l.length) :
    l.fetchCodes ≠ [] := by
  intro h
  have : l.fetchCodes.length = l.nodes.length := by
    rw [fetchCodes, fetchCodes_loop_eq]
    simp
  rw [h, ← hd.1] at this
  simp at this
  omega

/-- A call of `fetch_input` that returns has consumed at least one
character. -/
theorem fetch_input_shorter (prompt : string) (expected : List string) (stdin : string)
    (r : string × string × List string) (h : fetch_input prompt expected stdin = some r) :
    r.2.1.length < stdin.length := by
  obtain ⟨n, hn⟩ : ∃ n, stdin.length = n := ⟨_, rfl⟩
  induction n using Nat.strong_induction_on generalizing stdin r with
  | _ n ih =>
    rw [fetch_input_step] at h
    cases hg : getline (stdin.dropWhile isspace) '\n' with
    | none => simp [hg] at h
    | some x =>
      obtain ⟨line, rest⟩ := x
      obtain ⟨_, _, hlt, _⟩ := getline_after_ws stdin line rest hg
      simp only [hg] at h
      split at h
      · simp only [Option.some.injEq] at h
        rw [← h]
        exact hlt
      · cases hr : fetch_input prompt expected rest with
        | none => simp [hr, after_output] at h
        | some y =>
          simp only [hr, after_output, Option.map_some', Option.some.injEq] at h
          rw [← h]
          have := ih rest.length (by omega) rest y hr rfl
          simp only
          omega

/-- Enough fuel: once the fuel exceeds the length of the input, the loop of
`prompt_delete_note` no longer depends on it. -/
theorem prompt_delete_loop_fuel (list : LinkedList) (list_options : List string)
    (fuel1 fuel2 : Nat) (stdin : string) (out : List string) (h1 : stdin.length < fuel1)
    (h2 : stdin.length < fuel2) :
    prompt_delete_loop list list_options fuel1 stdin out =
      prompt_delete_loop list list_options fuel2 stdin out := by
  induction fuel1 generalizing fuel2 stdin out with
  | zero => omega
  | succ f1 ih =>
    cases fuel2 with
    | zero => omega
    | succ f2 =>
      simp only [prompt_delete_loop]
      cases hf : fetch_input CODE_PROMPT list_options stdin with
      | none => rfl
      | some r =>
        obtain ⟨code, rest, out1⟩ := r
        have hlt := fetch_input_shorter _ _ _ _ hf
        simp only at hlt ⊢
        split
        · exact ih f2 rest _ (by omega) (by omega)
        · rfl

/-! ## The nodes the scan of `delete_note` visits -/

theorem scan_visit_split (code : Int) (pre : List Note) (x : Note) (post : List Note)
    (hpre : ∀ n ∈ pre, n.code ≠ code) (hx : x.code = code) :
    scan_visit code (pre ++ x :: post) = pre ++ [x] := by
  induction pre with
  | nil => simp [scan_visit, hx]
  | cons a rest ih =>
    have ha : a.code ≠ code := hpre a (List.mem_cons_self _ _)
    have e := ih (fun n hn => hpre n (List.mem_cons_of_mem _ hn))
    rw [List.cons_append, scan_visit, if_pos ha, e, List.cons_append]

/-- On a dense list the scan for the code `k + 1` from the head passes through
the first `k + 1` nodes. -/
theorem scan_visit_dense_next (l : LinkedList) (hd : Dense l) (k : Nat)
    (hk : k < l.nodes.length) :
    scan_visit ((k : Int) + 1) l.nodes = l.nodes.take (k + 1) := by
  have hx : (l.nodes[k]).code = (k : Int) + 1 :=
    dense_code_at l hd k _ (List.getElem?_eq_getElem hk)
  have hsplit : l.nodes = l.nodes.take k ++ l.nodes[k] :: l.nodes.drop (k + 1) := by
    rw [← List.drop_eq_getElem_cons hk, List.take_append_drop]
  have hpre : ∀ n ∈ l.nodes.take k, n.code ≠ (k : Int) + 1 := by
    intro n hn
    obtain ⟨i, hi, e⟩ := List.mem_take_iff_getElem.mp hn
    have := dense_code_at l hd i n (by rw [← e]; exact List.getElem?_eq_getElem _)
    have hik : i < k := by omega
    omega
  have h1 := scan_visit_split ((k : Int) + 1) _ _ (l.nodes.drop (k + 1)) hpre hx
  rw [← hsplit] at h1
  rw [h1, List.take_succ, List.getElem?_eq_getElem hk]
  rfl

/-- On a dense list the scan for the code `k + 1` from the tail passes through
the nodes from the last one back to the node at position `k`. -/
theorem scan_visit_dense_prior (l : LinkedList) (hd : Dense l) (k : Nat)
    (hk : k < l.nodes.length) :
    scan_visit ((k : Int) + 1) l.nodes.reverse = (l.nodes.drop k).reverse := by
  have hx : (l.nodes[k]).code = (k : Int) + 1 :=
    dense_code_at l hd k _ (List.getElem?_eq_getElem hk)
  have hsplit : l.nodes = l.nodes.take k ++ l.nodes[k] :: l.nodes.drop (k + 1) := by
    rw [← List.drop_eq_getElem_cons hk, List.take_append_drop]
  have hrev : l.nodes.reverse =
      (l.nodes.drop (k + 1)).reverse ++ l.nodes[k] :: (l.nodes.take k).reverse := by
    conv_lhs => rw [hsplit]
    simp
  have hpre : ∀ n ∈ (l.nodes.drop (k + 1)).reverse, n.code ≠ (k : Int) + 1 := by
    intro n hn
    rw [List.mem_reverse] at hn
    obtain ⟨i, hi, e⟩ := List.mem_drop_iff_getElem.mp hn
    have := dense_code_at l hd (k + 1 + i) n (by rw [← e]; exact List.getElem?_eq_getElem _)
    push_cast at this
    omega
  have h1 := scan_visit_split ((k : Int) + 1) _ _ (l.nodes.take k).reverse hpre hx
  rw [← hrev] at h1
  rw [h1, List.drop_eq_getElem_cons hk, List.reverse_cons]

/-! ## The notes of the loaded lines -/

/-- The note made of a line without newline: the code field parsed, the text
between the first two commas and the text after the second comma. -/
theorem line_note_of_line (line : string) (hl : '\n' ∉ line) :
    line_note line =
      if loads line = true then
        some (create_note (safe_stoi (before_comma line)) (before_comma (after_comma line))
          (after_comma (after_comma line)))
      else none := by
  have hall : ∀ c ∈ after_comma (after_comma line), (fun c => c != '\n') c = true := by
    intro c hc
    have h1 : c ∈ after_comma line := mem_dropWhile_tail _ _ c hc
    have h2 : c ∈ line := mem_dropWhile_tail _ _ c h1
    have h3 : c ≠ '\n' := fun e => hl (e ▸ h2)
    simpa using h3
  rw [line_note_eq, (takeWhile_all _ _ hall).1]

theorem filterMap_line_note_loads (lines : List string) (hl : ∀ line ∈ lines, '\n' ∉ line) :
    lines.filterMap line_note =
      (lines.filter loads).map (fun line =>
        create_note (safe_stoi (before_comma line)) (before_comma (after_comma line))
          (after_comma (after_comma line))) := by
  induction lines with
  | nil => rfl
  | cons line rest ih =>
    have h1 := line_note_of_line line (hl line (List.mem_cons_self _ _))
    have h2 := ih (fun x hx => hl x (List.mem_cons_of_mem _ hx))
    by_cases hload : loads line = true
    · rw [if_pos hload] at h1
      simp [List.filterMap_cons, List.filter_cons, h1, hload, h2]
    · rw [if_neg hload] at h1
      simp [List.filterMap_cons, List.filter_cons, h1, hload, h2]

theorem filter_loads_line_note (lines : List string) :
    (lines.filter loads).filterMap line_note = lines.filterMap line_note := by
  induction lines with
  | nil => rfl
  | cons line rest ih =>
    by_cases hload : loads line = true
    · simp [List.filter_cons, hload, List.filterMap_cons, ih]
    · have h1 : line_note line = none := by rw [line_note_eq, if_neg hload]
      simp [List.filter_cons, hload, List.filterMap_cons, h1, ih]

/-- Renumbering the notes made of a sequence: the codes count on from the
start value and the texts stay. -/
theorem sanitize_loop_map {α : Type} (f : α → Note) (xs : List α) (v : Int) :
    sanitize_loop (xs.map f) v =
      List.zipWith (fun (i : Int) (x : α) => (⟨i, (f x).title, (f x).description⟩ : Note))
        ((List.range xs.length).map (fun (i : Nat) => (i : Int) + v)) xs := by
  induction xs generalizing v with
  | nil => rfl
  | cons x rest ih =>
    rw [List.map_cons, sanitize_loop, ih, List.length_cons, List.range_succ_eq_map,
      List.map_cons, List.zipWith_cons_cons, List.map_map]
    simp only [Nat.cast_zero, zero_add, List.cons.injEq, true_and]
    congr 1
    apply List.map_congr_left
    intro i _
    simp only [Function.comp_apply, Nat.cast_succ]
    ring

/-! ## The claims -/

/-- C1 (renumbering invariant): for every collection reachable from the empty
list by `push_node` calls with arbitrary notes and `delete_note` calls with
arbitrary integer arguments, the codes from head to tail are exactly
`1, 2, ..., length`, the `length` field is the number of nodes, and no code
occurs twice. -/
theorem renumbering_invariant (l : LinkedList) (h : Reachable l) :
    codes l = one_to l.length ∧ l.length = l.nodes.length ∧ (codes l).Nodup := by
  obtain ⟨h1, h2⟩ := reachable_dense l h
  refine ⟨by rw [h2, h1], h1, ?_⟩
  rw [h2]
  exact one_to_nodup _

/-- An instance of C1: a run of five appends, three deletes (one present code, two
absent ones) and one more append. -/
theorem renumbering_invariant_witness :
    Reachable mixed_run ∧
      (codes mixed_run = one_to mixed_run.length ∧
        mixed_run.length = mixed_run.nodes.length ∧ (codes mixed_run).Nodup) ∧
      codes mixed_run = [1, 2, 3, 4, 5] ∧ mixed_run.length = 5 :=
  ⟨mixed_run_reachable, renumbering_invariant mixed_run mixed_run_reachable, by decide,
    by decide⟩

/-- C2 (directional delete): on a reachable collection of length `n ≥ 1`, for
every code `k` with `1 ≤ k ≤ n`, `delete_note k` yields a collection of length
`n - 1` whose (title, description) sequence is the original one with its
`k`-th element removed; the scan from the head and the scan from the tail both
stop at that `k`-th node. -/
theorem delete_note_removes_kth (l : LinkedList) (h : Reachable l) (k : Nat)
    (hk1 : 1 ≤ k) (hk2 : k ≤ l.length) :
    (l.delete_note (k : Int)).length = l.length - 1 ∧
      (l.delete_note (k : Int)).nodes.length = l.length - 1 ∧
      contents (l.delete_note (k : Int)) = (contents l).eraseIdx (k - 1) ∧
      locate l (k : Int) true = some (k - 1) ∧ locate l (k : Int) false = some (k - 1) := by
  have hd := reachable_dense l h
  have hlt : k - 1 < l.nodes.length := by rw [← hd.1]; omega
  have e : (k : Int) = ((k - 1 : Nat) : Int) + 1 := by omega
  rw [e, delete_note_present l hd (k - 1) hlt, locate_dense l hd (k - 1) hlt,
    locate_dense l hd (k - 1) hlt]
  refine ⟨rfl, ?_, ?_, rfl, rfl⟩
  · simp only [sanitize_codes, sanitize_loop_length, List.length_eraseIdx, hlt, if_true]
    rw [hd.1]
  · simp only [contents, sanitize_codes, sanitize_loop_contents, contents_eraseIdx]

/-- An instance of C2: deleting code 4 of five notes, where the scan starts from
the tail. -/
theorem delete_note_removes_kth_witness :
    Reachable five_notes ∧ 1 ≤ 4 ∧ 4 ≤ five_notes.length ∧
      ((five_notes.delete_note ((4 : Nat) : Int)).length = five_notes.length - 1 ∧
        (five_notes.delete_note ((4 : Nat) : Int)).nodes.length = five_notes.length - 1 ∧
        contents (five_notes.delete_note ((4 : Nat) : Int)) =
          (contents five_notes).eraseIdx (4 - 1) ∧
        locate five_notes ((4 : Nat) : Int) true = some (4 - 1) ∧
        locate five_notes ((4 : Nat) : Int) false = some (4 - 1)) ∧
      closest 4 1 5 = 5 ∧
      contents (five_notes.delete_note 4) =
        [("alpha".toList, "first".toList), ("beta".toList, "second".toList),
         ("gamma".toList, "third".toList), ("epsilon".toList, "fifth".toList)] :=
  ⟨five_notes_reachable, by decide, by decide,
    delete_note_removes_kth five_notes five_notes_reachable 4 (by decide) (by decide),
    by decide, by decide⟩

/-- C3, as stated, fails: a collection of one note with title `a` and an empty
description has neither comma nor newline in its texts; `writeCSV` writes the
line `1,a,` for it, the third extraction of `readCSV` finds nothing to read,
and the line is skipped, so the loaded collection is empty. -/
theorem save_load_round_trip_counterexample :
    Reachable blank_description ∧ blank_description.nodes ≠ [] ∧
      (∀ n ∈ blank_description.nodes,
        ',' ∉ n.title ∧ '\n' ∉ n.title ∧ ',' ∉ n.description ∧ '\n' ∉ n.description) ∧
      writeCSV blank_description = "1,a,\n".toList ∧
      readCSV create_list (writeCSV blank_description) = create_list ∧
      contents (readCSV create_list (writeCSV blank_description)) ≠
        contents blank_description :=
  ⟨blank_description_reachable, by decide, by decide, by decide, by decide, by decide⟩

/-- C3, amended (save/load round trip): for every non-empty reachable
collection with fewer than 2147483647 notes whose titles and descriptions
contain neither a comma nor a newline and whose descriptions are non-empty,
reading the text written by `writeCSV` with `readCSV` into an empty list gives
the collection back: the same (title, description) pairs in the same order,
with codes `1..length`. -/
theorem save_load_round_trip (l : LinkedList) (h : Reachable l) (_hne : l.nodes ≠ [])
    (hlen : l.length < 2147483647)
    (hclean : ∀ n ∈ l.nodes,
      ',' ∉ n.title ∧ '\n' ∉ n.title ∧ ',' ∉ n.description ∧ '\n' ∉ n.description)
    (hdesc : ∀ n ∈ l.nodes, n.description ≠ []) :
    contents (readCSV create_list (writeCSV l)) = contents l ∧
      codes (readCSV create_list (writeCSV l)) = one_to l.length ∧
      (readCSV create_list (writeCSV l)).length = l.length ∧
      readCSV create_list (writeCSV l) = l := by
  have hd := reachable_dense l h
  have key : readCSV create_list (writeCSV l) = l :=
    writeCSV_readCSV l hd hlen (fun n hn => ⟨(hclean n hn).1, (hclean n hn).2.1⟩)
      (fun n hn => ⟨hdesc n hn, (hclean n hn).2.2.2⟩)
  rw [key]
  refine ⟨rfl, ?_, rfl, rfl⟩
  rw [hd.2, hd.1]

/-- An instance of the amended C3: the five notes are saved and loaded back. -/
theorem save_load_round_trip_witness :
    Reachable five_notes ∧ five_notes.nodes ≠ [] ∧ five_notes.length < 2147483647 ∧
      (∀ n ∈ five_notes.nodes,
        ',' ∉ n.title ∧ '\n' ∉ n.title ∧ ',' ∉ n.description ∧ '\n' ∉ n.description) ∧
      (∀ n ∈ five_notes.nodes, n.description ≠ []) ∧
      contents (readCSV create_list (writeCSV five_notes)) = contents five_notes ∧
      codes (readCSV create_list (writeCSV five_notes)) = one_to five_notes.length ∧
      (readCSV create_list (writeCSV five_notes)).length = five_notes.length ∧
      readCSV create_list (writeCSV five_notes) = five_notes :=
  ⟨five_notes_reachable, by decide, by decide, by decide, by decide,
    save_load_round_trip five_notes five_notes_reachable (by decide) (by decide) (by decide)
      (by decide)⟩

/-- C4, as stated, fails: the lines `7,a,` and `2147483647,a,b` have three
comma-separated fields and a code field that parses as an integer, so they are
not among the lines the claim removes, yet `readCSV` skips both: in the first
the third extraction finds nothing to read, in the second the code is the error
sentinel of `safe_stoi`.  A file of these two lines and the line
`1,Groceries,Buy milk` has three valid lines and loads to one note. -/
theorem readCSV_skips_malformed_counterexample :
    malformed "7,a,".toList = false ∧ malformed "2147483647,a,b".toList = false ∧
      "7,a,".toList.count ',' = 2 ∧ stoi "7".toList = stoi_result.value 7 ∧
      stoi "2147483647".toList = stoi_result.value 2147483647 ∧
      readCSV create_list "7,a,\n".toList = create_list ∧
      readCSV create_list "2147483647,a,b\n".toList = create_list ∧
      (["7,a,".toList, "1,Groceries,Buy milk".toList, "2147483647,a,b".toList].filter
        (fun line => !malformed line)).length = 3 ∧
      readCSV create_list "7,a,\n1,Groceries,Buy milk\n2147483647,a,b\n".toList =
        { nodes := [⟨1, "Groceries".toList, "Buy milk".toList⟩], length := 1 } := by
  decide

/-- C4 (skip malformed lines), amended: for every sequence of file lines,
`readCSV` skips each line that has fewer than three comma-separated fields or
whose code field `std::stoi` rejects, and beyond these each line with nothing
after its second comma or with the code 2147483647; the skip is local, for
loading the file gives the same list as loading the file with the skipped
lines, or with the malformed lines only, removed; and loading into the empty
list gives one note for each remaining line in file order, with the codes
`1..m`, the text between the first two commas as title and the text after the
second comma as description.  The remaining lines are those with at least two
commas, some text after the second comma, and a code field on which
`std::stoi` succeeds with a value other than 2147483647.  The lines
`1,Groceries,Buy milk`, `bad,line`, `2,Meeting,Standup at 9` load to exactly
two notes, (1, Groceries, Buy milk) and (2, Meeting, Standup at 9). -/
theorem readCSV_skips_malformed (lines : List string) (hl : ∀ line ∈ lines, '\n' ∉ line)
    (list : LinkedList) :
    (∀ line, malformed line = true → loads line = false) ∧
      (∀ line, loads line = false → readCSV_line list line = list) ∧
      readCSV list (file_of_lines lines) = readCSV list (file_of_lines (lines.filter loads)) ∧
      readCSV list (file_of_lines lines) =
        readCSV list (file_of_lines (lines.filter (fun line => !malformed line))) ∧
      readCSV create_list (file_of_lines lines) =
        { nodes :=
            List.zipWith
              (fun (i : Int) (line : string) =>
                (⟨i, before_comma (after_comma line), after_comma (after_comma line)⟩ : Note))
              (one_to (lines.filter loads).length) (lines.filter loads),
          length := (lines.filter loads).length } ∧
      readCSV create_list "1,Groceries,Buy milk\nbad,line\n2,Meeting,Standup at 9\n".toList =
        { nodes := [⟨1, "Groceries".toList, "Buy milk".toList⟩,
                    ⟨2, "Meeting".toList, "Standup at 9".toList⟩],
          length := 2 } := by
  have hl2 : ∀ line ∈ lines.filter (fun line => !malformed line), '\n' ∉ line :=
    fun line hline => hl line (List.mem_of_mem_filter hline)
  have hl3 : ∀ line ∈ lines.filter loads, '\n' ∉ line :=
    fun line hline => hl line (List.mem_of_mem_filter hline)
  refine ⟨?_, ?_, ?_, ?_, ?_, by decide⟩
  · intro line hm
    have h1 := line_note_malformed line hm
    rw [line_note_eq] at h1
    by_contra hc
    rw [if_pos (by simpa using hc)] at h1
    exact Option.noConfusion h1
  · intro line h
    rw [readCSV_line_eq, line_note_eq, if_neg (by simp [h])]
  · rw [readCSV_lines lines hl, readCSV_lines _ hl3, foldl_readCSV_line, foldl_readCSV_line,
      filter_loads_line_note]
  · rw [readCSV_lines lines hl, readCSV_lines _ hl2, foldl_readCSV_line, foldl_readCSV_line,
      filterMap_line_note_filter]
  · rw [readCSV_dense lines hl create_list ⟨rfl, rfl⟩, filterMap_line_note_loads lines hl,
      sanitize_loop_map]
    simp [create_list, one_to, create_note]

/-- An instance of the amended C4: the example of the specification, where the
second of three lines is skipped, and a file in which four of seven lines are
skipped, two of them lines that are not malformed. -/
theorem readCSV_skips_malformed_witness :
    (∀ line ∈ grocery_lines, '\n' ∉ line) ∧
      ((∀ line, malformed line = true → loads line = false) ∧
        (∀ line, loads line = false → readCSV_line create_list line = create_list) ∧
        readCSV create_list (file_of_lines grocery_lines) =
          readCSV create_list (file_of_lines (grocery_lines.filter loads)) ∧
        readCSV create_list (file_of_lines grocery_lines) =
          readCSV create_list
            (file_of_lines (grocery_lines.filter (fun line => !malformed line))) ∧
        readCSV create_list (file_of_lines grocery_lines) =
          { nodes :=
              List.zipWith
                (fun (i : Int) (line : string) =>
                  (⟨i, before_comma (after_comma line), after_comma (after_comma line)⟩ : Note))
                (one_to (grocery_lines.filter loads).length) (grocery_lines.filter loads),
            length := (grocery_lines.filter loads).length } ∧
        readCSV create_list
            "1,Groceries,Buy milk\nbad,line\n2,Meeting,Standup at 9\n".toList =
          { nodes := [⟨1, "Groceries".toList, "Buy milk".toList⟩,
                      ⟨2, "Meeting".toList, "Standup at 9".toList⟩],
            length := 2 }) ∧
      grocery_lines.filter loads =
        ["1,Groceries,Buy milk".toList, "2,Meeting,Standup at 9".toList] ∧
      file_of_lines grocery_lines =
        "1,Groceries,Buy milk\nbad,line\n2,Meeting,Standup at 9\n".toList ∧
      readCSV create_list (file_of_lines grocery_lines) =
        { nodes := [⟨1, "Groceries".toList, "Buy milk".toList⟩,
                    ⟨2, "Meeting".toList, "Standup at 9".toList⟩],
          length := 2 } ∧
      readCSV create_list "1,Groceries,Buy milk\nbad,line\n2,Meeting,Standup at 9".toList =
        readCSV create_list (file_of_lines grocery_lines) ∧
      readCSV create_list messy_file =
        { nodes := [⟨1, "Groceries".toList, "Buy milk".toList⟩, ⟨2, [], "x".toList⟩,
                    ⟨3, "Meeting".toList, "At 9, room 2".toList⟩],
          length := 3 } :=
  ⟨by decide, readCSV_skips_malformed grocery_lines (by decide) create_list, by decide,
    by decide, by decide, by decide, by decide⟩

/-- C5 (append at tail): on a reachable collection of length `n`, `push_node`
of any note, whatever code it carries, yields the old nodes unchanged followed
by the new note with its title and description and the code `n + 1`; the
length becomes `n + 1`. -/
theorem push_node_appends (l : LinkedList) (h : Reachable l) (new_note : Note) :
    l.push_node new_note =
        { nodes := l.nodes ++ [{ code := (l.length : Int) + 1, title := new_note.title,
                                 description := new_note.description }],
          length := l.length + 1 } ∧
      (l.push_node new_note).nodes.length = l.length + 1 ∧
      contents (l.push_node new_note) =
        contents l ++ [(new_note.title, new_note.description)] := by
  have hd := reachable_dense l h
  have e := push_node_spec l hd new_note
  rw [e]
  refine ⟨rfl, ?_, ?_⟩
  · simp [hd.1]
  · simp [contents]

/-- An instance of C5: a note that arrives with code -5 is stored last. -/
theorem push_node_appends_witness :
    Reachable mixed_run ∧
      mixed_run.push_node ⟨-5, "eta".toList, "seventh".toList⟩ =
        { nodes := mixed_run.nodes ++ [{ code := (mixed_run.length : Int) + 1,
                                         title := "eta".toList,
                                         description := "seventh".toList }],
          length := mixed_run.length + 1 } ∧
      (mixed_run.push_node ⟨-5, "eta".toList, "seventh".toList⟩).nodes.length =
        mixed_run.length + 1 ∧
      contents (mixed_run.push_node ⟨-5, "eta".toList, "seventh".toList⟩) =
        contents mixed_run ++ [("eta".toList, "seventh".toList)] :=
  ⟨mixed_run_reachable,
    push_node_appends mixed_run mixed_run_reachable ⟨-5, "eta".toList, "seventh".toList⟩⟩

/-- C6 (delete of an absent code): on a reachable collection, the empty one
included, a code below 1 or above `length` is carried by no note, and
`delete_note` with such a code returns the collection unchanged: same nodes in
the same order with the same codes, same length. -/
theorem delete_note_absent_unchanged (l : LinkedList) (h : Reachable l) (code : Int)
    (hc : code < 1 ∨ (l.length : Int) < code) :
    code ∉ codes l ∧ l.delete_note code = l := by
  have hd := reachable_dense l h
  refine ⟨?_, delete_note_absent l hd code hc⟩
  rw [hd.2, mem_one_to, ← hd.1]
  omega

/-- An instance of C6: code 6 in a collection of five notes. -/
theorem delete_note_absent_unchanged_witness :
    Reachable five_notes ∧ ((6 : Int) < 1 ∨ (five_notes.length : Int) < 6) ∧
      (6 : Int) ∉ codes five_notes ∧ five_notes.delete_note 6 = five_notes :=
  ⟨five_notes_reachable, by decide,
    delete_note_absent_unchanged five_notes five_notes_reachable 6 (by decide)⟩

/-- C7 (lookup by code): on a reachable collection of length `n`, `search k`
returns the `k`-th note from the head when `1 ≤ k ≤ n`; that note carries the
code `k` and no note at another position does; for every other integer `k`
the result is not-found. -/
theorem search_by_code (l : LinkedList) (h : Reachable l) (k : Int) :
    (1 ≤ k ∧ k ≤ (l.length : Int) →
        ∃ n, l.search k = some n ∧ l.nodes[(k - 1).toNat]? = some n ∧ n.code = k ∧
          ∀ j m, l.nodes[j]? = some m → m.code = k → j = (k - 1).toNat) ∧
      (¬(1 ≤ k ∧ k ≤ (l.length : Int)) → l.search k = none) := by
  have hd := reachable_dense l h
  constructor
  · rintro ⟨h1, h2⟩
    have hlt : (k - 1).toNat < l.nodes.length := by rw [← hd.1]; omega
    have e : k = (((k - 1).toNat : Nat) : Int) + 1 := by omega
    have hs := search_dense l hd _ hlt
    rw [← e] at hs
    refine ⟨l.nodes[(k - 1).toNat], ?_, ?_, ?_, ?_⟩
    · rw [hs]
      exact List.getElem?_eq_getElem hlt
    · exact List.getElem?_eq_getElem hlt
    · have := dense_code_at l hd _ _ (List.getElem?_eq_getElem hlt)
      omega
    · intro j m hj hm
      have := dense_code_at l hd j m hj
      omega
  · intro hn
    apply search_absent l hd
    omega

/-- An instance of C7: code 3 in a collection of five notes. -/
theorem search_by_code_witness :
    Reachable five_notes ∧
      ((1 ≤ (3 : Int) ∧ (3 : Int) ≤ (five_notes.length : Int) →
        ∃ n, five_notes.search 3 = some n ∧ five_notes.nodes[((3 : Int) - 1).toNat]? = some n ∧
          n.code = 3 ∧
          ∀ j m, five_notes.nodes[j]? = some m → m.code = 3 → j = ((3 : Int) - 1).toNat) ∧
      (¬(1 ≤ (3 : Int) ∧ (3 : Int) ≤ (five_notes.length : Int)) → five_notes.search 3 = none)) ∧
      five_notes.search 3 = some ⟨3, "gamma".toList, "third".toList⟩ ∧
      five_notes.search 0 = none ∧ five_notes.search 6 = none :=
  ⟨five_notes_reachable, search_by_code five_notes five_notes_reachable 3, by decide, by decide,
    by decide⟩

/-- C8, as stated, fails: with two notes of the same title and description,
after `delete_note 1` the call `search 1` returns the second note, renumbered
to 1, whose (title, description) is that of the deleted note. -/
theorem delete_then_search_counterexample :
    Reachable twin_notes ∧ (1 : Int) ≤ 1 ∧ (1 : Int) ≤ (twin_notes.length : Int) ∧
      twin_notes.search 1 = some ⟨1, "a".toList, "b".toList⟩ ∧
      (twin_notes.delete_note 1).search 1 = some ⟨1, "a".toList, "b".toList⟩ :=
  ⟨twin_notes_reachable, by decide, by decide, by decide, by decide⟩

/-- C8, amended (delete-then-search): on a reachable collection, after
`delete_note k` with `1 ≤ k ≤ length`, `search k` returns not-found when `k`
was the last code, and otherwise the note that followed the deleted one,
renumbered to `k`.  So it does not return the deleted note's (title,
description) unless the following note carries the same title and
description. -/
theorem delete_then_search (l : LinkedList) (h : Reachable l) (k : Nat)
    (hk1 : 1 ≤ k) (hk2 : k ≤ l.length) :
    (l.delete_note (k : Int)).search (k : Int) =
        l.nodes[k]?.map (fun m => { m with code := (k : Int) }) ∧
      (k = l.length → (l.delete_note (k : Int)).search (k : Int) = none) ∧
      (∀ d, l.nodes[k - 1]? = some d →
        (∀ m, l.nodes[k]? = some m → (m.title, m.description) ≠ (d.title, d.description)) →
        ∀ r, (l.delete_note (k : Int)).search (k : Int) = some r →
          (r.title, r.description) ≠ (d.title, d.description)) := by
  have hd := reachable_dense l h
  have hlt : k - 1 < l.nodes.length := by rw [← hd.1]; omega
  have e : (k : Int) = ((k - 1 : Nat) : Int) + 1 := by omega
  have hdel := delete_note_present l hd (k - 1) hlt
  rw [← e] at hdel
  have hd2 : Dense (l.delete_note (k : Int)) := delete_note_dense l _ hd
  have hlen : (l.delete_note (k : Int)).nodes.length = l.nodes.length - 1 := by
    rw [hdel]
    simp [sanitize_codes, sanitize_loop_length, List.length_eraseIdx, hlt]
  have key : (l.delete_note (k : Int)).search (k : Int) =
      l.nodes[k]?.map (fun m => { m with code := (k : Int) }) := by
    by_cases hlast : k = l.nodes.length
    · rw [search_absent _ hd2 _ (by rw [hd2.1, hlen]; omega)]
      rw [List.getElem?_eq_none (by omega)]
      rfl
    · have hlt2 : k - 1 < (l.delete_note (k : Int)).nodes.length := by
        rw [hlen, ← hd.1]
        have := hd.1
        omega
      have hs := search_dense _ hd2 (k - 1) hlt2
      rw [← e] at hs
      rw [hs, hdel]
      simp only [sanitize_codes, sanitize_loop_getElem?]
      rw [List.getElem?_eraseIdx_of_ge _ _ _ (le_refl _)]
      have e2 : k - 1 + 1 = k := by omega
      have e3 : (1 : Int) + ((k - 1 : Nat) : Int) = (k : Int) := by omega
      rw [e2, e3]
  refine ⟨key, ?_, ?_⟩
  · intro hk
    rw [key, List.getElem?_eq_none (by rw [← hd.1]; omega)]
    rfl
  · intro d _ hne r hr
    rw [key] at hr
    cases hm : l.nodes[k]? with
    | none => simp [hm] at hr
    | some m =>
      simp only [hm, Option.map_some', Option.some.injEq] at hr
      rw [← hr]
      exact hne m hm

/-- An instance of the amended C8: deleting code 2 of five notes. -/
theorem delete_then_search_witness :
    Reachable five_notes ∧ 1 ≤ 2 ∧ 2 ≤ five_notes.length ∧
      (five_notes.delete_note ((2 : Nat) : Int)).search ((2 : Nat) : Int) =
        five_notes.nodes[2]?.map (fun m => { m with code := ((2 : Nat) : Int) }) ∧
      (2 = five_notes.length →
        (five_notes.delete_note ((2 : Nat) : Int)).search ((2 : Nat) : Int) = none) ∧
      (∀ d, five_notes.nodes[2 - 1]? = some d →
        (∀ m, five_notes.nodes[2]? = some m →
          (m.title, m.description) ≠ (d.title, d.description)) →
        ∀ r, (five_notes.delete_note ((2 : Nat) : Int)).search ((2 : Nat) : Int) = some r →
          (r.title, r.description) ≠ (d.title, d.description)) :=
  ⟨five_notes_reachable, by decide, by decide,
    delete_then_search five_notes five_notes_reachable 2 (by decide) (by decide)⟩

/-- C9 (next code is the assigned code): on a reachable collection `yieldCode`
returns `length + 1`.  When `fetch_input` returns a name and then a
description, `prompt_create_note` returns; the collection it leaves is the
result of `push_node` on a note created with the code `yieldCode()`, which is
the old nodes, unchanged, followed by that note, still with that code; it is
the last node and the one `search` finds for the code; and the position that
the report printed to the user names is the decimal text of that note's
code. -/
theorem yieldCode_is_assigned (l : LinkedList) (h : Reachable l)
    (stdin name stdin1 description stdin2 : string) (out1 out2 : List string)
    (h1 : fetch_input NAME_PROMPT [] stdin = some (name, stdin1, out1))
    (h2 : fetch_input DESCRIPTION_PROMPT [] stdin1 = some (description, stdin2, out2)) :
    l.yieldCode = (l.length : Int) + 1 ∧
      ∃ (l2 : LinkedList) (n : Note),
        prompt_create_note l stdin =
          some (l2, stdin2,
            ["\n".toList, "---------- \x1b[1;34m[Note Insertion]\x1b[0m -----------\n".toList] ++
              out1 ++ out2 ++
              ["\x1b[1;33m[Inserted]:\x1b[0m \x1b[1;42m".toList ++ n.title ++
                  "\x1b[0m at position ".toList ++ to_string n.code ++ ".\n".toList,
                CLOSING_RULE]) ∧
          l2 = l.push_node (create_note l.yieldCode name description) ∧
          n = create_note l.yieldCode name description ∧
          l2.nodes = l.nodes ++ [n] ∧ l2.length = l.length + 1 ∧
          n.code = l.yieldCode ∧ l2.last = some n ∧ l2.search n.code = some n := by
  have hd := reachable_dense l h
  have hp : l.push_node (create_note l.yieldCode name description) =
      { nodes := l.nodes ++ [create_note l.yieldCode name description],
        length := l.length + 1 } :=
    push_node_spec l hd (create_note l.yieldCode name description)
  have hd2 : Dense (l.push_node (create_note l.yieldCode name description)) :=
    push_node_dense l _ hd
  have hs := search_dense _ hd2 l.length (by rw [hp]; simp [hd.1])
  refine ⟨rfl, l.push_node (create_note l.yieldCode name description),
    create_note l.yieldCode name description, ?_, rfl, rfl, ?_, ?_, rfl, ?_, ?_⟩
  · simp only [prompt_create_note, h1, h2]
    rfl
  · rw [hp]
  · rw [hp]
  · rw [hp]
    simp [last]
  · have e : (create_note l.yieldCode name description).code = (l.length : Int) + 1 := rfl
    rw [e, hs, hp]
    simp [hd.1]

/-- An instance of C9: after a run of appends and deletes that leaves five
notes, the name `Eta` and the description `Seventh` are typed; the note is
appended with the code 6 and the report names the position 6. -/
theorem yieldCode_is_assigned_witness :
    Reachable mixed_run ∧
      fetch_input NAME_PROMPT [] "Eta\nSeventh\nc\n".toList =
        some ("eta".toList, "Seventh\nc\n".toList, [NAME_PROMPT]) ∧
      fetch_input DESCRIPTION_PROMPT [] "Seventh\nc\n".toList =
        some ("seventh".toList, "c\n".toList, [DESCRIPTION_PROMPT]) ∧
      (mixed_run.yieldCode = (mixed_run.length : Int) + 1 ∧
        ∃ (l2 : LinkedList) (n : Note),
          prompt_create_note mixed_run "Eta\nSeventh\nc\n".toList =
            some (l2, "c\n".toList,
              ["\n".toList,
                  "---------- \x1b[1;34m[Note Insertion]\x1b[0m -----------\n".toList] ++
                [NAME_PROMPT] ++ [DESCRIPTION_PROMPT] ++
                ["\x1b[1;33m[Inserted]:\x1b[0m \x1b[1;42m".toList ++ n.title ++
                    "\x1b[0m at position ".toList ++ to_string n.code ++ ".\n".toList,
                  CLOSING_RULE]) ∧
            l2 = mixed_run.push_node
              (create_note mixed_run.yieldCode "eta".toList "seventh".toList) ∧
            n = create_note mixed_run.yieldCode "eta".toList "seventh".toList ∧
            l2.nodes = mixed_run.nodes ++ [n] ∧ l2.length = mixed_run.length + 1 ∧
            n.code = mixed_run.yieldCode ∧ l2.last = some n ∧ l2.search n.code = some n) ∧
      mixed_run.length = 5 ∧
      prompt_create_note mixed_run "Eta\nSeventh\nc\n".toList =
        some ({ nodes := mixed_run.nodes ++ [⟨6, "eta".toList, "seventh".toList⟩], length := 6 },
          "c\n".toList,
          ["\n".toList, "---------- \x1b[1;34m[Note Insertion]\x1b[0m -----------\n".toList,
            NAME_PROMPT, DESCRIPTION_PROMPT,
            "\x1b[1;33m[Inserted]:\x1b[0m \x1b[1;42meta\x1b[0m at position 6.\n".toList,
            CLOSING_RULE]) :=
  ⟨mixed_run_reachable, by decide, by decide,
    yieldCode_is_assigned mixed_run mixed_run_reachable "Eta\nSeventh\nc\n".toList
      "eta".toList "Seventh\nc\n".toList "seventh".toList "c\n".toList [NAME_PROMPT]
      [DESCRIPTION_PROMPT] (by decide) (by decide),
    by decide, by decide⟩

/-- C10 (list of valid codes): on a reachable collection of length `n`,
`fetchCodes` returns exactly `n` strings, the decimal texts of `1, 2, ..., n`
in that order, which are the codes of the notes from head to tail. -/
theorem fetchCodes_decimal (l : LinkedList) (h : Reachable l) :
    l.fetchCodes = (List.range l.length).map (fun (i : Nat) => (Nat.repr (i + 1)).toList) ∧
      l.fetchCodes.length = l.length ∧
      l.fetchCodes = (codes l).map to_string := by
  have hd := reachable_dense l h
  have h1 : l.fetchCodes = (codes l).map to_string := fetchCodes_loop_eq l.nodes
  refine ⟨?_, ?_, h1⟩
  · rw [h1, hd.2, ← hd.1, one_to, List.map_map]
    apply List.map_congr_left
    intro i _
    exact to_string_succ i
  · rw [h1]
    simp [codes, hd.1]

/-- An instance of C10: the five codes of five notes. -/
theorem fetchCodes_decimal_witness :
    Reachable five_notes ∧
      (five_notes.fetchCodes =
        (List.range five_notes.length).map (fun (i : Nat) => (Nat.repr (i + 1)).toList) ∧
      five_notes.fetchCodes.length = five_notes.length ∧
      five_notes.fetchCodes = (codes five_notes).map to_string) ∧
      five_notes.fetchCodes = ["1".toList, "2".toList, "3".toList, "4".toList, "5".toList] :=
  ⟨five_notes_reachable, fetchCodes_decimal five_notes five_notes_reachable, by decide⟩

/-- C11, as stated, fails: a collection of one note with title `a` and
description `b,c` contains a comma, and `writeCSV` followed by `readCSV`
reproduces it, because the third extraction of `readCSV` reads to the end of
the line. -/
theorem delimiter_corrupts_counterexample :
    Reachable comma_description ∧
      (∃ n ∈ comma_description.nodes,
        ',' ∈ n.title ∨ '\n' ∈ n.title ∨ ',' ∈ n.description ∨ '\n' ∈ n.description) ∧
      writeCSV comma_description = "1,a,b,c\n".toList ∧
      contents (readCSV create_list (writeCSV comma_description)) =
        contents comma_description ∧
      readCSV create_list (writeCSV comma_description) = comma_description :=
  ⟨comma_description_reachable, by decide, by decide, by decide, by decide⟩

/-- C11, amended (delimiter or newline corrupts the format): for every
collection containing a note whose title contains a comma or a newline, or
whose description contains a newline, `writeCSV` followed by `readCSV` into an
empty list does not reproduce the original sequence of (title, description)
pairs. -/
theorem delimiter_corrupts (l : LinkedList)
    (hbad : ∃ n ∈ l.nodes, ',' ∈ n.title ∨ '\n' ∈ n.title ∨ '\n' ∈ n.description) :
    contents (readCSV create_list (writeCSV l)) ≠ contents l := by
  intro h
  obtain ⟨n, hn, hb⟩ := hbad
  obtain ⟨h1, h2, h3, _⟩ := round_trip_clean l h n hn
  rcases hb with hb | hb | hb
  · exact h1 hb
  · exact h2 hb
  · exact h3 hb

/-- An instance of the amended C11: the title `a,b` comes back as `a`, with
`b,c` as the description. -/
theorem delimiter_corrupts_witness :
    (∃ n ∈ comma_title.nodes, ',' ∈ n.title ∨ '\n' ∈ n.title ∨ '\n' ∈ n.description) ∧
      contents (readCSV create_list (writeCSV comma_title)) ≠ contents comma_title ∧
      contents (readCSV create_list (writeCSV comma_title)) = [("a".toList, "b,c".toList)] :=
  ⟨by decide, delimiter_corrupts comma_title (by decide), by decide⟩

/-- C12, as stated, fails: the input lines `C` and ` e` are not exactly one of
`c`, `w`, `r`, `e`, yet `fetch_input` with the menu options returns for them
(`c` and `e`), printing the prompt once and no error message, and leaves the
next line unread; and for an empty line it prints no error message either,
but reads on silently. -/
theorem unknown_command_counterexample :
    "C".toList ∉ global_vars.OPTIONS ∧
      fetch_input global_vars.INSTRUCTION_PROMPT global_vars.OPTIONS "C\nx\n".toList =
        some ("c".toList, "x\n".toList, [global_vars.INSTRUCTION_PROMPT]) ∧
      " e".toList ∉ global_vars.OPTIONS ∧
      fetch_input global_vars.INSTRUCTION_PROMPT global_vars.OPTIONS " e\nx\n".toList =
        some ("e".toList, "x\n".toList, [global_vars.INSTRUCTION_PROMPT]) ∧
      "".toList ∉ global_vars.OPTIONS ∧
      fetch_input global_vars.INSTRUCTION_PROMPT global_vars.OPTIONS "\nw\n".toList =
        some ("w".toList, [], [global_vars.INSTRUCTION_PROMPT]) := by
  decide

/-- C12, amended (unknown command rejection): for every input line that has a
character other than white space and whose text from the first such character
on, converted to lower case, is not one of `c`, `w`, `r`, `e`, `fetch_input`
called with the menu options does not return for that line: it prints the
prompt and the error message and goes on as the call on the following input
does, which prints the same prompt again and reads the next line.  The
collection is out of the reach of `fetch_input`, which has no access to it. -/
theorem unknown_command_rejected (line rest : string) (hnl : '\n' ∉ line)
    (hbody : line.dropWhile isspace ≠ [])
    (hrej : lower (line.dropWhile isspace) ∉ global_vars.OPTIONS) :
    fetch_input global_vars.INSTRUCTION_PROMPT global_vars.OPTIONS (line ++ '\n' :: rest) =
        after_output [global_vars.INSTRUCTION_PROMPT, fetch_input_invalid]
          (fetch_input global_vars.INSTRUCTION_PROMPT global_vars.OPTIONS rest) ∧
      (∀ r, fetch_input global_vars.INSTRUCTION_PROMPT global_vars.OPTIONS rest = some r →
        r.2.2.head? = some global_vars.INSTRUCTION_PROMPT ∧ r.1 ∈ global_vars.OPTIONS) ∧
      (fetch_input global_vars.INSTRUCTION_PROMPT global_vars.OPTIONS rest = none →
        fetch_input global_vars.INSTRUCTION_PROMPT global_vars.OPTIONS (line ++ '\n' :: rest) = none) := by
  obtain ⟨hsplit, hpre, hhead⟩ := split_leading_ws line
  have hnl2 : '\n' ∉ line.dropWhile isspace :=
    fun hm => hnl ((List.dropWhile_sublist _).subset hm)
  have hg := getline_ws_line (line.takeWhile isspace) (line.dropWhile isspace) rest hpre hbody
    hhead hnl2
  rw [← hsplit] at hg
  have hcontains : global_vars.OPTIONS.contains (lower (line.dropWhile isspace)) = false := by
    simpa using hrej
  have key : fetch_input global_vars.INSTRUCTION_PROMPT global_vars.OPTIONS (line ++ '\n' :: rest) =
      after_output [global_vars.INSTRUCTION_PROMPT, fetch_input_invalid]
        (fetch_input global_vars.INSTRUCTION_PROMPT global_vars.OPTIONS rest) := by
    rw [fetch_input_step, hg]
    have he : global_vars.OPTIONS.isEmpty = false := rfl
    simp only [he, hcontains, Bool.or_self, Bool.false_eq_true, if_false]
  refine ⟨key, ?_, ?_⟩
  · intro r hr
    exact ⟨fetch_input_prompt_first _ _ _ r hr,
      fetch_input_mem _ global_vars.OPTIONS (by decide) rest r hr⟩
  · intro hnone
    rw [key, hnone]
    rfl

/-- An instance of the amended C12: the line `x` is rejected and the line `W`
after it is accepted as `w`. -/
theorem unknown_command_rejected_witness :
    '\n' ∉ "x".toList ∧ "x".toList.dropWhile isspace ≠ [] ∧
      lower ("x".toList.dropWhile isspace) ∉ global_vars.OPTIONS ∧
      (fetch_input global_vars.INSTRUCTION_PROMPT global_vars.OPTIONS ("x".toList ++ '\n' :: "W\n".toList) =
          after_output [global_vars.INSTRUCTION_PROMPT, fetch_input_invalid]
            (fetch_input global_vars.INSTRUCTION_PROMPT global_vars.OPTIONS "W\n".toList) ∧
        (∀ r, fetch_input global_vars.INSTRUCTION_PROMPT global_vars.OPTIONS "W\n".toList = some r →
          r.2.2.head? = some global_vars.INSTRUCTION_PROMPT ∧ r.1 ∈ global_vars.OPTIONS) ∧
        (fetch_input global_vars.INSTRUCTION_PROMPT global_vars.OPTIONS "W\n".toList = none →
          fetch_input global_vars.INSTRUCTION_PROMPT global_vars.OPTIONS ("x".toList ++ '\n' :: "W\n".toList) = none)) ∧
      fetch_input global_vars.INSTRUCTION_PROMPT global_vars.OPTIONS "x\nW\n".toList =
        some ("w".toList, [],
          [global_vars.INSTRUCTION_PROMPT, fetch_input_invalid, global_vars.INSTRUCTION_PROMPT]) :=
  ⟨by decide, by decide, by decide,
    unknown_command_rejected "x".toList "W\n".toList (by decide) (by decide) (by decide),
    by decide⟩

/-- C13 (exact round-trip precondition): for every reachable collection with
fewer than 2147483647 notes in which every title contains no comma and no
newline (it may be empty) and every description is non-empty and contains no
newline (it may contain commas), the text written by `writeCSV` is read back
by `readCSV` into an empty list as the same collection: the same (title,
description) pairs in the same order, with the codes `1..length`. -/
theorem exact_round_trip (l : LinkedList) (h : Reachable l) (hlen : l.length < 2147483647)
    (ht : ∀ n ∈ l.nodes, ',' ∉ n.title ∧ '\n' ∉ n.title)
    (hdesc : ∀ n ∈ l.nodes, n.description ≠ [] ∧ '\n' ∉ n.description) :
    contents (readCSV create_list (writeCSV l)) = contents l ∧
      codes (readCSV create_list (writeCSV l)) = one_to l.length ∧
      readCSV create_list (writeCSV l) = l := by
  have hd := reachable_dense l h
  have key := writeCSV_readCSV l hd hlen ht hdesc
  rw [key]
  refine ⟨rfl, ?_, rfl⟩
  rw [hd.2, hd.1]

/-- An instance of C13: an empty title and descriptions with commas. -/
theorem exact_round_trip_witness :
    Reachable comma_notes ∧ comma_notes.length < 2147483647 ∧
      (∀ n ∈ comma_notes.nodes, ',' ∉ n.title ∧ '\n' ∉ n.title) ∧
      (∀ n ∈ comma_notes.nodes, n.description ≠ [] ∧ '\n' ∉ n.description) ∧
      (contents (readCSV create_list (writeCSV comma_notes)) = contents comma_notes ∧
        codes (readCSV create_list (writeCSV comma_notes)) = one_to comma_notes.length ∧
        readCSV create_list (writeCSV comma_notes) = comma_notes) ∧
      writeCSV comma_notes = "1,,b,c\n2,x y,,,\n".toList :=
  ⟨comma_notes_reachable, by decide, by decide, by decide,
    exact_round_trip comma_notes comma_notes_reachable (by decide) (by decide) (by decide),
    by decide⟩

/-- C14 (loaded collections are fixed points of save-then-load): for every
file content, well-formed or not, writing the collection `readCSV` builds from
it with `writeCSV` and reading the result with `readCSV` into an empty list
gives the collection back, with the same codes, titles and descriptions in the
same order; so the text written after one load no longer changes in further
cycles.  The collection is one the program can hold: it has fewer than
2147483647 notes, the lists on which the `int` counter of `sanitize_codes`
stays in range. -/
theorem load_fixed_point (file : string)
    (hlen : (readCSV create_list file).length < 2147483647) :
    readCSV create_list (writeCSV (readCSV create_list file)) = readCSV create_list file ∧
      writeCSV (readCSV create_list (writeCSV (readCSV create_list file))) =
        writeCSV (readCSV create_list file) := by
  have hd0 : Dense create_list := ⟨rfl, rfl⟩
  have hd : Dense (readCSV create_list file) := readCSV_is_dense _ _ hd0
  have hc : CleanTexts (readCSV create_list file) :=
    readCSV_is_clean _ _ (by intro m hm; simp [create_list] at hm)
  have key := writeCSV_readCSV _ hd hlen (fun n hn => ⟨(hc n hn).1, (hc n hn).2.1⟩)
    (fun n hn => ⟨(hc n hn).2.2.2, (hc n hn).2.2.1⟩)
  exact ⟨key, by rw [key]⟩

/-- An instance of C14: a file with malformed lines is normalised by one load
and save. -/
theorem load_fixed_point_witness :
    (readCSV create_list messy_file).length < 2147483647 ∧
      (readCSV create_list (writeCSV (readCSV create_list messy_file)) =
          readCSV create_list messy_file ∧
        writeCSV (readCSV create_list (writeCSV (readCSV create_list messy_file))) =
          writeCSV (readCSV create_list messy_file)) ∧
      writeCSV (readCSV create_list messy_file) =
        "1,Groceries,Buy milk\n2,,x\n3,Meeting,At 9, room 2\n".toList :=
  ⟨by decide, load_fixed_point messy_file (by decide), by decide⟩

/-- C15 (which lines are loaded): `readCSV` loads a line, that is, its loop
body appends a note for it, if and only if the line contains at least two
commas, the text after the second comma is non-empty, and `std::stoi`
succeeds on the text before the first comma with a value different from
2147483647; the note holds the text between the first two commas as title and
the text after the second comma as description.  Every other line leaves the
list as it is.  In particular the line `2147483647,a,b` is skipped although
its code field parses, and the line `7up,a,b` is loaded. -/
theorem which_lines_load (line : string) (list : LinkedList) :
    (loads line = true ↔
        2 ≤ line.count ',' ∧ after_comma (after_comma line) ≠ [] ∧
          ∃ v, stoi (before_comma line) = stoi_result.value v ∧ v ≠ 2147483647) ∧
      (line_note line).isSome = loads line ∧
      (loads line = true →
        readCSV_line list line =
            list.push_node
              (create_note (safe_stoi (before_comma line)) (before_comma (after_comma line))
                ((after_comma (after_comma line)).takeWhile (fun c => c != '\n'))) ∧
          (readCSV_line list line).nodes.length = list.nodes.length + 1) ∧
      (loads line = false → readCSV_line list line = list) ∧
      stoi "2147483647".toList = stoi_result.value 2147483647 ∧
      loads "2147483647,a,b".toList = false ∧
      readCSV_line list "2147483647,a,b".toList = list ∧
      loads "7up,a,b".toList = true ∧
      readCSV_line list "7up,a,b".toList = list.push_node ⟨7, "a".toList, "b".toList⟩ := by
  have hnote := line_note_eq line
  have hsome : (line_note line).isSome = loads line := by
    rw [hnote]
    cases loads line <;> simp
  have hskip : ∀ ln : string, loads ln = false → readCSV_line list ln = list := by
    intro ln h
    rw [readCSV_line_eq, line_note_eq, h]
    simp
  have hload : ∀ ln : string, loads ln = true →
      readCSV_line list ln =
        list.push_node
          (create_note (safe_stoi (before_comma ln)) (before_comma (after_comma ln))
            ((after_comma (after_comma ln)).takeWhile (fun c => c != '\n'))) := by
    intro ln h
    rw [readCSV_line_eq, line_note_eq, h]
    simp
  refine ⟨?_, hsome, ?_, hskip line, by decide, by decide, hskip _ (by decide), by decide, ?_⟩
  · simp only [loads, Bool.and_eq_true, decide_eq_true_eq, Bool.not_eq_true',
      List.isEmpty_eq_false, ne_eq, and_assoc]
    constructor
    · rintro ⟨h1, h2, h3⟩
      refine ⟨h1, h2, ?_⟩
      cases hst : stoi (before_comma line) with
      | value v =>
        rw [hst] at h3
        exact ⟨v, rfl, by simpa using h3⟩
      | invalid_argument => rw [hst] at h3; simp at h3
      | out_of_range => rw [hst] at h3; simp at h3
    · rintro ⟨h1, h2, v, hv, hne⟩
      refine ⟨h1, h2, ?_⟩
      rw [hv]
      simpa using hne
  · intro h
    refine ⟨hload line h, ?_⟩
    rw [hload line h]
    exact (push_node_length _ _).1
  · rw [hload _ (by decide)]
    rfl

/-- C16, as stated, fails: `closest` computes both distances in `int`.  For
`lo = -2147483648`, `t = 0`, `hi = 2147483647` the difference `t - lo` is 2^31,
which wraps around to `-2147483648`, and so does its `std::abs`; it compares
below the other distance and `closest` returns `lo`, although `t - lo` is
greater than `hi - t`.  The same happens for `lo = -2147483647`, `t = 1`,
`hi = 5`. -/
theorem closest_is_half_range_counterexample :
    ((-2147483648 : Int) ≤ 0 ∧ (0 : Int) ≤ 2147483647 ∧
        closest 0 (-2147483648) 2147483647 = -2147483648 ∧
        ¬ ((0 : Int) - (-2147483648) ≤ 2147483647 - 0)) ∧
      ((-2147483647 : Int) ≤ 1 ∧ (1 : Int) ≤ 5 ∧
        closest 1 (-2147483647) 5 = -2147483647 ∧
        ¬ ((1 : Int) - (-2147483647) ≤ 5 - 1)) := by
  decide

/-- C16 (closest-end heuristic equals a half-range test), amended: for all
integers `lo ≤ t ≤ hi` with `hi - lo ≤ 2147483647`, `closest t lo hi` returns
`lo` if and only if `t - lo ≤ hi - t`; hence on a reachable collection of
length `n ≤ 2147483647`, the loop of `delete_note k` with `1 ≤ k ≤ n` starts at
the head exactly when `2 * k ≤ n + 1`, and then passes through the first `k`
nodes; otherwise it starts at the tail and passes through the nodes from the
last one back to the `k`-th; in both cases the node it stops at is the `k`-th
node, which carries the code `k`. -/
theorem closest_is_half_range (lo t hi : Int) (h1 : lo ≤ t) (h2 : t ≤ hi)
    (h3 : hi - lo ≤ 2147483647) (l : LinkedList) (h : Reachable l)
    (hsize : l.length ≤ 2147483647) (k : Nat) (hk1 : 1 ≤ k) (hk2 : k ≤ l.length) :
    (closest t lo hi = lo ↔ t - lo ≤ hi - t) ∧
      ((l.delete_note_visit (k : Int)).2.head? = l.head ↔ 2 * k ≤ l.length + 1) ∧
      (2 * k ≤ l.length + 1 → (l.delete_note_visit (k : Int)).2 = l.nodes.take k) ∧
      (l.length + 1 < 2 * k →
        (l.delete_note_visit (k : Int)).2.head? = l.last ∧
          (l.delete_note_visit (k : Int)).2 = (l.nodes.drop (k - 1)).reverse) ∧
      ∃ n, (l.delete_note_visit (k : Int)).2.getLast? = some n ∧ l.nodes[k - 1]? = some n ∧
        n.code = (k : Int) := by
  have hd := reachable_dense l h
  have hlen := hd.1
  have hlt : k - 1 < l.nodes.length := by omega
  obtain ⟨first, final, hf, hl, hfc, hlc⟩ := dense_head_last l hd (by omega)
  have e : (k : Int) = ((k - 1 : Nat) : Int) + 1 := by omega
  have hk : k - 1 + 1 = k := by omega
  have hiff := closest_eq_min_iff 1 (k : Int) (l.length : Int) (by omega) (by omega) (by omega)
  have hloc : ∀ from_head, locate l (k : Int) from_head = some (k - 1) := by
    intro from_head
    rw [e]
    exact locate_dense l hd (k - 1) hlt from_head
  have hnext : scan_visit (k : Int) l.nodes = l.nodes.take k := by
    have := scan_visit_dense_next l hd (k - 1) hlt
    rwa [← e, hk] at this
  have hprior : scan_visit (k : Int) l.nodes.reverse = (l.nodes.drop (k - 1)).reverse := by
    have := scan_visit_dense_prior l hd (k - 1) hlt
    rwa [← e] at this
  have hv : (l.delete_note_visit (k : Int)).2 =
      if 2 * k ≤ l.length + 1 then l.nodes.take k else (l.nodes.drop (k - 1)).reverse := by
    simp only [delete_note_visit, hf, hl, hfc, hlc, hloc]
    by_cases h2k : 2 * k ≤ l.length + 1
    · have hc : closest (k : Int) 1 (l.length : Int) = 1 := hiff.mpr (by omega)
      simp only [hc, beq_self_eq_true, if_true, h2k]
      exact hnext
    · have hc : closest (k : Int) 1 (l.length : Int) ≠ 1 :=
        fun hc => h2k (by have := hiff.mp hc; omega)
      have hb : (closest (k : Int) 1 (l.length : Int) == 1) = false := by
        simpa using hc
      simp only [hb, h2k, if_false]
      exact hprior
  have hx : (l.nodes[k - 1]).code = (k : Int) := by
    have := dense_code_at l hd (k - 1) _ (List.getElem?_eq_getElem hlt)
    omega
  have hdrop : l.nodes.drop (k - 1) = l.nodes[k - 1] :: l.nodes.drop k := by
    rw [List.drop_eq_getElem_cons hlt, hk]
  have htake : l.nodes.take k = l.nodes.take (k - 1) ++ [l.nodes[k - 1]] := by
    conv_lhs => rw [← hk]
    rw [List.take_succ, List.getElem?_eq_getElem hlt]
    rfl
  have hhead : (l.nodes.take k).head? = l.head := by
    simp only [head]
    cases hn : l.nodes with
    | nil => simp
    | cons a rest =>
      obtain ⟨j, hj⟩ : ∃ j, k = j + 1 := ⟨k - 1, by omega⟩
      rw [hj]
      rfl
  have hlast : ((l.nodes.drop (k - 1)).reverse).head? = l.last := by
    simp only [last, List.head?_reverse]
    rw [List.getLast?_drop, if_neg (by omega)]
  refine ⟨closest_eq_min_iff lo t hi h1 h2 h3, ?_, ?_, ?_, ?_⟩
  · by_cases h2k : 2 * k ≤ l.length + 1
    · rw [hv, if_pos h2k, hhead]
      exact ⟨fun _ => h2k, fun _ => rfl⟩
    · rw [hv, if_neg h2k, hlast, hl, hf]
      constructor
      · intro h5
        have h6 : final = first := Option.some.inj h5
        rw [h6, hfc] at hlc
        omega
      · intro h5
        exact absurd h5 h2k
  · intro h2k
    rw [hv, if_pos h2k]
  · intro h2k
    rw [hv, if_neg (by omega)]
    exact ⟨hlast, rfl⟩
  · refine ⟨l.nodes[k - 1], ?_, List.getElem?_eq_getElem hlt, hx⟩
    by_cases h2k : 2 * k ≤ l.length + 1
    · rw [hv, if_pos h2k, htake, List.getLast?_concat]
    · rw [hv, if_neg h2k, hdrop]
      simp

/-- An instance of C16: in five notes the loop for code 4 starts at the tail and
passes through the notes 5 and 4, the loop for code 2 starts at the head and
passes through the notes 1 and 2, and for code 3 (a tie) it starts at the
head. -/
theorem closest_is_half_range_witness :
    (1 : Int) ≤ 4 ∧ (4 : Int) ≤ 5 ∧ (5 : Int) - 1 ≤ 2147483647 ∧ Reachable five_notes ∧
      five_notes.length ≤ 2147483647 ∧ 1 ≤ 4 ∧ 4 ≤ five_notes.length ∧
      ((closest 4 1 5 = 1 ↔ (4 : Int) - 1 ≤ 5 - 4) ∧
        ((five_notes.delete_note_visit ((4 : Nat) : Int)).2.head? = five_notes.head ↔
          2 * 4 ≤ five_notes.length + 1) ∧
        (2 * 4 ≤ five_notes.length + 1 →
          (five_notes.delete_note_visit ((4 : Nat) : Int)).2 = five_notes.nodes.take 4) ∧
        (five_notes.length + 1 < 2 * 4 →
          (five_notes.delete_note_visit ((4 : Nat) : Int)).2.head? = five_notes.last ∧
            (five_notes.delete_note_visit ((4 : Nat) : Int)).2 =
              (five_notes.nodes.drop (4 - 1)).reverse) ∧
        ∃ n, (five_notes.delete_note_visit ((4 : Nat) : Int)).2.getLast? = some n ∧
          five_notes.nodes[4 - 1]? = some n ∧ n.code = ((4 : Nat) : Int)) ∧
      (five_notes.delete_note_visit 4).2.map (fun n => n.code) = [5, 4] ∧
      (five_notes.delete_note_visit 2).2.map (fun n => n.code) = [1, 2] ∧
      (five_notes.delete_note_visit 3).2.map (fun n => n.code) = [1, 2, 3] ∧
      (five_notes.delete_note_visit 4).1 = five_notes.delete_note 4 :=
  ⟨by decide, by decide, by decide, five_notes_reachable, by decide, by decide, by decide,
    closest_is_half_range 1 4 5 (by decide) (by decide) (by decide) five_notes
      five_notes_reachable (by decide) 4 (by decide) (by decide),
    by decide, by decide, by decide, rfl⟩

/-- C17, as stated, fails: the empty collection is reachable and has fewer
than 2147483647 notes, `fetchCodes` gives no option for it, and `fetch_input`
with no option accepts every text.  It returns `abc`, for which `safe_stoi` is
the error sentinel, and `5`, for which `search` finds nothing; so
`prompt_delete_note` prompts again after the parse failure and then reports
that the note is not found. -/
theorem deletion_defensive_counterexample :
    Reachable create_list ∧ create_list.length < 2147483647 ∧ create_list.fetchCodes = [] ∧
      fetch_input CODE_PROMPT create_list.fetchCodes "abc\n5\n".toList =
        some ("abc".toList, "5\n".toList, [CODE_PROMPT]) ∧
      safe_stoi "abc".toList = _MAX_INTEGER ∧
      fetch_input CODE_PROMPT create_list.fetchCodes "5\n".toList =
        some ("5".toList, [], [CODE_PROMPT]) ∧
      safe_stoi "5".toList = 5 ∧ create_list.search 5 = none ∧
      prompt_delete_note create_list "abc\n5\n".toList =
        some (create_list, [],
          ["\n".toList, "----------- \x1b[1;34m[Note Deletion]\x1b[0m -----------\n".toList,
            CODE_PROMPT,
            "\x1b[1;31m[ERROR]:\x1b[31m Invalid input! Not a valid number.\x1b[0m\n".toList,
            CODE_PROMPT, NOT_FOUND, CLOSING_RULE]) :=
  ⟨Reachable.create, by decide, by decide, by decide, by decide, by decide, by decide, by decide,
    by decide⟩

/-- C17, amended (the defensive branches of deletion are unreachable): for
every reachable non-empty collection with fewer than 2147483647 notes and
every string `s` that `fetch_input` can return when given `fetchCodes()` as
the accepted options, `s` is one of the listed codes, `safe_stoi s` is not the
error sentinel and prints nothing, and `search (safe_stoi s)` finds a note; so
`prompt_delete_note` calls `fetch_input` once, deletes that note and reports
the deletion, and never prompts again or reports that the note is not
found. -/
theorem deletion_defensive_unreachable (l : LinkedList) (h : Reachable l)
    (hpos : 1 ≤ l.length) (hlen : l.length < 2147483647) (stdin : string) :
    (∀ r, fetch_input CODE_PROMPT l.fetchCodes stdin = some r →
        r.1 ∈ l.fetchCodes ∧ safe_stoi r.1 ≠ _MAX_INTEGER ∧ safe_stoi_output r.1 = [] ∧
          ∃ n, l.search (safe_stoi r.1) = some n ∧ n.code = safe_stoi r.1) ∧
      prompt_delete_note l stdin =
        (fetch_input CODE_PROMPT l.fetchCodes stdin).map (fun r =>
          (l.delete_note (safe_stoi r.1), r.2.1,
            ["\n".toList, "----------- \x1b[1;34m[Note Deletion]\x1b[0m -----------\n".toList] ++
              r.2.2 ++ [DELETED, CLOSING_RULE])) := by
  have hd := reachable_dense l h
  have hne := fetchCodes_ne_nil l hd hpos
  have hall : ∀ r, fetch_input CODE_PROMPT l.fetchCodes stdin = some r →
      r.1 ∈ l.fetchCodes ∧ safe_stoi r.1 ≠ _MAX_INTEGER ∧ safe_stoi_output r.1 = [] ∧
        ∃ n, l.search (safe_stoi r.1) = some n ∧ n.code = safe_stoi r.1 := by
    intro r hr
    have hm := fetch_input_mem CODE_PROMPT l.fetchCodes hne stdin r hr
    exact ⟨hm, listed_code_found l hd hlen r.1 hm⟩
  refine ⟨hall, ?_⟩
  unfold prompt_delete_note
  rw [prompt_delete_loop]
  cases hf : fetch_input CODE_PROMPT l.fetchCodes stdin with
  | none => rfl
  | some r =>
    obtain ⟨code, rest, out1⟩ := r
    obtain ⟨_, h1, h2, n, h3, _⟩ := hall _ hf
    simp only at h1 h2 h3
    simp only [h1, h2, h3, if_false, Option.isSome_some, if_true, List.append_nil,
      Option.map_some']

/-- An instance of the amended C17: with five notes the input `7` is rejected
by `fetch_input` and the input `3` deletes the third note. -/
theorem deletion_defensive_unreachable_witness :
    Reachable five_notes ∧ 1 ≤ five_notes.length ∧ five_notes.length < 2147483647 ∧
      ((∀ r, fetch_input CODE_PROMPT five_notes.fetchCodes "7\n3\n".toList = some r →
          r.1 ∈ five_notes.fetchCodes ∧ safe_stoi r.1 ≠ _MAX_INTEGER ∧
            safe_stoi_output r.1 = [] ∧
            ∃ n, five_notes.search (safe_stoi r.1) = some n ∧ n.code = safe_stoi r.1) ∧
        prompt_delete_note five_notes "7\n3\n".toList =
          (fetch_input CODE_PROMPT five_notes.fetchCodes "7\n3\n".toList).map (fun r =>
            (five_notes.delete_note (safe_stoi r.1), r.2.1,
              ["\n".toList,
                  "----------- \x1b[1;34m[Note Deletion]\x1b[0m -----------\n".toList] ++
                r.2.2 ++ [DELETED, CLOSING_RULE]))) ∧
      prompt_delete_note five_notes "7\n3\n".toList =
        some (five_notes.delete_note 3, [],
          ["\n".toList, "----------- \x1b[1;34m[Note Deletion]\x1b[0m -----------\n".toList,
            CODE_PROMPT, fetch_input_invalid, CODE_PROMPT, DELETED, CLOSING_RULE]) :=
  ⟨five_notes_reachable, by decide, by decide,
    deletion_defensive_unreachable five_notes five_notes_reachable (by decide) (by decide)
      "7\n3\n".toList,
    by decide⟩

/-- C18, as stated, fails: for the title ` Ab`, typed with a space in front,
and the description `Cd`, the note appended holds the title `ab`, which is not
` Ab` in lower case, ` ab`; `std::ws` has dropped the space. -/
theorem created_notes_counterexample :
    prompt_create_note create_list " Ab\nCd\n".toList =
        some ({ nodes := [⟨1, "ab".toList, "cd".toList⟩], length := 1 }, [],
          ["\n".toList, "---------- \x1b[1;34m[Note Insertion]\x1b[0m -----------\n".toList,
            NAME_PROMPT, DESCRIPTION_PROMPT,
            "\x1b[1;33m[Inserted]:\x1b[0m \x1b[1;42mab\x1b[0m at position 1.\n".toList,
            CLOSING_RULE]) ∧
      lower " Ab".toList = " ab".toList ∧ "ab".toList ≠ lower " Ab".toList := by
  decide

/-- C18, amended (created notes are stored lowercased): `fetch_input` returns
the accepted input line, taken from its first character other than white
space, converted to lower case.  So when the input holds, after optional
white space, a title line and, after optional white space again, a description
line, the note `prompt_create_note` appends to a reachable collection holds
`lower title` and `lower description` with the code `length + 1`, where
`title` and `description` are the typed texts without their leading white
space; a stored text equals the typed one exactly when the typed one has no
white space in front and contains no upper-case letter. -/
theorem created_notes_lowercased (list : LinkedList) (h : Reachable list)
    (pre1 title pre2 description rest : string)
    (hpre1 : ∀ c ∈ pre1, isspace c = true) (ht1 : title ≠ [])
    (ht2 : ∀ c, title.head? = some c → isspace c = false) (ht3 : '\n' ∉ title)
    (hpre2 : ∀ c ∈ pre2, isspace c = true) (hd1 : description ≠ [])
    (hd2 : ∀ c, description.head? = some c → isspace c = false) (hd3 : '\n' ∉ description) :
    fetch_input NAME_PROMPT [] (pre1 ++ title ++ '\n' :: (pre2 ++ description ++ '\n' :: rest)) =
        some (lower title, pre2 ++ description ++ '\n' :: rest, [NAME_PROMPT]) ∧
      fetch_input DESCRIPTION_PROMPT [] (pre2 ++ description ++ '\n' :: rest) =
        some (lower description, rest, [DESCRIPTION_PROMPT]) ∧
      (∃ out, prompt_create_note list
          (pre1 ++ title ++ '\n' :: (pre2 ++ description ++ '\n' :: rest)) =
        some ({ nodes := list.nodes ++
                  [{ code := (list.length : Int) + 1, title := lower title,
                     description := lower description }],
                length := list.length + 1 }, rest, out)) ∧
      (lower title = pre1 ++ title ↔ pre1 = [] ∧ ∀ c ∈ title, isupper c = false) ∧
      (lower description = pre2 ++ description ↔
        pre2 = [] ∧ ∀ c ∈ description, isupper c = false) := by
  have g1 := getline_ws_line pre1 title (pre2 ++ description ++ '\n' :: rest) hpre1 ht1 ht2 ht3
  have g2 := getline_ws_line pre2 description rest hpre2 hd1 hd2 hd3
  have f1 : fetch_input NAME_PROMPT []
      (pre1 ++ title ++ '\n' :: (pre2 ++ description ++ '\n' :: rest)) =
      some (lower title, pre2 ++ description ++ '\n' :: rest, [NAME_PROMPT]) := by
    rw [fetch_input_free, g1]
    rfl
  have f2 : fetch_input DESCRIPTION_PROMPT [] (pre2 ++ description ++ '\n' :: rest) =
      some (lower description, rest, [DESCRIPTION_PROMPT]) := by
    rw [fetch_input_free, g2]
    rfl
  refine ⟨f1, f2, ?_, lower_eq_typed pre1 title, lower_eq_typed pre2 description⟩
  have hp : list.push_node (create_note list.yieldCode (lower title) (lower description)) =
      { nodes := list.nodes ++
          [{ code := (list.length : Int) + 1, title := lower title,
             description := lower description }],
        length := list.length + 1 } :=
    push_node_spec list (reachable_dense list h)
      (create_note list.yieldCode (lower title) (lower description))
  simp only [prompt_create_note, f1, f2, hp]
  exact ⟨_, rfl⟩

/-- An instance of the amended C18: the texts `Groceries` and `Buy MILK at 9`,
typed after some white space, are stored as `groceries` and
`buy milk at 9`. -/
theorem created_notes_lowercased_witness :
    Reachable five_notes ∧ (∀ c ∈ "  ".toList, isspace c = true) ∧ "Groceries".toList ≠ [] ∧
      (∀ c, "Groceries".toList.head? = some c → isspace c = false) ∧
      '\n' ∉ "Groceries".toList ∧ (∀ c ∈ "\n ".toList, isspace c = true) ∧
      "Buy MILK at 9".toList ≠ [] ∧
      (∀ c, "Buy MILK at 9".toList.head? = some c → isspace c = false) ∧
      '\n' ∉ "Buy MILK at 9".toList ∧
      (fetch_input NAME_PROMPT []
            ("  ".toList ++ "Groceries".toList ++
              '\n' :: ("\n ".toList ++ "Buy MILK at 9".toList ++ '\n' :: "c\n".toList)) =
          some (lower "Groceries".toList,
            "\n ".toList ++ "Buy MILK at 9".toList ++ '\n' :: "c\n".toList, [NAME_PROMPT]) ∧
        fetch_input DESCRIPTION_PROMPT []
            ("\n ".toList ++ "Buy MILK at 9".toList ++ '\n' :: "c\n".toList) =
          some (lower "Buy MILK at 9".toList, "c\n".toList, [DESCRIPTION_PROMPT]) ∧
        (∃ out, prompt_create_note five_notes
            ("  ".toList ++ "Groceries".toList ++
              '\n' :: ("\n ".toList ++ "Buy MILK at 9".toList ++ '\n' :: "c\n".toList)) =
          some ({ nodes := five_notes.nodes ++
                    [{ code := (five_notes.length : Int) + 1,
                       title := lower "Groceries".toList,
                       description := lower "Buy MILK at 9".toList }],
                  length := five_notes.length + 1 }, "c\n".toList, out)) ∧
        (lower "Groceries".toList = "  ".toList ++ "Groceries".toList ↔
          "  ".toList = [] ∧ ∀ c ∈ "Groceries".toList, isupper c = false) ∧
        (lower "Buy MILK at 9".toList = "\n ".toList ++ "Buy MILK at 9".toList ↔
          "\n ".toList = [] ∧ ∀ c ∈ "Buy MILK at 9".toList, isupper c = false)) ∧
      lower "Groceries".toList = "groceries".toList ∧
      lower "Buy MILK at 9".toList = "buy milk at 9".toList ∧
      (prompt_create_note five_notes "  Groceries\n\n Buy MILK at 9\nc\n".toList).map
          (fun r => (r.1.nodes.getLast?, r.2.1)) =
        some (some ⟨6, "groceries".toList, "buy milk at 9".toList⟩, "c\n".toList) :=
  ⟨five_notes_reachable, by decide, by decide, by decide, by decide, by decide, by decide,
    by decide, by decide,
    created_notes_lowercased five_notes five_notes_reachable "  ".toList "Groceries".toList
      "\n ".toList "Buy MILK at 9".toList "c\n".toList (by decide) (by decide) (by decide)
      (by decide) (by decide) (by decide) (by decide) (by decide),
    by decide, by decide, by decide⟩

/-- C19, as stated, fails: for `n = 7` and the padding `p = -1` the claim gives
the unpadded text `7`.  The comparison `as_string.length() < padding` is made
in `size_t`, where -1 is 18446744073709551615, a length no string can have, so
the loop puts zeros in front until `'0' + as_string` throws, and the call does
not return. -/
theorem format_padding_counterexample :
    (0 : Int) ≤ 7 ∧ to_size_t (-1) = 18446744073709551615 ∧ max_size < to_size_t (-1) ∧
      format 7 (-1) = none ∧
      format 7 (-1) ≠
        some (List.replicate ((-1 : Int) - ((to_string 7).length : Int)).toNat '0' ++
          to_string 7) := by
  have h : format 7 (-1) = none :=
    format_negative 7 (by decide) (-1) (by decide) (by decide)
  refine ⟨by decide, by decide, by decide, h, ?_⟩
  rw [h]
  exact fun e => Option.noConfusion e

/-- C19 (zero-padding of displayed codes), amended: for every integer `n ≥ 0`
and padding `0 ≤ p ≤ 2147483647`, `format n p` returns the decimal text of `n`
preceded by exactly `max(0, p - digits(n))` characters `0`; in particular for
every code `1 ≤ n ≤ 99999`, `format n 5` has exactly 5 characters, all digits,
and reads back as `n`, and for `n ≥ 100000` it is the unpadded decimal text;
for a negative padding the call does not return. -/
theorem format_padding (n p : Int) (hn : 0 ≤ n) (hp1 : 0 ≤ p) (hp2 : p ≤ 2147483647) :
    format n p =
        some (List.replicate (p - ((to_string n).length : Int)).toNat '0' ++ to_string n) ∧
      (1 ≤ n → n ≤ 99999 →
        ∃ s, format n 5 = some s ∧ s.length = 5 ∧ (∀ c ∈ s, isdigit c = true) ∧
          stoi s = stoi_result.value n) ∧
      (100000 ≤ n → format n 5 = some (to_string n)) ∧
      (n ≤ 2147483647 → ∀ q : Int, -2147483648 ≤ q → q < 0 → format n q = none) := by
  obtain ⟨m, rfl⟩ : ∃ m : Nat, n = (m : Int) := ⟨n.toNat, by omega⟩
  obtain ⟨w, rfl⟩ : ∃ w : Nat, p = (w : Int) := ⟨p.toNat, by omega⟩
  refine ⟨?_, ?_, ?_, ?_⟩
  · have e : ((w : Int) - (((to_string (m : Int)).length : Nat) : Int)).toNat =
        w - (to_string (m : Int)).length := by omega
    rw [format_nat m w (by omega), e]
  · intro _ h2
    exact format_five_small m (by omega)
  · intro h1
    exact format_five_large m (by omega)
  · intro h1 q hq1 hq2
    exact format_negative m (by omega) q hq1 hq2

/-- An instance of C19: the code 7 is shown as `00007`, which reads back as 7;
the code 123456 is shown in full; with the padding 0 nothing is put in
front. -/
theorem format_padding_witness :
    (0 : Int) ≤ 7 ∧ (0 : Int) ≤ 5 ∧ (5 : Int) ≤ 2147483647 ∧
      (format 7 5 =
          some (List.replicate ((5 : Int) - ((to_string 7).length : Int)).toNat '0' ++
            to_string 7) ∧
        ((1 : Int) ≤ 7 → (7 : Int) ≤ 99999 →
          ∃ s, format 7 5 = some s ∧ s.length = 5 ∧ (∀ c ∈ s, isdigit c = true) ∧
            stoi s = stoi_result.value 7) ∧
        ((100000 : Int) ≤ 7 → format 7 5 = some (to_string 7)) ∧
        ((7 : Int) ≤ 2147483647 →
          ∀ q : Int, -2147483648 ≤ q → q < 0 → format 7 q = none)) ∧
      format 7 5 = some "00007".toList ∧
      stoi "00007".toList = stoi_result.value 7 ∧
      format 123456 5 = some "123456".toList ∧
      format 42 0 = some "42".toList ∧
      format 99999 5 = some "99999".toList :=
  ⟨by decide, by decide, by decide,
    format_padding 7 5 (by decide) (by decide) (by decide),
    by decide, by decide, by decide, by decide, by decide⟩

/-- C20 (display output): on an empty reachable collection `display_all`
prints nothing at all, neither heading nor note block nor closing rule; on a
reachable collection of length `n ≥ 1` it prints the heading, exactly `n` note
blocks in head-to-tail order and the closing rule, and the `i`-th note block
is numbered `i` and shows the code, which is `i`, the title and the
description of the `i`-th note. -/
theorem display_all_blocks (l : LinkedList) (h : Reachable l) :
    (l.length = 0 → display_all l = [] ∧ display_text l = []) ∧
      (1 ≤ l.length →
        display_all l =
          [Block.heading] ++
            List.zipWith (fun (i : Int) (n : Note) => Block.note i n.code n.title n.description)
              (one_to l.length) l.nodes ++ [Block.closing] ∧
        (display_all l).length = l.length + 2 ∧
        ∀ (i : Nat) (n : Note), l.nodes[i]? = some n →
          n.code = (i : Int) + 1 ∧
          (display_all l)[i + 1]? =
            some (Block.note ((i : Int) + 1) ((i : Int) + 1) n.title n.description)) := by
  have hd := reachable_dense l h
  constructor
  · intro h0
    have : display_all l = [] := by simp [display_all, h0]
    exact ⟨this, by simp [display_text, this]⟩
  · intro hpos
    have hall := display_all_dense l hd hpos
    have hlen2 : ∀ m : Nat, (one_to m).length = m := by intro m; simp [one_to]
    have hlen1 : (one_to l.length).length = l.nodes.length := by rw [hlen2, hd.1]
    refine ⟨hall, ?_, ?_⟩
    · rw [hall]
      simp only [List.length_append, List.length_zipWith, hlen1, List.length_singleton,
        Nat.min_self]
      rw [hd.1]
      omega
    · intro i n hi
      have hc := dense_code_at l hd i n hi
      have hlt : i < l.nodes.length := (List.getElem?_eq_some_iff.mp hi).1
      have hone : (one_to l.length)[i]? = some ((i : Int) + 1) := by
        simp only [one_to, List.getElem?_map]
        rw [List.getElem?_range (by rw [hd.1]; exact hlt)]
        rfl
      refine ⟨hc, ?_⟩
      rw [hall, List.append_assoc, List.singleton_append, List.getElem?_cons_succ,
        List.getElem?_append_left (by
          simp only [List.length_zipWith, hlen1, Nat.min_self]
          exact hlt),
        List.getElem?_zipWith, hone, hi]
      simp only [hc]

/-- An instance of C20: the seven blocks printed for five notes, and nothing
for the empty list. -/
theorem display_all_blocks_witness :
    Reachable five_notes ∧
      ((five_notes.length = 0 → display_all five_notes = [] ∧ display_text five_notes = []) ∧
        (1 ≤ five_notes.length →
          display_all five_notes =
            [Block.heading] ++
              List.zipWith
                (fun (i : Int) (n : Note) => Block.note i n.code n.title n.description)
                (one_to five_notes.length) five_notes.nodes ++ [Block.closing] ∧
          (display_all five_notes).length = five_notes.length + 2 ∧
          ∀ (i : Nat) (n : Note), five_notes.nodes[i]? = some n →
            n.code = (i : Int) + 1 ∧
            (display_all five_notes)[i + 1]? =
              some (Block.note ((i : Int) + 1) ((i : Int) + 1) n.title n.description))) ∧
      display_all five_notes =
        [Block.heading, Block.note 1 1 "alpha".toList "first".toList,
          Block.note 2 2 "beta".toList "second".toList,
          Block.note 3 3 "gamma".toList "third".toList,
          Block.note 4 4 "delta".toList "fourth".toList,
          Block.note 5 5 "epsilon".toList "fifth".toList, Block.closing] ∧
      display_all create_list = [] ∧ display_text create_list = [] :=
  ⟨five_notes_reachable, display_all_blocks five_notes five_notes_reachable, by decide,
    by decide, by decide⟩

end SimpleNoteApp
